import Mathlib

/-!
# Concept dictionary and diagnostics of the Gauge language server

A shallow embedding of `gauge/concept.go` and `api/lang/diagnostics.go`.

Go pointers to steps (`*Step`) are addresses into an explicit memory, so that two
references to the same step observe each other's writes, as they do in Go.
-/

namespace Gauge

/-! ## Go maps with string keys -/

/-- A Go map with string keys whose entries are listed in the order in which `range`
visits them. -/
abbrev GoMap (V : Type) := List (String × V)

/-- Go `m[k]` in its two-result form. -/
def GoMap.get? {V : Type} : GoMap V → String → Option V
  | [], _ => none
  | (k', v) :: t, k => if k' = k then some v else GoMap.get? t k

/-- Go `m[k] = v`. -/
def GoMap.set {V : Type} : GoMap V → String → V → GoMap V
  | [], k, v => [(k, v)]
  | (k', v') :: t, k, v => if k' = k then (k', v) :: t else (k', v') :: GoMap.set t k v

/-- Keys of a Go map. -/
def GoMap.keys {V : Type} (m : GoMap V) : List String := m.map Prod.fst

/-! ## Data model of `gauge/concept.go` -/

/-- A `*Step`. -/
abbrev Addr := Nat

/-- The two fields of `StepArg` that `concept.go` reads and writes. -/
structure StepArg where
  ArgType : String
  Value : String
deriving DecidableEq, Repr

/-- Modelled from the spec: the type `ArgLookup` is not part of the sources at hand. The
spec calls it a per-step table of parameter-name to argument-value bindings that aliases
unless it is copied; the value stored in a step is therefore a reference to the storage
of the table. -/
structure ArgLookup where
  ref : Nat
deriving DecidableEq, Repr

/-- The storage of one lookup table: parameter names with their bound argument, if any. -/
abbrev Table := GoMap (Option StepArg)

/-- The fields of `Step` used by `concept.go`. -/
structure Step where
  Value : String
  IsConcept : Bool
  Args : List StepArg
  ConceptSteps : List Addr
  Lookup : ArgLookup
  Parent : Option Addr
  LineNo : Int
deriving DecidableEq, Repr

/-- Go `Concept`. -/
structure Concept where
  ConceptStep : Addr
  FileName : String
deriving DecidableEq, Repr

/-- Go `ConceptDictionary`. A missing key of `constructionMap` reads as the nil slice. -/
structure ConceptDictionary where
  ConceptsMap : GoMap Concept
  constructionMap : String → List Addr

/-- The steps and lookup tables that pointers refer to; `next` is the first table
reference that has not been handed out. -/
structure Memory where
  steps : Addr → Step
  tables : Nat → Table
  next : Nat

/-- Write one step. -/
def Memory.setStep (m : Memory) (a : Addr) (s : Step) : Memory :=
  { m with steps := fun x => if x = a then s else m.steps x }

/-- Write one table. -/
def Memory.setTable (m : Memory) (r : Nat) (t : Table) : Memory :=
  { m with tables := fun x => if x = r then t else m.tables x }

/-- The table a step's `Lookup` refers to. -/
def Memory.lookupOf (m : Memory) (a : Addr) : Table := m.tables (m.steps a).Lookup.ref

/-- Go `NewConceptDictionary`. -/
def NewConceptDictionary : ConceptDictionary :=
  { ConceptsMap := [], constructionMap := fun _ => [] }

/-- Go `dict.constructionMap[k] = l`. -/
def ConceptDictionary.setBucket (d : ConceptDictionary) (k : String) (l : List Addr) :
    ConceptDictionary :=
  { d with constructionMap := fun x => if x = k then l else d.constructionMap x }

/-- Go `ConceptDictionary.Search`. -/
def ConceptDictionary.Search (d : ConceptDictionary) (stepValue : String) : Option Concept :=
  GoMap.get? d.ConceptsMap stepValue

/-- Modelled from the spec: `ArgLookup.GetCopy` is not part of the sources at hand. The
spec requires a deep copy that is never aliased: the copy lives in storage of its own and
holds the bindings of the original. The spec names no condition under which a copy fails,
so this one succeeds; callers keep their error branch. -/
def GetCopy (m : Memory) (l : ArgLookup) : Except String (ArgLookup × Memory) :=
  .ok (⟨m.next⟩, { (m.setTable m.next (m.tables l.ref)) with next := m.next + 1 })

/-- Modelled from the spec: `ArgLookup.AddArgValue` is not part of the sources at hand.
It binds a value to a parameter name of the table and reports an error for a name the
table does not have. -/
def AddArgValue (m : Memory) (l : ArgLookup) (param : String) (arg : StepArg) :
    Except String Memory :=
  match GoMap.get? (m.tables l.ref) param with
  | none => .error ("Accessing an invalid parameter (" ++ param ++ ")")
  | some _ => .ok (m.setTable l.ref (GoMap.set (m.tables l.ref) param (some arg)))

/-- Body of the loop of `updateStep`: `allSteps` takes the flag, the expansion and a copy
of the lookup of `step`. -/
def copyOnto (m : Memory) (allSteps step : Addr) : Except String Memory :=
  let m1 := m.setStep allSteps { m.steps allSteps with IsConcept := (m.steps step).IsConcept }
  let m2 := m1.setStep allSteps
    { m1.steps allSteps with ConceptSteps := (m1.steps step).ConceptSteps }
  match GetCopy m2 (m2.steps step).Lookup with
  | .error e => .error e
  | .ok (lookupCopy, m3) =>
    .ok (m3.setStep allSteps { m3.steps allSteps with Lookup := lookupCopy })

/-- The loop of `updateStep` over the steps recorded under the value of `step`. -/
def updateAll (step : Addr) : List Addr → Memory → Except String Memory
  | [], m => .ok m
  | allSteps :: rest, m =>
    match copyOnto m allSteps step with
    | .error e => .error e
    | .ok m' => updateAll step rest m'

/-- Go `ConceptDictionary.updateStep`. -/
def updateStep (d : ConceptDictionary) (m : Memory) (step : Addr) :
    Except String (ConceptDictionary × Memory) :=
  let v := (m.steps step).Value
  let d1 := d.setBucket v (d.constructionMap v ++ [step])
  match (d1.constructionMap v).head? with
  | none => .error "index out of range"
  | some first =>
    if !(m.steps first).IsConcept then
      let d2 := d1.setBucket v (d1.constructionMap v ++ [step])
      match updateAll step (d2.constructionMap v) m with
      | .error e => .error e
      | .ok m' => .ok (d2, m')
    else .ok (d1, m)

/-- Lines 48 to 54 of `concept.go`: the nested concept is spliced into the step that
`conceptStep.ConceptSteps[i]` denotes at each of the three assignments. -/
def spliceAt (m : Memory) (conceptStep : Addr) (i : Nat) (nestedConcept : Concept) :
    Except String Memory :=
  match (m.steps conceptStep).ConceptSteps.get? i with
  | none => .error "index out of range"
  | some a1 =>
    let m1 := m.setStep a1
      { m.steps a1 with ConceptSteps := (m.steps nestedConcept.ConceptStep).ConceptSteps }
    match (m1.steps conceptStep).ConceptSteps.get? i with
    | none => .error "index out of range"
    | some a2 =>
      let m2 := m1.setStep a2
        { m1.steps a2 with IsConcept := (m1.steps nestedConcept.ConceptStep).IsConcept }
      match GetCopy m2 (m2.steps nestedConcept.ConceptStep).Lookup with
      | .error e => .error e
      | .ok (lookupCopy, m3) =>
        match (m3.steps conceptStep).ConceptSteps.get? i with
        | none => .error "index out of range"
        | some a3 => .ok (m3.setStep a3 { m3.steps a3 with Lookup := lookupCopy })

/-- The loop of `ReplaceNestedConceptSteps`, from index `i` on, over the rest of the slice
that `range` evaluated. -/
def replaceLoop (conceptStep : Addr) :
    Nat → List Addr → ConceptDictionary → Memory → Except String (ConceptDictionary × Memory)
  | _, [], d, m => .ok (d, m)
  | i, stepInsideConcept :: rest, d, m =>
    match d.Search (m.steps stepInsideConcept).Value with
    | some nestedConcept =>
      match spliceAt m conceptStep i nestedConcept with
      | .error e => .error e
      | .ok m' => replaceLoop conceptStep (i + 1) rest d m'
    | none =>
      match updateStep d m stepInsideConcept with
      | .error e => .error e
      | .ok (d', m') => replaceLoop conceptStep (i + 1) rest d' m'

/-- Go `ConceptDictionary.ReplaceNestedConceptSteps`. -/
def ReplaceNestedConceptSteps (d : ConceptDictionary) (m : Memory) (conceptStep : Addr) :
    Except String (ConceptDictionary × Memory) :=
  match updateStep d m conceptStep with
  | .error e => .error e
  | .ok (d1, m1) => replaceLoop conceptStep 0 (m1.steps conceptStep).ConceptSteps d1 m1

/-- The innermost loop of `UpdateLookupForNestedConcepts`: the parameters of the nested
concept, from index `i` on, are bound to the arguments of the step at the same index. -/
def bindArgs (stepInsideConcept : Addr) : Nat → List StepArg → Memory → Except String Memory
  | _, [], m => .ok m
  | i, arg :: rest, m =>
    match (m.steps stepInsideConcept).Args.get? i with
    | none => .error "index out of range"
    | some a =>
      match AddArgValue m (m.steps stepInsideConcept).Lookup arg.Value
          { ArgType := a.ArgType, Value := a.Value } with
      | .error e => .error ("Unable to update concept lookup: " ++ e)
      | .ok m' => bindArgs stepInsideConcept (i + 1) rest m'

/-- The body of the loop of `UpdateLookupForNestedConcepts` over the steps of one
concept. -/
def bindStep (d : ConceptDictionary) (conceptStep stepInsideConcept : Addr) (m : Memory) :
    Except String Memory :=
  let m1 := m.setStep stepInsideConcept
    { m.steps stepInsideConcept with Parent := some conceptStep }
  match d.Search (m1.steps stepInsideConcept).Value with
  | some nestedConcept =>
    bindArgs stepInsideConcept 0 (m1.steps nestedConcept.ConceptStep).Args m1
  | none => .ok m1

/-- The loop of `UpdateLookupForNestedConcepts` over the steps of one concept. -/
def bindSteps (d : ConceptDictionary) (conceptStep : Addr) :
    List Addr → Memory → Except String Memory
  | [], m => .ok m
  | stepInsideConcept :: rest, m =>
    match bindStep d conceptStep stepInsideConcept m with
    | .error e => .error e
    | .ok m' => bindSteps d conceptStep rest m'

/-- The outer loop of `UpdateLookupForNestedConcepts` over the concepts of the dictionary. -/
def bindConcepts (d : ConceptDictionary) : List (String × Concept) → Memory → Except String Memory
  | [], m => .ok m
  | (_, concept) :: rest, m =>
    match bindSteps d concept.ConceptStep (m.steps concept.ConceptStep).ConceptSteps m with
    | .error e => .error e
    | .ok m' => bindConcepts d rest m'

/-- Go `ConceptDictionary.UpdateLookupForNestedConcepts`. -/
def UpdateLookupForNestedConcepts (d : ConceptDictionary) (m : Memory) : Except String Memory :=
  bindConcepts d d.ConceptsMap m

/-! ## The observable state of the steps -/

/-- What can be observed of a step: its fields, with the bindings of its lookup table in
place of the reference to them. -/
structure StepView where
  Value : String
  IsConcept : Bool
  Args : List StepArg
  ConceptSteps : List Addr
  Lookup : Table
  Parent : Option Addr
  LineNo : Int

/-- The observable state of every step. -/
def Memory.view (m : Memory) (a : Addr) : StepView :=
  { Value := (m.steps a).Value, IsConcept := (m.steps a).IsConcept, Args := (m.steps a).Args,
    ConceptSteps := (m.steps a).ConceptSteps, Lookup := m.tables (m.steps a).Lookup.ref,
    Parent := (m.steps a).Parent, LineNo := (m.steps a).LineNo }

/-- Every table reference held by a step has been handed out. -/
def Memory.Allocated (m : Memory) : Prop := ∀ a, (m.steps a).Lookup.ref < m.next

/-- The three fields that `updateStep` and `ReplaceNestedConceptSteps` copy. -/
def StepView.content (v : StepView) : Bool × List Addr × Table :=
  (v.IsConcept, v.ConceptSteps, v.Lookup)

/-- The steps of `L` take the flag, the expansion and the bindings of `src`. -/
def overwrite (V : Addr → StepView) (L : List Addr) (src : Addr) : Addr → StepView :=
  fun x => if x ∈ L then
    { V x with IsConcept := (V src).IsConcept, ConceptSteps := (V src).ConceptSteps,
               Lookup := (V src).Lookup }
  else V x

/-- Well-formed state of the dictionary: table references are allocated, a step is
recorded under its own value, a concept is registered under the value of its step, and
the step of a registered concept is flagged as a concept. -/
structure WellFormed (d : ConceptDictionary) (m : Memory) : Prop where
  allocated : m.Allocated
  buckets : ∀ k a, a ∈ d.constructionMap k → (m.steps a).Value = k
  keys : ∀ k N, d.Search k = some N → (m.steps N.ConceptStep).Value = k
  flagged : ∀ k N, d.Search k = some N → (m.steps N.ConceptStep).IsConcept = true

/-- What is fixed during one run of `ReplaceNestedConceptSteps` on the step `s`: the
registered concepts `CM0` and the state `V0` of the steps before the run. -/
structure Setting (s : Addr) (CM0 : GoMap Concept) (V0 : Addr → StepView) : Prop where
  keys : ∀ k N, GoMap.get? CM0 k = some N → (V0 N.ConceptStep).Value = k
  concept : (V0 s).IsConcept = true
  notSelf : s ∉ (V0 s).ConceptSteps

/-- What every iteration of the loop of `ReplaceNestedConceptSteps` on `s` keeps. -/
structure Core (s : Addr) (CM0 : GoMap Concept) (V0 : Addr → StepView)
    (d : ConceptDictionary) (m : Memory) : Prop where
  allocated : m.Allocated
  cmap : d.ConceptsMap = CM0
  values : ∀ x, (m.view x).Value = (V0 x).Value
  buckets : ∀ k a, a ∈ d.constructionMap k → (V0 a).Value = k
  flagged : ∀ k N, GoMap.get? CM0 k = some N → (m.view N.ConceptStep).IsConcept = true
  self : (m.view s).content = (V0 s).content
  recorded : s ∈ d.constructionMap (V0 s).Value
  head : ∃ h, (d.constructionMap (V0 s).Value).head? = some h ∧ (m.view h).IsConcept = true

/-- The bucket of `k` is settled: its first step is flagged as a concept, or all its
steps agree on flag, expansion and bindings. Recording one of its steps again then
changes no step. -/
def BucketOK (d : ConceptDictionary) (m : Memory) (k : String) : Prop :=
  (∃ h, (d.constructionMap k).head? = some h ∧ (m.view h).IsConcept = true) ∨
  (∀ a ∈ d.constructionMap k, ∀ b ∈ d.constructionMap k,
    (m.view a).content = (m.view b).content)

/-- The step `c` inside a concept is resolved: it carries the flag, the expansion and the
bindings of the concept it names, or, when it names none, it is recorded in a settled
bucket. -/
def ChildOK (d : ConceptDictionary) (m : Memory) (c : Addr) : Prop :=
  (∀ N, d.Search (m.view c).Value = some N →
    (m.view c).content = (m.view N.ConceptStep).content) ∧
  (d.Search (m.view c).Value = none →
    c ∈ d.constructionMap (m.view c).Value ∧ BucketOK d m (m.view c).Value)

/-- The observations that a second run has to keep: the state of every step, the
registered concepts, the steps recorded under every value and the first of them. -/
structure SameObs (d : ConceptDictionary) (m : Memory) (d' : ConceptDictionary) (m' : Memory) :
    Prop where
  allocated : m'.Allocated
  view : m'.view = m.view
  cmap : d'.ConceptsMap = d.ConceptsMap
  members : ∀ k x, x ∈ d'.constructionMap k ↔ x ∈ d.constructionMap k
  heads : ∀ k, (d'.constructionMap k).head? = (d.constructionMap k).head?

/-- Go `dict.ConceptsMap[conceptStep.Value] = &Concept{conceptStep, file}`. -/
def register (d : ConceptDictionary) (m : Memory) (conceptStep : Addr) (file : String) :
    ConceptDictionary :=
  { d with
    ConceptsMap := GoMap.set d.ConceptsMap (m.steps conceptStep).Value
      (Concept.mk conceptStep file) }

/-- The load of one concept: it is registered under the value of its step, and its step is
resolved by `ReplaceNestedConceptSteps`. -/
def loadConcept (d : ConceptDictionary) (m : Memory) (conceptStep : Addr) (file : String) :
    Except String (ConceptDictionary × Memory) :=
  ReplaceNestedConceptSteps (register d m conceptStep file) m conceptStep

/-- The step `c` shares the storage of its lookup table with no other step. -/
def Memory.Unshared (m : Memory) (c : Addr) : Prop :=
  ∀ x, x ≠ c → (m.steps x).Lookup.ref ≠ (m.steps c).Lookup.ref

/-- The memory `m'` differs from `m` only in the parents of steps and in the values bound
in lookup tables: every table keeps its parameter names. -/
structure SameShape (m m' : Memory) : Prop where
  steps : ∀ x, m'.steps x = { m.steps x with Parent := (m'.steps x).Parent }
  names : ∀ r p, (GoMap.get? (m'.tables r) p).isSome = (GoMap.get? (m.tables r) p).isSome

/-- The argument that `UpdateLookupForNestedConcepts` builds from a call-site argument. -/
def boundArg (a : StepArg) : StepArg := { ArgType := a.ArgType, Value := a.Value }

/-- The condition under which the binding of the step `c` cannot fail: it has an argument
for every parameter of the concept it names, and its table has every parameter name. -/
def Bindable (d : ConceptDictionary) (m : Memory) (c : Addr) : Prop :=
  ∀ N, d.Search (m.steps c).Value = some N →
    (m.steps N.ConceptStep).Args.length ≤ (m.steps c).Args.length ∧
    ∀ p ∈ (m.steps N.ConceptStep).Args,
      (GoMap.get? (m.tables (m.steps c).Lookup.ref) p.Value).isSome = true

/-! ## Data model of `api/lang/diagnostics.go` -/

/-- Go `int` on a 64-bit platform: the value of an integer expression wraps around. -/
def wrapInt (x : Int) : Int := (x + 2 ^ 63) % 2 ^ 64 - 2 ^ 63

/-- Go `len` of a string: its number of bytes. -/
def len (s : String) : Int := (s.utf8ByteSize : Int)

/-- The type `lsp.Position`. -/
structure LspPosition where
  Line : Int
  Character : Int
deriving DecidableEq, Repr

/-- The type `lsp.Range`. -/
structure LspRange where
  Start : LspPosition
  End : LspPosition
deriving DecidableEq, Repr

/-- The fields of `lsp.Diagnostic` that `diagnostics.go` sets; a field it never sets holds
its zero value in every diagnostic and takes no part in a comparison. -/
structure Diagnostic where
  Range : LspRange
  Severity : Int
  Code : String
  Message : String
deriving DecidableEq, Repr

/-- The fields of `parser.ParseError` that `diagnostics.go` reads. -/
structure ParseError where
  FileName : String
  LineNo : Int
  Message : String
deriving DecidableEq, Repr

/-- The fields of `parser.Warning` that `diagnostics.go` reads. -/
structure Warning where
  FileName : String
  LineNo : Int
  Message : String
deriving DecidableEq, Repr

/-- The fields of `parser.ParseResult` that `diagnostics.go` reads. -/
structure ParseResult where
  ParseErrors : List ParseError
  Warnings : List Warning
  Ok : Bool
deriving DecidableEq, Repr

/-- What the accessor methods of a `validation.StepValidationError` return:
`FileName()`, `Message()`, `Step().LineNo`, `ErrorType()` and `Suggestion()`. -/
structure StepValidationError where
  fileName : String
  message : String
  stepLineNo : Int
  errorType : Int
  suggestion : String
deriving DecidableEq, Repr

/-- The collaborators of `diagnostics.go` that are not part of the sources at hand: path
conversion, the store of open documents, the disk, the enumeration of files, the parsers,
the step validator and the protobuf constant for a missing implementation. `Dict` is the
state of the concept dictionary as the parsers see it. -/
structure Env (Cpts Spec Dict : Type) where
  ConvertPathToURI : String → String
  isOpen : String → Bool
  getLine : String → Int → String
  getContent : String → String
  ReadFileContents : String → Except String String
  GetConceptFiles : List String
  GetSpecFiles : List String
  NewConceptDictionary : Dict
  ConceptParse : String → String → Cpts × ParseResult
  AddConcept : Cpts → String → Dict → List ParseError × Option String × Dict
  ValidateConcepts : Dict → ParseResult × Dict
  SpecParse : String → Dict → String → Spec × ParseResult × Option String × Dict
  hasRunner : Bool
  Validate : Spec → Dict → List StepValidationError
  STEP_IMPLEMENTATION_NOT_FOUND : Int

/-- Go `diagnosticsMap`: the map from document to diagnostics. -/
abbrev diagnosticsMap := GoMap (List Diagnostic)

/-- Go `dm.diagnostics[uri]`: the nil slice for a missing key. -/
def diagnosticsMap.listOf (dm : diagnosticsMap) (uri : String) : List Diagnostic :=
  (GoMap.get? dm uri).getD []

/-- The loop of `diagnosticsMap.contains`; `reflect.DeepEqual` on two diagnostics is
equality of all their fields. -/
def containsLoop (d : Diagnostic) : List Diagnostic → Bool
  | [] => false
  | diagnostic :: rest => if diagnostic = d then true else containsLoop d rest

/-- Go `diagnosticsMap.contains`. -/
def diagnosticsMap.contains (dm : diagnosticsMap) (uri : String) (d : Diagnostic) : Bool :=
  containsLoop d (dm.listOf uri)

/-- Go `diagnosticsMap.add`. -/
def diagnosticsMap.add (dm : diagnosticsMap) (uri : String) (d : Diagnostic) : diagnosticsMap :=
  if !dm.contains uri d then GoMap.set dm uri (dm.listOf uri ++ [d]) else dm

/-- Go `diagnosticsMap.hasURI`: both of its branches return false. -/
def diagnosticsMap.hasURI (dm : diagnosticsMap) (uri : String) : Bool :=
  match GoMap.get? dm uri with
  | none => false
  | some _ => false

section Pass

variable {Cpts Spec Dict : Type}

/-- Go `createDiagnostic`. -/
def createDiagnostic (env : Env Cpts Spec Dict) (uri : String) (message : String) (line : Int)
    (severity : Int) : Diagnostic :=
  let endChar : Int := if env.isOpen uri then len (env.getLine uri line) else 10000
  { Range := { Start := { Line := line, Character := 0 },
               End := { Line := line, Character := endChar } },
    Message := message,
    Severity := severity,
    Code := "" }

/-- The first loop of `createDiagnostics`, over the parse errors. -/
def addParseErrors (env : Env Cpts Spec Dict) : List ParseError → diagnosticsMap → diagnosticsMap
  | [], dm => dm
  | err :: rest, dm =>
    let uri := env.ConvertPathToURI err.FileName
    addParseErrors env rest
      (dm.add uri (createDiagnostic env uri err.Message (wrapInt (err.LineNo - 1)) 1))

/-- The second loop of `createDiagnostics`, over the warnings. -/
def addWarnings (env : Env Cpts Spec Dict) : List Warning → diagnosticsMap → diagnosticsMap
  | [], dm => dm
  | warning :: rest, dm =>
    let uri := env.ConvertPathToURI warning.FileName
    addWarnings env rest
      (dm.add uri (createDiagnostic env uri warning.Message (wrapInt (warning.LineNo - 1)) 2))

/-- Go `createDiagnostics`. -/
def createDiagnostics (env : Env Cpts Spec Dict) (res : ParseResult) (dm : diagnosticsMap) :
    diagnosticsMap :=
  addWarnings env res.Warnings (addParseErrors env res.ParseErrors dm)

/-- The diagnostic that `createValidationDiagnostics` assembles for one error. -/
def validationDiagnostic (env : Env Cpts Spec Dict) (err : StepValidationError) : Diagnostic :=
  let uri := env.ConvertPathToURI err.fileName
  let d := createDiagnostic env uri err.message (wrapInt (err.stepLineNo - 1)) 1
  if err.errorType = env.STEP_IMPLEMENTATION_NOT_FOUND then
    { d with Code := err.suggestion }
  else d

/-- Go `createValidationDiagnostics`. -/
def createValidationDiagnostics (env : Env Cpts Spec Dict) :
    List StepValidationError → diagnosticsMap → diagnosticsMap
  | [], dm => dm
  | err :: rest, dm =>
    createValidationDiagnostics env rest
      (dm.add (env.ConvertPathToURI err.fileName) (validationDiagnostic env err))

/-- Go `validateSpec`: without a runner there is nothing to validate against. -/
def validateSpec (env : Env Cpts Spec Dict) (spec : Spec) (conceptDictionary : Dict) :
    List StepValidationError :=
  if !env.hasRunner then [] else env.Validate spec conceptDictionary

/-- Go `getContentFromFileOrDisk`. -/
def getContentFromFileOrDisk (env : Env Cpts Spec Dict) (fileName : String) :
    Except String String :=
  let uri := env.ConvertPathToURI fileName
  if env.isOpen uri then .ok (env.getContent uri) else env.ReadFileContents fileName

/-- The loop of `validateSpecs` over the specification files. -/
def validateSpecsLoop (env : Env Cpts Spec Dict) :
    List String → Dict → diagnosticsMap → Except String diagnosticsMap
  | [], _, dm => .ok dm
  | specFile :: rest, conceptDictionary, dm =>
    let uri := env.ConvertPathToURI specFile
    let dm1 := if !dm.hasURI uri then GoMap.set dm uri [] else dm
    match getContentFromFileOrDisk env specFile with
    | .error err => .error ("Unable to read file " ++ err)
    | .ok content =>
      let parsed := env.SpecParse content conceptDictionary specFile
      match parsed.2.2.1 with
      | some err => .error err
      | none =>
        let dm2 := createDiagnostics env parsed.2.1 dm1
        let dm3 := if parsed.2.1.Ok then
            createValidationDiagnostics env (validateSpec env parsed.1 parsed.2.2.2) dm2
          else dm2
        validateSpecsLoop env rest parsed.2.2.2 dm3

/-- Go `validateSpecs`. -/
def validateSpecs (env : Env Cpts Spec Dict) (conceptDictionary : Dict) (dm : diagnosticsMap) :
    Except String diagnosticsMap :=
  validateSpecsLoop env env.GetSpecFiles conceptDictionary dm

/-- The loop of `validateConcepts` over the concept files. -/
def validateConceptsLoop (env : Env Cpts Spec Dict) :
    List String → Dict → diagnosticsMap → Except String (Dict × diagnosticsMap)
  | [], conceptDictionary, dm => .ok (conceptDictionary, dm)
  | conceptFile :: rest, conceptDictionary, dm =>
    let uri := env.ConvertPathToURI conceptFile
    let dm1 := if !dm.hasURI uri then GoMap.set dm uri [] else dm
    match getContentFromFileOrDisk env conceptFile with
    | .error err => .error ("Unable to read file " ++ err)
    | .ok content =>
      let parsed := env.ConceptParse content conceptFile
      let added := env.AddConcept parsed.1 conceptFile conceptDictionary
      match added.2.1 with
      | some err => .error err
      | none =>
        validateConceptsLoop env rest added.2.2
          (createDiagnostics env
            { parsed.2 with ParseErrors := parsed.2.ParseErrors ++ added.1 } dm1)

/-- Go `validateConcepts`. -/
def validateConcepts (env : Env Cpts Spec Dict) (dm : diagnosticsMap) :
    Except String (Dict × diagnosticsMap) :=
  match validateConceptsLoop env env.GetConceptFiles env.NewConceptDictionary dm with
  | .error err => .error err
  | .ok (conceptDictionary, dm1) =>
    let validated := env.ValidateConcepts conceptDictionary
    .ok (validated.2, createDiagnostics env validated.1 dm1)

/-- Go `getDiagnostics`; the result `.error err` stands for the pair `(nil, err)`. -/
def getDiagnostics (env : Env Cpts Spec Dict) : Except String diagnosticsMap :=
  match validateConcepts env [] with
  | .error err => .error err
  | .ok (conceptDictionary, dm) =>
    match validateSpecs env conceptDictionary dm with
    | .error err => .error err
    | .ok dm1 => .ok dm1

/-- The parameters of one `textDocument/publishDiagnostics` notification. -/
structure PublishDiagnosticsParams where
  URI : String
  Diagnostics : List Diagnostic
deriving DecidableEq, Repr

/-- Go `publishDiagnostics`, run by one goroutine at a time: the flag `isInQueue` it
finds, the flag it leaves and the notifications it sends, in the order of the `range`
over the map. -/
def publishDiagnostics (env : Env Cpts Spec Dict) (isInQueue : Bool) :
    Bool × List PublishDiagnosticsParams :=
  if !isInQueue then
    match getDiagnostics env with
    | .error _ => (false, [])
    | .ok dm => (false, dm.map fun entry => { URI := entry.1, Diagnostics := entry.2 })
  else (isInQueue, [])

end Pass

/-- Any sequence of `add` calls, in order. -/
def addAll : List (String × Diagnostic) → diagnosticsMap → diagnosticsMap
  | [], dm => dm
  | (uri, d) :: rest, dm => addAll rest (dm.add uri d)

/-- A diagnostic used in examples. -/
def sampleDiagnostic : Diagnostic :=
  { Range := { Start := { Line := 3, Character := 0 }, End := { Line := 3, Character := 10000 } },
    Severity := 1, Code := "", Message := "Step implementation not found" }

section Pass

variable {Cpts Spec Dict : Type}

/-- The `add` calls of the first loop of `createDiagnostics`. -/
def parseErrorOps (env : Env Cpts Spec Dict) (l : List ParseError) : List (String × Diagnostic) :=
  l.map fun err => (env.ConvertPathToURI err.FileName,
    createDiagnostic env (env.ConvertPathToURI err.FileName) err.Message
      (wrapInt (err.LineNo - 1)) 1)

/-- The `add` calls of the second loop of `createDiagnostics`. -/
def warningOps (env : Env Cpts Spec Dict) (l : List Warning) : List (String × Diagnostic) :=
  l.map fun warning => (env.ConvertPathToURI warning.FileName,
    createDiagnostic env (env.ConvertPathToURI warning.FileName) warning.Message
      (wrapInt (warning.LineNo - 1)) 2)

/-- The `add` calls of `createValidationDiagnostics`. -/
def validationOps (env : Env Cpts Spec Dict) (l : List StepValidationError) :
    List (String × Diagnostic) :=
  l.map fun err => (env.ConvertPathToURI err.fileName, validationDiagnostic env err)

/-- The end column: the length of the line for an open document, else the sentinel. -/
def endColumn (env : Env Cpts Spec Dict) (uri : String) (line : Int) : Int :=
  if env.isOpen uri then len (env.getLine uri line) else 10000

/-- The `add` calls of `createDiagnostics` for one parse result, in order. -/
def resultOps (env : Env Cpts Spec Dict) (res : ParseResult) : List (String × Diagnostic) :=
  parseErrorOps env res.ParseErrors ++ warningOps env res.Warnings

/-- The calls that the loop of `validateConcepts` makes on the files and the dictionary
it is given: `none` when a read or a call of `AddConcept` fails, otherwise the dictionary
that the loop leaves and the diagnostics that it hands to `add`, in order. -/
def conceptsTrace (env : Env Cpts Spec Dict) :
    List String → Dict → Option (Dict × List (String × Diagnostic))
  | [], conceptDictionary => some (conceptDictionary, [])
  | conceptFile :: rest, conceptDictionary =>
    match getContentFromFileOrDisk env conceptFile with
    | .error _ => none
    | .ok content =>
      let parsed := env.ConceptParse content conceptFile
      let added := env.AddConcept parsed.1 conceptFile conceptDictionary
      match added.2.1 with
      | some _ => none
      | none =>
        match conceptsTrace env rest added.2.2 with
        | none => none
        | some (dict, ops) =>
          some (dict,
            resultOps env { parsed.2 with ParseErrors := parsed.2.ParseErrors ++ added.1 }
              ++ ops)

/-- The calls that the loop of `validateSpecs` makes: `none` when a read or a call of the
specification parser fails, otherwise the diagnostics that the loop hands to `add`, in
order. -/
def specsTrace (env : Env Cpts Spec Dict) :
    List String → Dict → Option (List (String × Diagnostic))
  | [], _ => some []
  | specFile :: rest, conceptDictionary =>
    match getContentFromFileOrDisk env specFile with
    | .error _ => none
    | .ok content =>
      let parsed := env.SpecParse content conceptDictionary specFile
      match parsed.2.2.1 with
      | some _ => none
      | none =>
        match specsTrace env rest parsed.2.2.2 with
        | none => none
        | some ops =>
          some (resultOps env parsed.2.1 ++
            (if parsed.2.1.Ok then
              validationOps env (validateSpec env parsed.1 parsed.2.2.2) else []) ++ ops)

/-- The calls of one pass of `getDiagnostics`: `none` when one of its reads or parse
calls fails, otherwise every diagnostic that the pass produces, with its document. -/
def passTrace (env : Env Cpts Spec Dict) : Option (List (String × Diagnostic)) :=
  match conceptsTrace env env.GetConceptFiles env.NewConceptDictionary with
  | none => none
  | some (conceptDictionary, ops1) =>
    let validated := env.ValidateConcepts conceptDictionary
    match specsTrace env env.GetSpecFiles validated.2 with
    | none => none
    | some ops2 => some (ops1 ++ resultOps env validated.1 ++ ops2)

/-- The document `u` has an entry, and the entry is empty when none of the diagnostics
`all` is for `u`. -/
def Settled (all : List (String × Diagnostic)) (u : String) (dm : diagnosticsMap) : Prop :=
  ∃ l, GoMap.get? dm u = some l ∧ ((∀ op ∈ all, op.1 ≠ u) → l = [])

end Pass

/-- A workspace with one concept file and one specification file, both clean; the
document "file:///open.spec" is open, and "/missing.cpt" cannot be read. -/
def sampleEnv : Env Unit Unit Unit :=
  { ConvertPathToURI := fun path => "file://" ++ path
    isOpen := fun uri => uri = "file:///open.spec"
    getLine := fun _ _ => "* say hello"
    getContent := fun _ => ""
    ReadFileContents := fun file =>
      if file = "/missing.cpt" then .error "no such file" else .ok ""
    GetConceptFiles := ["/a.cpt"]
    GetSpecFiles := ["/a.spec"]
    NewConceptDictionary := ()
    ConceptParse := fun _ _ => ((), { ParseErrors := [], Warnings := [], Ok := true })
    AddConcept := fun _ _ dict => ([], none, dict)
    ValidateConcepts := fun dict => ({ ParseErrors := [], Warnings := [], Ok := true }, dict)
    SpecParse := fun _ dict _ => ((), { ParseErrors := [], Warnings := [], Ok := true }, none, dict)
    hasRunner := true
    Validate := fun _ _ => []
    STEP_IMPLEMENTATION_NOT_FOUND := 0 }

/-- The workspace of `sampleEnv` with a second specification file, for which the parser
reports a warning; the parser fails on the content "bad", which no file has. -/
def warnedEnv : Env Unit Unit Unit :=
  { sampleEnv with
    GetSpecFiles := ["/a.spec", "/b.spec"]
    SpecParse := fun content dict file =>
      if content = "bad" then
        ((), { ParseErrors := [], Warnings := [], Ok := false }, some "parse failed", dict)
      else if file = "/b.spec" then
        ((), { ParseErrors := [],
               Warnings := [{ FileName := "/b.spec", LineNo := 7,
                              Message := "Scenario has no steps" }],
               Ok := true }, none, dict)
      else ((), { ParseErrors := [], Warnings := [], Ok := true }, none, dict) }

/-- The diagnostic of the warning of `warnedEnv`. -/
def warnedDiagnostic : Diagnostic :=
  { Range := { Start := { Line := 6, Character := 0 }, End := { Line := 6, Character := 10000 } },
    Severity := 2, Code := "", Message := "Scenario has no steps" }

/-- The workspace of `sampleEnv` with the unreadable concept file enumerated second. -/
def brokenEnv : Env Unit Unit Unit :=
  { sampleEnv with GetConceptFiles := ["/a.cpt", "/missing.cpt"] }

/-- A parse result with one error at line 4 of the open document and one warning at
line 7 of a document that is not open. -/
def sampleResult : ParseResult :=
  { ParseErrors := [{ FileName := "/open.spec", LineNo := 4, Message := "Step is not defined" }]
    Warnings := [{ FileName := "/a.spec", LineNo := 7, Message := "Scenario has no steps" }]
    Ok := false }

/-- A validation error for a step without implementation, with its suggestion. -/
def notFoundError : StepValidationError :=
  { fileName := "/a.spec", message := "Step implementation not found", stepLineNo := 4,
    errorType := 0, suggestion := "step(\"say hello\")" }

/-- A validation error for a step with two implementations; it has no suggestion. -/
def duplicateError : StepValidationError :=
  { fileName := "/a.spec", message := "Duplicate step implementation", stepLineNo := 4,
    errorType := 1, suggestion := "" }

/-- Result of one pass of the loop body of `updateStep`, in closed form. -/
def copied (m : Memory) (a s : Addr) : Memory :=
  { steps := fun x => if x = a then
      { m.steps a with IsConcept := (m.steps s).IsConcept,
                       ConceptSteps := (m.steps s).ConceptSteps,
                       Lookup := ⟨m.next⟩ } else m.steps x
    tables := fun r => if r = m.next then m.tables (m.steps s).Lookup.ref else m.tables r
    next := m.next + 1 }

/-! ## The calls of `publishDiagnostics` in parallel -/

/-- Where one call of `publishDiagnostics` stands, named after what it executes next:
the test `!isInQueue` (line 71), `isInQueue = true` (line 72), `diagnosticsLock.Lock()`
(line 74), `isInQueue = false` (line 77), the pass of lines 79 to 86, the deferred
`diagnosticsLock.Unlock()`, and nothing more once it has returned. -/
inductive Pc where
  | test
  | enqueue
  | lock
  | dequeue
  | pass
  | unlock
  | done
deriving DecidableEq, Repr

/-- The state that the calls of `publishDiagnostics` share: the two package variables,
where each call stands, and the number of passes executed so far. -/
structure Calls where
  isInQueue : Bool
  diagnosticsLock : Bool
  pc : Nat → Pc
  passes : Nat

/-- The call `g` moves to the program point `p`. -/
def Calls.goto (σ : Calls) (g : Nat) (p : Pc) : Calls :=
  { σ with pc := fun x => if x = g then p else σ.pc x }

/-- One step of the call `g` of `publishDiagnostics`: the statement it stands at, executed
on the shared state. A call that waits for the lock, or that has returned, has no step. -/
def Calls.step (σ : Calls) (g : Nat) : Option Calls :=
  match σ.pc g with
  | .test => if !σ.isInQueue then some (σ.goto g .enqueue) else some (σ.goto g .done)
  | .enqueue => some ({ σ with isInQueue := true }.goto g .lock)
  | .lock =>
    if σ.diagnosticsLock then none
    else some ({ σ with diagnosticsLock := true }.goto g .dequeue)
  | .dequeue => some ({ σ with isInQueue := false }.goto g .pass)
  | .pass => some ({ σ with passes := σ.passes + 1 }.goto g .unlock)
  | .unlock => some ({ σ with diagnosticsLock := false }.goto g .done)
  | .done => none

/-- An interleaving of calls: the calls named by the schedule take one step each, in
order. -/
def Calls.run (σ : Calls) : List Nat → Option Calls
  | [] => some σ
  | g :: rest =>
    match σ.step g with
    | none => none
    | some σ' => σ'.run rest

/-- No call has started: the flag is false and the lock is free. -/
def Calls.idle : Calls :=
  { isInQueue := false, diagnosticsLock := false, pc := fun _ => .test, passes := 0 }

/-- The call holds `diagnosticsLock`. -/
def Pc.holdsLock : Pc → Bool
  | .dequeue => true
  | .pass => true
  | .unlock => true
  | _ => false

/-- What every step keeps: the calls that hold the lock are at most one, and the lock is
taken while a call holds it. -/
def Calls.Exclusive (σ : Calls) : Prop :=
  (∀ i j, (σ.pc i).holdsLock = true → (σ.pc j).holdsLock = true → i = j) ∧
  (∀ i, (σ.pc i).holdsLock = true → σ.diagnosticsLock = true)

/-! ## Example states -/

/-- A step with the given value, flag and expansion, and nothing else. -/
def mkStep (value : String) (isConcept : Bool) (conceptSteps : List Addr) (lookup : Nat) : Step :=
  { Value := value, IsConcept := isConcept, Args := [], ConceptSteps := conceptSteps,
    Lookup := ⟨lookup⟩, Parent := none, LineNo := 1 }

/-- Two definitions of the concept "v": step 0 expands to step 5, step 1 to step 6. -/
def dupMem : Memory :=
  { steps := fun a =>
      if a = 0 then mkStep "v" true [5] 0
      else if a = 1 then mkStep "v" true [6] 1
      else mkStep "leaf" false [] 2
    tables := fun _ => []
    next := 3 }

/-- The dictionary after the first definition of "v" (step 0) was recorded. -/
def dupDict : ConceptDictionary :=
  { ConceptsMap := [("v", ⟨0, "a.cpt"⟩)]
    constructionMap := fun k => if k = "v" then [0] else [] }

/-- A plain step 0 that names "v" was seen before the concept step 1 of "v", which
expands to step 6. -/
def fwdMem : Memory :=
  { steps := fun a =>
      if a = 0 then mkStep "v" false [] 0
      else if a = 1 then mkStep "v" true [6] 1
      else mkStep "leaf" false [] 2
    tables := fun _ => []
    next := 3 }

/-- The dictionary after the plain step 0 was recorded under "v". -/
def fwdDict : ConceptDictionary :=
  { ConceptsMap := []
    constructionMap := fun k => if k = "v" then [0, 0] else [] }

/-- The concept "A" (step 0) with the steps 1, which names the concept "C", and 2; the
concept "C" (step 3) with the step 4. -/
def twoConcepts : Memory :=
  { steps := fun a =>
      if a = 0 then mkStep "A" true [1, 2] 0
      else if a = 1 then mkStep "C" false [] 1
      else if a = 2 then mkStep "leaf" false [] 2
      else if a = 3 then mkStep "C" true [4] 3
      else if a = 4 then mkStep "log" false [] 4
      else mkStep "" false [] 5
    tables := fun _ => []
    next := 6 }

/-- Both concepts of `twoConcepts` registered, no step recorded yet. -/
def bothRegistered : ConceptDictionary :=
  { ConceptsMap := [("A", Concept.mk 0 "a.cpt"), ("C", Concept.mk 3 "c.cpt")]
    constructionMap := fun _ => [] }

/-- A step with arguments. -/
def mkCall (value : String) (isConcept : Bool) (args : List StepArg)
    (conceptSteps : List Addr) (lookup : Nat) : Step :=
  { Value := value, IsConcept := isConcept, Args := args, ConceptSteps := conceptSteps,
    Lookup := ⟨lookup⟩, Parent := none, LineNo := 1 }

/-- The concept "greet" (step 0) calls the concept "say" twice, in step 1 with the
argument "hello" and in step 2 with the argument "bye"; the concept "say" (step 3) has the
parameter "word" and the step 4. Every step has a table of its own. -/
def callSites : Memory :=
  { steps := fun a =>
      if a = 0 then mkCall "greet" true [] [1, 2] 0
      else if a = 1 then mkCall "say" false [⟨"static", "hello"⟩] [] 1
      else if a = 2 then mkCall "say" false [⟨"static", "bye"⟩] [] 2
      else if a = 3 then mkCall "say" true [⟨"dynamic", "word"⟩] [4] 3
      else if a = 4 then mkCall "log" false [⟨"dynamic", "word"⟩] [] 4
      else mkCall "" false [] [] 5
    tables := fun r =>
      if r = 1 ∨ r = 2 ∨ r = 3 then [("word", none)] else []
    next := 6 }

/-- The two concepts of `callSites`, registered. -/
def callDict : ConceptDictionary :=
  { ConceptsMap := [("greet", Concept.mk 0 "greet.cpt"), ("say", Concept.mk 3 "say.cpt")]
    constructionMap := fun _ => [] }

/-- The concept "twice" (step 2) names its two parameters alike; the step 1 inside the
concept "K" (step 0) calls it with the arguments "x" and "y". -/
def sameNames : Memory :=
  { steps := fun a =>
      if a = 0 then mkCall "K" true [] [1] 0
      else if a = 1 then mkCall "twice" false [⟨"static", "x"⟩, ⟨"static", "y"⟩] [] 1
      else if a = 2 then mkCall "twice" true [⟨"dynamic", "a"⟩, ⟨"dynamic", "a"⟩] [] 2
      else mkCall "" false [] [] 3
    tables := fun r => if r = 1 ∨ r = 2 then [("a", none)] else []
    next := 4 }

/-- The two concepts of `sameNames`, registered. -/
def sameNamesDict : ConceptDictionary :=
  { ConceptsMap := [("K", Concept.mk 0 "k.cpt"), ("twice", Concept.mk 2 "twice.cpt")]
    constructionMap := fun _ => [] }

/-- The state that `ReplaceNestedConceptSteps` on the step 0 leaves of `callSites`. -/
def callSitesResolved : ConceptDictionary × Memory :=
  match ReplaceNestedConceptSteps callDict callSites 0 with
  | .ok r => r
  | .error _ => (callDict, callSites)

/-- The tables handed out since the reference `n0` are held by one step each; the
arguments of the steps are `A0`. -/
structure Fresh (n0 : Nat) (A0 : Addr → List StepArg) (m : Memory) : Prop where
  allocated : m.Allocated
  unshared : ∀ x, n0 ≤ (m.steps x).Lookup.ref → m.Unshared x
  args : ∀ x, (m.steps x).Args = A0 x

/-- The concept "A" (step 0) whose only step (step 1) names "A" itself. -/
def selfCycle : Memory :=
  { steps := fun a =>
      if a = 0 then mkCall "A" true [] [1] 0
      else if a = 1 then mkCall "A" false [] [] 1
      else mkCall "" false [] [] 2
    tables := fun _ => []
    next := 3 }

/-- The concept of `selfCycle`, registered. -/
def selfCycleDict : ConceptDictionary :=
  { ConceptsMap := [("A", Concept.mk 0 "a.cpt")], constructionMap := fun _ => [] }

/-- The concept "A" (step 0) has a step that names "B" (step 1), and the concept "B"
(step 2) has a step that names "A" (step 3). -/
def mutualCycle : Memory :=
  { steps := fun a =>
      if a = 0 then mkCall "A" true [] [1] 0
      else if a = 1 then mkCall "B" false [] [] 1
      else if a = 2 then mkCall "B" true [] [3] 2
      else if a = 3 then mkCall "A" false [] [] 3
      else mkCall "" false [] [] 4
    tables := fun _ => []
    next := 5 }

/-- The two concepts of `mutualCycle`, registered. -/
def mutualCycleDict : ConceptDictionary :=
  { ConceptsMap := [("A", Concept.mk 0 "a.cpt"), ("B", Concept.mk 2 "b.cpt")]
    constructionMap := fun _ => [] }

/-- A workspace with two concept files in which the parse of the first one reports an
error for the second one. -/
def crossFileEnv : Env Unit Unit Unit :=
  { sampleEnv with
    GetConceptFiles := ["/a.cpt", "/b.cpt"]
    GetSpecFiles := []
    ConceptParse := fun _ file =>
      if file = "/a.cpt" then
        ((), { ParseErrors := [{ FileName := "/b.cpt", LineNo := 2,
                                 Message := "Duplicate concept definition found" }],
               Warnings := [], Ok := false })
      else ((), { ParseErrors := [], Warnings := [], Ok := true }) }

/-- The diagnostic of the error that `crossFileEnv` reports for its second file. -/
def crossFileDiagnostic : Diagnostic :=
  { Range := { Start := { Line := 1, Character := 0 }, End := { Line := 1, Character := 10000 } },
    Severity := 1, Code := "", Message := "Duplicate concept definition found" }

/-! ## Go maps -/

theorem GoMap.get?_set_same {V : Type} (m : GoMap V) (k : String) (v : V) :
    GoMap.get? (GoMap.set m k v) k = some v := by
  induction m with
  | nil => simp [GoMap.set, GoMap.get?]
  | cons e t ih =>
    obtain ⟨k', v'⟩ := e
    by_cases h : k' = k <;> simp [GoMap.set, GoMap.get?, h, ih]

theorem GoMap.get?_set_other {V : Type} (m : GoMap V) (k k' : String) (v : V) (h : k' ≠ k) :
    GoMap.get? (GoMap.set m k v) k' = GoMap.get? m k' := by
  induction m with
  | nil => simp [GoMap.set, GoMap.get?, Ne.symm h]
  | cons e t ih =>
    obtain ⟨k'', v''⟩ := e
    by_cases h1 : k'' = k
    · subst h1
      simp [GoMap.set, GoMap.get?, Ne.symm h]
    · by_cases h2 : k'' = k'
      · subst h2; simp [GoMap.set, GoMap.get?, h1]
      · simp [GoMap.set, GoMap.get?, h1, h2, ih]

/-! ## The loop of `updateStep` -/

theorem copyOnto_eq (m : Memory) (a s : Addr) : copyOnto m a s = .ok (copied m a s) := by
  unfold copyOnto copied GetCopy Memory.setStep Memory.setTable
  simp only [ite_true, Except.ok.injEq, Memory.mk.injEq, and_true]
  refine ⟨?_, ?_⟩
  · funext x
    by_cases hx : x = a
    · subst hx; by_cases hs : s = x <;> simp [hs]
    · simp [hx]
  · by_cases hs : s = a <;> simp [hs]

theorem updateAll_fields (s : Addr) (L : List Addr) : ∀ m : Memory,
    ∃ m', updateAll s L m = .ok m' ∧
      (∀ x, x ∈ L → (m'.steps x).IsConcept = (m.steps s).IsConcept ∧
        (m'.steps x).ConceptSteps = (m.steps s).ConceptSteps) ∧
      (∀ x, x ∉ L → m'.steps x = m.steps x) ∧
      (∀ x, (m'.steps x).Value = (m.steps x).Value) := by
  induction L with
  | nil => intro m; exact ⟨m, rfl, by simp, by simp, by simp⟩
  | cons a rest ih =>
    intro m
    obtain ⟨m', hrun, hin, hout, hval⟩ := ih (copied m a s)
    have hs1 : ((copied m a s).steps s).IsConcept = (m.steps s).IsConcept := by
      by_cases h : s = a <;> simp [copied, h]
    have hs2 : ((copied m a s).steps s).ConceptSteps = (m.steps s).ConceptSteps := by
      by_cases h : s = a <;> simp [copied, h]
    refine ⟨m', by simp [updateAll, copyOnto_eq, hrun], ?_, ?_, ?_⟩
    · intro x hx
      by_cases hxr : x ∈ rest
      · rw [← hs1, ← hs2]; exact hin x hxr
      · have hxa : x = a := by simpa [hxr] using hx
        rw [hout x hxr]; subst hxa; simp [copied]
    · intro x hx
      have hxa : x ≠ a := fun h => hx (by simp [h])
      have hxr : x ∉ rest := fun h => hx (by simp [h])
      rw [hout x hxr]; simp [copied, hxa]
    · intro x
      rw [hval x]; by_cases h : x = a <;> simp [copied, h]

theorem setBucket_setBucket (d : ConceptDictionary) (k : String) (l1 l2 : List Addr) :
    (d.setBucket k l1).setBucket k l2 = d.setBucket k l2 := by
  simp only [ConceptDictionary.setBucket, ConceptDictionary.mk.injEq, true_and]
  funext x
  by_cases h : x = k <;> simp [h]

theorem setBucket_same (d : ConceptDictionary) (k : String) (l : List Addr) :
    (d.setBucket k l).constructionMap k = l := by
  simp [ConceptDictionary.setBucket]

theorem setBucket_other (d : ConceptDictionary) (k k' : String) (l : List Addr) (h : k' ≠ k) :
    (d.setBucket k l).constructionMap k' = d.constructionMap k' := by
  simp [ConceptDictionary.setBucket, h]

/-- The two branches of `updateStep`: the step at the head of the bucket decides. -/
theorem updateStep_eq (d : ConceptDictionary) (m : Memory) (s : Addr) :
    updateStep d m s =
      if (m.steps ((d.constructionMap (m.steps s).Value).headD s)).IsConcept then
        .ok (d.setBucket (m.steps s).Value (d.constructionMap (m.steps s).Value ++ [s]), m)
      else
        match updateAll s (d.constructionMap (m.steps s).Value ++ [s] ++ [s]) m with
        | .error e => .error e
        | .ok m' =>
          .ok (d.setBucket (m.steps s).Value
            (d.constructionMap (m.steps s).Value ++ [s] ++ [s]), m') := by
  unfold updateStep
  simp only [setBucket_same, setBucket_setBucket]
  cases hb : d.constructionMap (m.steps s).Value with
  | nil => cases hc : (m.steps s).IsConcept <;> simp [hc]
  | cons f rest => cases hc : (m.steps f).IsConcept <;> simp [hc]

/-! ## C1: propagation by `updateStep` -/

/-- C1, as stated, fails: step 0 is recorded under "v" and already flagged as a concept
when the concept step 1 of the same value is recorded; `updateStep` then leaves step 0
with its own expansion `[5]`, which is not the expansion `[6]` of step 1. -/
theorem updateStep_first_concept_counterexample :
    (dupMem.steps 1).IsConcept = true ∧
    ∃ d' m', updateStep dupDict dupMem 1 = .ok (d', m') ∧
      0 ∈ d'.constructionMap (dupMem.steps 1).Value ∧
      (m'.steps 0).ConceptSteps = [5] ∧ (m'.steps 1).ConceptSteps = [6] ∧
      (m'.steps 0).ConceptSteps ≠ (m'.steps 1).ConceptSteps := by
  refine ⟨rfl, _, _, rfl, ?_, ?_, ?_, ?_⟩ <;>
    simp [dupDict, dupMem, mkStep, ConceptDictionary.setBucket]

/-- C1 (amended): when the first step recorded under the value of `s`, if there is one,
is not yet flagged as a concept, `updateStep` returns, keeps every step recorded before,
records `s`, leaves the flag and the expansion of `s` as they were, and every step then
held under that value carries the flag and the expansion of `s`. -/
theorem updateStep_propagates (d : ConceptDictionary) (m : Memory) (s : Addr)
    (hfirst : ∀ first, (d.constructionMap (m.steps s).Value).head? = some first →
      (m.steps first).IsConcept = false) :
    ∃ d' m', updateStep d m s = .ok (d', m') ∧
      s ∈ d'.constructionMap (m.steps s).Value ∧
      (∀ a ∈ d.constructionMap (m.steps s).Value, a ∈ d'.constructionMap (m.steps s).Value) ∧
      (m'.steps s).IsConcept = (m.steps s).IsConcept ∧
      (m'.steps s).ConceptSteps = (m.steps s).ConceptSteps ∧
      ∀ a ∈ d'.constructionMap (m.steps s).Value,
        (m'.steps a).IsConcept = (m'.steps s).IsConcept ∧
        (m'.steps a).ConceptSteps = (m'.steps s).ConceptSteps := by
  rw [updateStep_eq]
  by_cases hc : (m.steps ((d.constructionMap (m.steps s).Value).headD s)).IsConcept = true
  · -- only possible when the bucket was empty and `s` itself is flagged
    have hb : d.constructionMap (m.steps s).Value = [] := by
      cases hb : d.constructionMap (m.steps s).Value with
      | nil => rfl
      | cons f rest =>
        have := hfirst f (by simp [hb])
        simp [hb, this] at hc
    refine ⟨_, _, by rw [if_pos hc], ?_, ?_, rfl, rfl, ?_⟩
    · simp [setBucket_same]
    · simp [hb]
    · intro a ha
      have : a = s := by simpa [setBucket_same, hb] using ha
      subst this; exact ⟨rfl, rfl⟩
  · obtain ⟨m', hrun, hin, _, _⟩ :=
      updateAll_fields s (d.constructionMap (m.steps s).Value ++ [s] ++ [s]) m
    have hs := hin s (by simp)
    refine ⟨_, m', by rw [if_neg hc, hrun], ?_, ?_, hs.1, hs.2, ?_⟩
    · simp [setBucket_same]
    · intro a ha
      simp [setBucket_same, ha]
    · intro a ha
      rw [setBucket_same] at ha
      rw [hs.1, hs.2]
      exact hin a ha

/-- Witness for `updateStep_propagates`: the plain step 0 recorded under "v" is fixed up
when the concept step 1 of "v" is recorded. -/
theorem updateStep_propagates_witness :
    (∀ first, (fwdDict.constructionMap (fwdMem.steps 1).Value).head? = some first →
      (fwdMem.steps first).IsConcept = false) ∧
    ∃ d' m', updateStep fwdDict fwdMem 1 = .ok (d', m') ∧
      1 ∈ d'.constructionMap (fwdMem.steps 1).Value ∧
      (∀ a ∈ fwdDict.constructionMap (fwdMem.steps 1).Value,
        a ∈ d'.constructionMap (fwdMem.steps 1).Value) ∧
      (m'.steps 1).IsConcept = (fwdMem.steps 1).IsConcept ∧
      (m'.steps 1).ConceptSteps = (fwdMem.steps 1).ConceptSteps ∧
      ∀ a ∈ d'.constructionMap (fwdMem.steps 1).Value,
        (m'.steps a).IsConcept = (m'.steps 1).IsConcept ∧
        (m'.steps a).ConceptSteps = (m'.steps 1).ConceptSteps :=
  have h : ∀ first, (fwdDict.constructionMap (fwdMem.steps 1).Value).head? = some first →
      (fwdMem.steps first).IsConcept = false := by
    intro first hfirst
    have : first = 0 := by simpa [fwdDict, fwdMem, mkStep] using hfirst.symm
    subst this; rfl
  ⟨h, updateStep_propagates fwdDict fwdMem 1 h⟩

/-! ## The operations on the observable state -/

theorem overwrite_of_not_mem (V : Addr → StepView) (L : List Addr) (src x : Addr)
    (h : x ∉ L) : overwrite V L src x = V x := by
  simp [overwrite, h]

theorem overwrite_content_of_mem (V : Addr → StepView) (L : List Addr) (src x : Addr)
    (h : x ∈ L) : (overwrite V L src x).content = (V src).content := by
  simp [overwrite, h, StepView.content]

theorem overwrite_content_src (V : Addr → StepView) (L : List Addr) (src : Addr) :
    (overwrite V L src src).content = (V src).content := by
  by_cases h : src ∈ L <;> simp [overwrite, h, StepView.content]

theorem overwrite_Value (V : Addr → StepView) (L : List Addr) (src x : Addr) :
    (overwrite V L src x).Value = (V x).Value := by
  by_cases h : x ∈ L <;> simp [overwrite, h]

theorem overwrite_Args (V : Addr → StepView) (L : List Addr) (src x : Addr) :
    (overwrite V L src x).Args = (V x).Args := by
  by_cases h : x ∈ L <;> simp [overwrite, h]

theorem overwrite_overwrite (V : Addr → StepView) (a : Addr) (L : List Addr) (src : Addr) :
    overwrite (overwrite V [a] src) L src = overwrite V (a :: L) src := by
  funext x
  have hsrc : (overwrite V [a] src src).content = (V src).content := overwrite_content_src _ _ _
  simp only [StepView.content, Prod.mk.injEq] at hsrc
  by_cases hxa : x = a
  · subst hxa
    by_cases hxL : x ∈ L
    · simp only [overwrite, hxL, if_true, List.mem_cons, true_or, List.mem_singleton] at hsrc ⊢
      simp [hsrc.1, hsrc.2.1, hsrc.2.2]
    · simp [overwrite, hxL]
  · by_cases hxL : x ∈ L
    · simp only [overwrite, hxL, if_true, List.mem_cons, hxa, false_or, List.mem_singleton,
        if_false] at hsrc ⊢
      simp [hsrc.1, hsrc.2.1, hsrc.2.2]
    · simp [overwrite, hxL, hxa]

theorem view_copied (m : Memory) (a s : Addr) (hwf : m.Allocated) :
    (copied m a s).Allocated ∧ (copied m a s).view = overwrite m.view [a] s := by
  constructor
  · intro x
    by_cases hx : x = a
    · simp [copied, hx]
    · have := hwf x
      simp only [copied, hx, if_false]
      omega
  · funext x
    by_cases hx : x = a
    · subst hx
      simp [Memory.view, copied, overwrite]
    · have h1 : (m.steps x).Lookup.ref ≠ m.next := Nat.ne_of_lt (hwf x)
      simp [Memory.view, copied, overwrite, hx, h1]

theorem view_updateAll (s : Addr) (L : List Addr) : ∀ m : Memory, m.Allocated →
    ∃ m', updateAll s L m = .ok m' ∧ m'.Allocated ∧ m'.view = overwrite m.view L s := by
  induction L with
  | nil =>
    intro m hwf
    exact ⟨m, rfl, hwf, by funext x; simp [overwrite]⟩
  | cons a rest ih =>
    intro m hwf
    obtain ⟨hwf1, hv1⟩ := view_copied m a s hwf
    obtain ⟨m', hrun, hwf', hv'⟩ := ih (copied m a s) hwf1
    refine ⟨m', by simp [updateAll, copyOnto_eq, hrun], hwf', ?_⟩
    rw [hv', hv1, overwrite_overwrite]


theorem updateStep_ok (d : ConceptDictionary) (m : Memory) (u : Addr) :
    ∃ d' m', updateStep d m u = .ok (d', m') := by
  rw [updateStep_eq]
  split
  · exact ⟨_, _, rfl⟩
  · obtain ⟨m', hrun, _⟩ :=
      updateAll_fields u (d.constructionMap (m.steps u).Value ++ [u] ++ [u]) m
    exact ⟨_, m', by rw [hrun]⟩

/-- The two outcomes of `updateStep`, on the observable state. -/
theorem updateStep_cases (d : ConceptDictionary) (m : Memory) (u : Addr) (hwf : m.Allocated)
    (d' : ConceptDictionary) (m' : Memory) (hrun : updateStep d m u = .ok (d', m')) :
    m'.Allocated ∧ d'.ConceptsMap = d.ConceptsMap ∧
    (∀ k, k ≠ (m.steps u).Value → d'.constructionMap k = d.constructionMap k) ∧
    (((m.steps ((d.constructionMap (m.steps u).Value).headD u)).IsConcept = true ∧
        d'.constructionMap (m.steps u).Value = d.constructionMap (m.steps u).Value ++ [u] ∧
        m' = m) ∨
     ((m.steps ((d.constructionMap (m.steps u).Value).headD u)).IsConcept = false ∧
        d'.constructionMap (m.steps u).Value =
          d.constructionMap (m.steps u).Value ++ [u] ++ [u] ∧
        m'.view = overwrite m.view (d.constructionMap (m.steps u).Value ++ [u] ++ [u]) u)) := by
  rw [updateStep_eq] at hrun
  by_cases hc : (m.steps ((d.constructionMap (m.steps u).Value).headD u)).IsConcept = true
  · rw [if_pos hc] at hrun
    injection hrun with hrun
    injection hrun with hd hm
    subst hd hm
    exact ⟨hwf, rfl, fun k hk => setBucket_other _ _ _ _ hk,
      Or.inl ⟨hc, setBucket_same _ _ _, rfl⟩⟩
  · rw [if_neg hc] at hrun
    obtain ⟨m'', hrun', hwf', hv⟩ :=
      view_updateAll u (d.constructionMap (m.steps u).Value ++ [u] ++ [u]) m hwf
    rw [hrun'] at hrun
    injection hrun with hrun
    injection hrun with hd hm
    subst hd hm
    exact ⟨hwf', rfl, fun k hk => setBucket_other _ _ _ _ hk,
      Or.inr ⟨by simpa using hc, setBucket_same _ _ _, hv⟩⟩

theorem spliceAt_eq (m : Memory) (cs : Addr) (i : Nat) (N : Concept) (c : Addr)
    (hget : (m.steps cs).ConceptSteps.get? i = some c) (hne : c ≠ cs) :
    spliceAt m cs i N = .ok (copied m c N.ConceptStep) := by
  have hne' : cs ≠ c := fun h => hne h.symm
  unfold spliceAt
  simp only [hget, Memory.setStep, hne', if_false, GetCopy, Memory.setTable]
  unfold copied
  simp only [Except.ok.injEq, Memory.mk.injEq, and_true]
  refine ⟨?_, ?_⟩
  · funext x
    by_cases hx : x = c
    · subst hx; by_cases hs : N.ConceptStep = x <;> simp [hs]
    · simp [hx]
  · by_cases hs : N.ConceptStep = c <;> simp [hs]

theorem drop_eq_cons {α : Type} (L : List α) (i : Nat) (c : α) (rest : List α)
    (h : L.drop i = c :: rest) : L.get? i = some c ∧ L.drop (i + 1) = rest := by
  induction L generalizing i with
  | nil => simp at h
  | cons x t ih =>
    cases i with
    | zero =>
      simp only [List.drop_zero, List.cons.injEq] at h
      simp [h.1, h.2]
    | succ j =>
      simp only [List.drop_succ_cons] at h
      simpa using ih j h

/-- Induction over the loop of `ReplaceNestedConceptSteps`: an invariant that fixes the
steps of the concept, and that a splice and a recording keep, holds at the end. -/
theorem replaceLoop_induction (s : Addr) (L0 : List Addr)
    (I : Nat → ConceptDictionary → Memory → Prop)
    (hCS : ∀ i d m, I i d m → (m.steps s).ConceptSteps = L0)
    (hs : s ∉ L0)
    (hsplice : ∀ i d m c N, I i d m → L0.get? i = some c →
      d.Search (m.steps c).Value = some N → I (i + 1) d (copied m c N.ConceptStep))
    (hrecord : ∀ i d m c d' m', I i d m → L0.get? i = some c →
      d.Search (m.steps c).Value = none → updateStep d m c = .ok (d', m') → I (i + 1) d' m') :
    ∀ (rest : List Addr) (i : Nat) (d : ConceptDictionary) (m : Memory),
      i ≤ L0.length → L0.drop i = rest → I i d m →
      ∃ d' m', replaceLoop s i rest d m = .ok (d', m') ∧ I L0.length d' m' := by
  intro rest
  induction rest with
  | nil =>
    intro i d m hle hdrop hI
    have hlen : L0.length ≤ i := List.drop_eq_nil_iff.1 hdrop
    have hi : i = L0.length := Nat.le_antisymm hle hlen
    subst hi
    exact ⟨d, m, rfl, hI⟩
  | cons c rest ih =>
    intro i d m _ hdrop hI
    obtain ⟨hget, hdrop'⟩ := drop_eq_cons L0 i c rest hdrop
    have hc : c ∈ L0 := List.get?_mem hget
    have hne : c ≠ s := fun h => hs (h ▸ hc)
    have hlt : i < L0.length := by
      by_contra hge
      have : L0.drop i = [] := List.drop_eq_nil_iff.2 (Nat.le_of_not_lt hge)
      rw [this] at hdrop
      cases hdrop
    rw [replaceLoop]
    cases hsearch : d.Search (m.steps c).Value with
    | some N =>
      have hget' : (m.steps s).ConceptSteps.get? i = some c := by rw [hCS i d m hI]; exact hget
      simp only [spliceAt_eq m s i N c hget' hne]
      exact ih (i + 1) d _ hlt hdrop' (hsplice i d m c N hI hget hsearch)
    | none =>
      obtain ⟨d', m', hrun⟩ := updateStep_ok d m c
      simp only [hrun]
      exact ih (i + 1) d' m' hlt hdrop' (hrecord i d m c d' m' hI hget hsearch hrun)

/-! ## The invariant of `ReplaceNestedConceptSteps` -/

theorem content_eq_iff (v w : StepView) :
    v.content = w.content ↔
      v.IsConcept = w.IsConcept ∧ v.ConceptSteps = w.ConceptSteps ∧ v.Lookup = w.Lookup := by
  simp [StepView.content]

theorem overwrite_IsConcept_of_mem (V : Addr → StepView) (L : List Addr) (src x : Addr)
    (h : x ∈ L) : (overwrite V L src x).IsConcept = (V src).IsConcept :=
  ((content_eq_iff _ _).1 (overwrite_content_of_mem V L src x h)).1

theorem head?_append_singleton (B : List Addr) (u : Addr) :
    (B ++ [u]).head? = some (B.headD u) := by
  cases B <;> simp

theorem head?_append_of_mem (B T : List Addr) (x : Addr) (h : x ∈ B) :
    (B ++ T).head? = B.head? := by
  cases B with
  | nil => simp at h
  | cons a t => simp

theorem headD_of_head? (B : List Addr) (u h : Addr) (hh : B.head? = some h) :
    B.headD u = h := by
  cases B with
  | nil => simp at hh
  | cons a t => simpa using hh

theorem head?_append_two (B : List Addr) (u : Addr) :
    (B ++ [u] ++ [u]).head? = some (B.headD u) := by
  cases B <;> simp

theorem headD_mem (B : List Addr) (u : Addr) : B.headD u ∈ B ++ [u] := by
  cases B <;> simp

/-- The first step of `ReplaceNestedConceptSteps`, the recording of `s` itself. -/
theorem core_init (d : ConceptDictionary) (m : Memory) (s : Addr) (hwf : WellFormed d m)
    (hs : (m.steps s).IsConcept = true) (d1 : ConceptDictionary) (m1 : Memory)
    (hrun : updateStep d m s = .ok (d1, m1)) :
    Core s d.ConceptsMap m.view d1 m1 := by
  obtain ⟨hal, hcm, hother, hcase⟩ := updateStep_cases d m s hwf.allocated d1 m1 hrun
  have hbuckets : ∀ k a, a ∈ d1.constructionMap k → (m.view a).Value = k := by
    intro k a ha
    by_cases hk : k = (m.steps s).Value
    · subst hk
      rcases hcase with ⟨_, hb, _⟩ | ⟨_, hb, _⟩
      · rw [hb] at ha
        rcases List.mem_append.1 ha with h | h
        · exact hwf.buckets _ a h
        · simp at h; subst h; rfl
      · rw [hb] at ha
        simp only [List.mem_append, List.mem_singleton] at ha
        rcases ha with (h | h) | h
        · exact hwf.buckets _ a h
        · subst h; rfl
        · subst h; rfl
    · rw [hother k hk] at ha
      exact hwf.buckets k a ha
  rcases hcase with ⟨hflag, hb, hm⟩ | ⟨hflag, hb, hv⟩
  · rw [hm] at hal ⊢
    refine ⟨hal, hcm, fun _ => rfl, hbuckets, fun k N hN => hwf.flagged k N hN, rfl, ?_, ?_⟩
    · show s ∈ d1.constructionMap (m.steps s).Value
      rw [hb]; simp
    · refine ⟨_, ?_, hflag⟩
      show (d1.constructionMap (m.steps s).Value).head? = _
      rw [hb, head?_append_singleton]
  · refine ⟨hal, hcm, fun x => by rw [hv]; exact overwrite_Value _ _ _ _, hbuckets, ?_, ?_, ?_, ?_⟩
    · intro k N hN
      rw [hv]
      by_cases hmem : N.ConceptStep ∈ d.constructionMap (m.steps s).Value ++ [s] ++ [s]
      · rw [overwrite_IsConcept_of_mem _ _ _ _ hmem]; exact hs
      · rw [overwrite_of_not_mem _ _ _ _ hmem]; exact hwf.flagged k N hN
    · rw [hv]; exact overwrite_content_src _ _ _
    · show s ∈ d1.constructionMap (m.steps s).Value
      rw [hb]; simp
    · refine ⟨(d.constructionMap (m.steps s).Value).headD s, ?_, ?_⟩
      · show (d1.constructionMap (m.steps s).Value).head? = _
        rw [hb, head?_append_two]
      · rw [hv, overwrite_IsConcept_of_mem _ _ _ _
          (List.mem_append_left _ (headD_mem _ s))]
        exact hs

theorem mem_of_head? (B : List Addr) (h : Addr) (hh : B.head? = some h) : h ∈ B := by
  cases B with
  | nil => simp at hh
  | cons a t =>
    have : a = h := by simpa using hh
    simp [this]

/-- A splice keeps the core invariant. -/
theorem core_splice (s : Addr) (CM0 : GoMap Concept) (V0 : Addr → StepView)
    (hset : Setting s CM0 V0) (d : ConceptDictionary) (m : Memory) (hcore : Core s CM0 V0 d m)
    (c : Addr) (hc : c ∈ (V0 s).ConceptSteps) (N : Concept)
    (hN : d.Search (m.steps c).Value = some N) :
    Core s CM0 V0 d (copied m c N.ConceptStep) := by
  obtain ⟨hal', hv⟩ := view_copied m c N.ConceptStep hcore.allocated
  have hNflag : (m.view N.ConceptStep).IsConcept = true :=
    hcore.flagged (m.steps c).Value N (by rw [← hcore.cmap]; exact hN)
  have hflag : ∀ x, (m.view x).IsConcept = true →
      (overwrite m.view [c] N.ConceptStep x).IsConcept = true := by
    intro x hx
    by_cases hmem : x ∈ [c]
    · rw [overwrite_IsConcept_of_mem _ _ _ _ hmem]; exact hNflag
    · rw [overwrite_of_not_mem _ _ _ _ hmem]; exact hx
  have hsc : s ∉ [c] := by
    intro h
    have : s = c := by simpa using h
    exact hset.notSelf (this ▸ hc)
  refine ⟨hal', hcore.cmap, fun x => by rw [hv, overwrite_Value]; exact hcore.values x,
    hcore.buckets, fun k N' hN' => by rw [hv]; exact hflag _ (hcore.flagged k N' hN'), ?_,
    hcore.recorded, ?_⟩
  · rw [hv, overwrite_of_not_mem _ _ _ _ hsc]; exact hcore.self
  · obtain ⟨h, hh, hf⟩ := hcore.head
    exact ⟨h, hh, by rw [hv]; exact hflag h hf⟩

/-- The recording of a step whose value is not registered keeps the core invariant. -/
theorem core_record (s : Addr) (CM0 : GoMap Concept) (V0 : Addr → StepView)
    (hset : Setting s CM0 V0) (d : ConceptDictionary) (m : Memory) (hcore : Core s CM0 V0 d m)
    (c : Addr) (hnone : d.Search (m.steps c).Value = none)
    (d' : ConceptDictionary) (m' : Memory) (hrun : updateStep d m c = .ok (d', m')) :
    Core s CM0 V0 d' m' := by
  obtain ⟨hal, hcm, hother, hcase⟩ := updateStep_cases d m c hcore.allocated d' m' hrun
  have hcv : (V0 c).Value = (m.steps c).Value := (hcore.values c).symm
  have hbuckets : ∀ k a, a ∈ d'.constructionMap k → (V0 a).Value = k := by
    intro k a ha
    by_cases hk : k = (m.steps c).Value
    · subst hk
      rcases hcase with ⟨_, hb, _⟩ | ⟨_, hb, _⟩
      · rw [hb] at ha
        rcases List.mem_append.1 ha with h | h
        · exact hcore.buckets _ a h
        · simp at h; subst h; exact hcv
      · rw [hb] at ha
        simp only [List.mem_append, List.mem_singleton] at ha
        rcases ha with (h | h) | h
        · exact hcore.buckets _ a h
        · subst h; exact hcv
        · subst h; exact hcv
    · rw [hother k hk] at ha
      exact hcore.buckets k a ha
  rcases hcase with ⟨hflag, hb, hm⟩ | ⟨hflag, hb, hv⟩
  · rw [hm] at hal ⊢
    refine ⟨hal, hcm.trans hcore.cmap, hcore.values, hbuckets, hcore.flagged, hcore.self, ?_, ?_⟩
    · by_cases hk : (V0 s).Value = (m.steps c).Value
      · rw [hk, hb]; exact List.mem_append_left _ (hk ▸ hcore.recorded)
      · rw [hother _ hk]; exact hcore.recorded
    · obtain ⟨h, hh, hf⟩ := hcore.head
      refine ⟨h, ?_, hf⟩
      by_cases hk : (V0 s).Value = (m.steps c).Value
      · rw [hk, hb, head?_append_of_mem _ _ s (hk ▸ hcore.recorded), ← hk]; exact hh
      · rw [hother _ hk]; exact hh
  · have hne : (V0 s).Value ≠ (m.steps c).Value := by
      intro hk
      obtain ⟨h, hh, hf⟩ := hcore.head
      rw [hk] at hh
      rw [headD_of_head? _ c h hh] at hflag
      have : (m.view h).IsConcept = false := hflag
      rw [hf] at this
      cases this
    have hnotin : ∀ x, (V0 x).Value ≠ (m.steps c).Value →
        x ∉ d.constructionMap (m.steps c).Value ++ [c] ++ [c] := by
      intro x hx hmem
      simp only [List.mem_append, List.mem_singleton] at hmem
      rcases hmem with (h | h) | h
      · exact hx (hcore.buckets _ x h)
      · subst h; exact hx hcv
      · subst h; exact hx hcv
    refine ⟨hal, hcm.trans hcore.cmap, fun x => by rw [hv, overwrite_Value]; exact hcore.values x,
      hbuckets, ?_, ?_, ?_, ?_⟩
    · intro k N' hN'
      have hk : (V0 N'.ConceptStep).Value ≠ (m.steps c).Value := by
        rw [hset.keys k N' hN']
        intro hk
        rw [hk] at hN'
        have : d.Search (m.steps c).Value = some N' := by
          unfold ConceptDictionary.Search; rw [hcore.cmap]; exact hN'
        rw [hnone] at this
        cases this
      rw [hv, overwrite_of_not_mem _ _ _ _ (hnotin _ hk)]
      exact hcore.flagged k N' hN'
    · rw [hv, overwrite_of_not_mem _ _ _ _ (hnotin _ hne)]; exact hcore.self
    · rw [hother _ hne]; exact hcore.recorded
    · obtain ⟨h, hh, hf⟩ := hcore.head
      refine ⟨h, by rw [hother _ hne]; exact hh, ?_⟩
      have hhv : (V0 h).Value ≠ (m.steps c).Value := by
        rw [hcore.buckets _ h (mem_of_head? _ h hh)]; exact hne
      rw [hv, overwrite_of_not_mem _ _ _ _ (hnotin _ hhv)]
      exact hf

theorem not_mem_bucket (s : Addr) (CM0 : GoMap Concept) (V0 : Addr → StepView)
    (d : ConceptDictionary) (m : Memory) (hcore : Core s CM0 V0 d m) (c x : Addr)
    (hx : (V0 x).Value ≠ (m.steps c).Value) :
    x ∉ d.constructionMap (m.steps c).Value ++ [c] ++ [c] := by
  intro hmem
  have hcv : (V0 c).Value = (m.steps c).Value := (hcore.values c).symm
  simp only [List.mem_append, List.mem_singleton] at hmem
  rcases hmem with (h | h) | h
  · exact hx (hcore.buckets _ x h)
  · subst h; exact hx hcv
  · subst h; exact hx hcv

theorem search_eq (d : ConceptDictionary) (CM0 : GoMap Concept) (h : d.ConceptsMap = CM0)
    (k : String) : d.Search k = GoMap.get? CM0 k := by
  unfold ConceptDictionary.Search; rw [h]

/-- A splice resolves its step and keeps the other steps resolved. -/
theorem childOK_splice (s : Addr) (CM0 : GoMap Concept) (V0 : Addr → StepView)
    (hset : Setting s CM0 V0) (d : ConceptDictionary) (m : Memory) (hcore : Core s CM0 V0 d m)
    (c : Addr) (N : Concept) (hN : d.Search (m.steps c).Value = some N) :
    ChildOK d (copied m c N.ConceptStep) c ∧
    ∀ c', ChildOK d m c' → ChildOK d (copied m c N.ConceptStep) c' := by
  obtain ⟨_, hv⟩ := view_copied m c N.ConceptStep hcore.allocated
  have hNflag : (m.view N.ConceptStep).IsConcept = true :=
    hcore.flagged (m.steps c).Value N (by rw [← search_eq d CM0 hcore.cmap]; exact hN)
  have hflag : ∀ x, (m.view x).IsConcept = true →
      (overwrite m.view [c] N.ConceptStep x).IsConcept = true := by
    intro x hx
    by_cases hmem : x ∈ [c]
    · rw [overwrite_IsConcept_of_mem _ _ _ _ hmem]; exact hNflag
    · rw [overwrite_of_not_mem _ _ _ _ hmem]; exact hx
  have hself : (overwrite m.view [c] N.ConceptStep c).content =
      (overwrite m.view [c] N.ConceptStep N.ConceptStep).content := by
    rw [overwrite_content_of_mem _ _ _ _ (by simp), overwrite_content_src]
  have hval : ∀ x, (overwrite m.view [c] N.ConceptStep x).Value = (m.view x).Value :=
    fun x => overwrite_Value _ _ _ _
  constructor
  · constructor
    · intro N1 hN1
      rw [hv] at hN1 ⊢
      rw [hval] at hN1
      have : N1 = N := by
        have h2 : d.Search (m.view c).Value = some N := hN
        rw [h2] at hN1; exact (Option.some.inj hN1).symm
      subst this
      exact hself
    · intro hnone
      rw [hv, hval] at hnone
      have h2 : d.Search (m.view c).Value = some N := hN
      rw [h2] at hnone; cases hnone
  · intro c' hc'
    constructor
    · intro N' hN'
      rw [hv] at hN' ⊢
      rw [hval] at hN'
      by_cases hcc : c' = c
      · subst hcc
        have : N' = N := by
          have h2 : d.Search (m.view c').Value = some N := hN
          rw [h2] at hN'; exact (Option.some.inj hN').symm
        subst this
        exact hself
      · have hc'v : overwrite m.view [c] N.ConceptStep c' = m.view c' :=
          overwrite_of_not_mem _ _ _ _ (by simpa using hcc)
        rw [hc'v]
        by_cases hnc : N'.ConceptStep = c
        · -- the step `c` is itself registered, under its own value: a copy onto itself
          have hk : (V0 N'.ConceptStep).Value = (m.view c').Value :=
            hset.keys _ N' (by rw [← search_eq d CM0 hcore.cmap]; exact hN')
          rw [hnc, ← hcore.values c] at hk
          have h2 : d.Search (m.view c).Value = some N' := by rw [hk]; exact hN'
          have h3 : d.Search (m.view c).Value = some N := hN
          rw [h3] at h2
          have hNN : N = N' := Option.some.inj h2
          subst hNN
          rw [hnc, overwrite_content_of_mem _ _ _ _ (by simp), ← hnc]
          exact hc'.1 N hN'
        · rw [overwrite_of_not_mem _ _ _ _ (by simpa using hnc)]
          exact hc'.1 N' hN'
    · intro hnone
      rw [hv] at hnone ⊢
      rw [hval] at hnone ⊢
      obtain ⟨hmem, hok⟩ := hc'.2 hnone
      refine ⟨hmem, ?_⟩
      unfold BucketOK
      rw [hv]
      rcases hok with ⟨h, hh, hf⟩ | hagree
      · exact Or.inl ⟨h, hh, hflag h hf⟩
      · refine Or.inr (fun a ha b hb => ?_)
        have hne : ∀ x, x ∈ d.constructionMap (m.view c').Value → x ∉ [c] := by
          intro x hx hxc
          have hxc' : x = c := by simpa using hxc
          subst hxc'
          have h1 : (V0 x).Value = (m.view c').Value := hcore.buckets _ x hx
          rw [← hcore.values x] at h1
          have h2 : d.Search (m.view x).Value = some N := hN
          rw [h1, hnone] at h2
          cases h2
        rw [overwrite_of_not_mem _ _ _ _ (hne a ha), overwrite_of_not_mem _ _ _ _ (hne b hb)]
        exact hagree a ha b hb

/-- The recording of a step that names no concept resolves it and keeps the other steps
resolved. -/
theorem childOK_record (s : Addr) (CM0 : GoMap Concept) (V0 : Addr → StepView)
    (d : ConceptDictionary) (m : Memory) (hset : Setting s CM0 V0)
    (hcore : Core s CM0 V0 d m)
    (c : Addr) (hnone : d.Search (m.steps c).Value = none)
    (d' : ConceptDictionary) (m' : Memory) (hrun : updateStep d m c = .ok (d', m')) :
    ChildOK d' m' c ∧ ∀ c', ChildOK d m c' → ChildOK d' m' c' := by
  obtain ⟨_, hcm, hother, hcase⟩ := updateStep_cases d m c hcore.allocated d' m' hrun
  have hS : ∀ k, d'.Search k = d.Search k := by
    intro k; unfold ConceptDictionary.Search; rw [hcm]
  have hnone' : d.Search (m.view c).Value = none := hnone
  rcases hcase with ⟨hflag, hb, hm⟩ | ⟨hflag, hb, hv⟩
  · rw [hm]
    have hbk : BucketOK d' m (m.steps c).Value :=
      Or.inl ⟨_, by rw [hb, head?_append_singleton], hflag⟩
    constructor
    · constructor
      · intro N hN
        rw [hS, hnone'] at hN; cases hN
      · intro _
        refine ⟨?_, hbk⟩
        show c ∈ d'.constructionMap (m.steps c).Value
        rw [hb]; simp
    · intro c' hc'
      constructor
      · intro N' hN'
        rw [hS] at hN'
        exact hc'.1 N' hN'
      · intro hn
        rw [hS] at hn
        obtain ⟨hmem, hok⟩ := hc'.2 hn
        by_cases hk : (m.view c').Value = (m.steps c).Value
        · rw [hk] at hmem ⊢
          exact ⟨by rw [hb]; exact List.mem_append_left _ hmem, hbk⟩
        · refine ⟨by rw [hother _ hk]; exact hmem, ?_⟩
          unfold BucketOK at hok ⊢
          rw [hother _ hk]
          exact hok
  · have hval : ∀ x, (m'.view x).Value = (m.view x).Value := by
      intro x; rw [hv]; exact overwrite_Value _ _ _ _
    have hagree : ∀ a ∈ d.constructionMap (m.steps c).Value ++ [c] ++ [c],
        ∀ b ∈ d.constructionMap (m.steps c).Value ++ [c] ++ [c],
        (m'.view a).content = (m'.view b).content := by
      intro a ha b hb'
      rw [hv, overwrite_content_of_mem _ _ _ _ ha, overwrite_content_of_mem _ _ _ _ hb']
    have hbk : BucketOK d' m' (m.steps c).Value := by
      refine Or.inr ?_
      rw [hb]
      exact hagree
    have hsame : ∀ x, (V0 x).Value ≠ (m.steps c).Value → m'.view x = m.view x := by
      intro x hx
      rw [hv]
      exact overwrite_of_not_mem _ _ _ _ (not_mem_bucket s CM0 V0 d m hcore c x hx)
    constructor
    · constructor
      · intro N hN
        rw [hS, hval, hnone'] at hN; cases hN
      · intro _
        rw [hval]
        refine ⟨?_, hbk⟩
        show c ∈ d'.constructionMap (m.steps c).Value
        rw [hb]; simp
    · intro c' hc'
      constructor
      · intro N' hN'
        rw [hS, hval] at hN'
        have hne : (m.view c').Value ≠ (m.steps c).Value := by
          intro hk
          rw [hk] at hN'
          have hn2 : d.Search (m.steps c).Value = none := hnone
          rw [hn2] at hN'; cases hN'
        have h1 : m'.view c' = m.view c' :=
          hsame c' (by rw [← hcore.values c']; exact hne)
        have h2 : m'.view N'.ConceptStep = m.view N'.ConceptStep :=
          hsame _ (by
            rw [hset.keys _ N' (by rw [← search_eq d CM0 hcore.cmap]; exact hN')]
            exact hne)
        rw [h1, h2]
        exact hc'.1 N' hN'
      · intro hn
        rw [hS, hval] at hn
        rw [hval]
        obtain ⟨hmem, hok⟩ := hc'.2 hn
        by_cases hk : (m.view c').Value = (m.steps c).Value
        · rw [hk] at hmem ⊢
          refine ⟨?_, hbk⟩
          rw [hb]
          exact List.mem_append_left _ (List.mem_append_left _ hmem)
        · refine ⟨by rw [hother _ hk]; exact hmem, ?_⟩
          have hmemsame : ∀ x ∈ d.constructionMap (m.view c').Value,
              m'.view x = m.view x := by
            intro x hx
            exact hsame x (by rw [hcore.buckets _ x hx]; exact hk)
          unfold BucketOK at hok ⊢
          rw [hother _ hk]
          rcases hok with ⟨h, hh, hf⟩ | hag
          · exact Or.inl ⟨h, hh, by rw [hmemsame h (mem_of_head? _ h hh)]; exact hf⟩
          · exact Or.inr (fun a ha b hb' => by
              rw [hmemsame a ha, hmemsame b hb']; exact hag a ha b hb')

theorem overwrite_noop (V : Addr → StepView) (L : List Addr) (src : Addr)
    (h : ∀ x ∈ L, (V x).content = (V src).content) : overwrite V L src = V := by
  funext x
  by_cases hx : x ∈ L
  · obtain ⟨h1, h2, h3⟩ := (content_eq_iff _ _).1 (h x hx)
    simp only [overwrite, hx, if_true]
    rw [← h1, ← h2, ← h3]
  · simp [overwrite, hx]

theorem lt_length_of_get? {α : Type} (L : List α) (j : Nat) (c : α)
    (h : L.get? j = some c) : j < L.length := by
  by_contra hge
  rw [List.get?_eq_none.2 (Nat.le_of_not_lt hge)] at h
  cases h

/-- After `ReplaceNestedConceptSteps` on a concept step that is not one of its own steps,
in a well-formed state, the core invariant holds and every step inside is resolved. -/
theorem replace_resolves (d : ConceptDictionary) (m : Memory) (s : Addr)
    (hwf : WellFormed d m) (hs : (m.steps s).IsConcept = true)
    (hself : s ∉ (m.steps s).ConceptSteps) :
    ∃ d1 m1, ReplaceNestedConceptSteps d m s = .ok (d1, m1) ∧
      Core s d.ConceptsMap m.view d1 m1 ∧
      (m1.steps s).ConceptSteps = (m.steps s).ConceptSteps ∧
      ∀ c ∈ (m.steps s).ConceptSteps, ChildOK d1 m1 c := by
  obtain ⟨d0, m0, hrun0⟩ := updateStep_ok d m s
  have hcore0 := core_init d m s hwf hs d0 m0 hrun0
  have hset : Setting s d.ConceptsMap m.view := ⟨fun k N hN => hwf.keys k N hN, hs, hself⟩
  have hCS : ∀ d' m', Core s d.ConceptsMap m.view d' m' →
      (m'.steps s).ConceptSteps = (m.steps s).ConceptSteps :=
    fun d' m' hc => ((content_eq_iff _ _).1 hc.self).2.1
  obtain ⟨d1, m1, hloop, hI⟩ := replaceLoop_induction s (m.steps s).ConceptSteps
    (fun i d' m' => Core s d.ConceptsMap m.view d' m' ∧
      ∀ j, j < i → ∀ c, (m.steps s).ConceptSteps.get? j = some c → ChildOK d' m' c)
    (fun i d' m' h => hCS d' m' h.1) hself
    (by
      intro i d' m' c N hI hget hN
      obtain ⟨hcore, hkids⟩ := hI
      have hc : c ∈ (m.view s).ConceptSteps := List.get?_mem hget
      obtain ⟨hnew, hold⟩ := childOK_splice s _ _ hset d' m' hcore c N hN
      refine ⟨core_splice s _ _ hset d' m' hcore c hc N hN, fun j hj c' hc' => ?_⟩
      rcases Nat.lt_succ_iff_lt_or_eq.1 hj with hlt | heq
      · exact hold c' (hkids j hlt c' hc')
      · subst heq
        rw [hget] at hc'
        cases hc'
        exact hnew)
    (by
      intro i d' m' c d'' m'' hI hget hnone hrun
      obtain ⟨hcore, hkids⟩ := hI
      obtain ⟨hnew, hold⟩ := childOK_record s _ _ d' m' hset hcore c hnone d'' m'' hrun
      refine ⟨core_record s _ _ hset d' m' hcore c hnone d'' m'' hrun, fun j hj c' hc' => ?_⟩
      rcases Nat.lt_succ_iff_lt_or_eq.1 hj with hlt | heq
      · exact hold c' (hkids j hlt c' hc')
      · subst heq
        rw [hget] at hc'
        cases hc'
        exact hnew)
    (m.steps s).ConceptSteps 0 d0 m0 (Nat.zero_le _) rfl
    ⟨hcore0, fun j hj => absurd hj (Nat.not_lt_zero j)⟩
  refine ⟨d1, m1, ?_, hI.1, hCS d1 m1 hI.1, ?_⟩
  · unfold ReplaceNestedConceptSteps
    simp only [hrun0]
    rw [hCS d0 m0 hcore0]
    exact hloop
  · intro c hc
    obtain ⟨j, hj⟩ := List.mem_iff_get?.1 hc
    exact hI.2 j (lt_length_of_get? _ j c hj) c hj

/-- Recording again a step that is recorded in a settled bucket changes no step. -/
theorem record_noop (d : ConceptDictionary) (m : Memory) (d' : ConceptDictionary) (m' : Memory)
    (hobs : SameObs d m d' m') (c : Addr)
    (hmem : c ∈ d.constructionMap (m.view c).Value) (hok : BucketOK d m (m.view c).Value)
    (d'' : ConceptDictionary) (m'' : Memory) (hrun : updateStep d' m' c = .ok (d'', m'')) :
    SameObs d m d'' m'' := by
  obtain ⟨hal, hcm, hother, hcase⟩ := updateStep_cases d' m' c hobs.allocated d'' m'' hrun
  have hval : (m'.steps c).Value = (m.view c).Value := by
    show (m'.view c).Value = _
    rw [hobs.view]
  rw [hval] at hother hcase
  have hmem' : c ∈ d'.constructionMap (m.view c).Value := (hobs.members _ c).2 hmem
  have hmembers : ∀ (T : List Addr), (∀ x ∈ T, x = c) →
      d''.constructionMap (m.view c).Value = d'.constructionMap (m.view c).Value ++ T →
      (∀ k x, x ∈ d''.constructionMap k ↔ x ∈ d.constructionMap k) ∧
      (∀ k, (d''.constructionMap k).head? = (d.constructionMap k).head?) := by
    intro T hT hb
    constructor
    · intro k x
      by_cases hk : k = (m.view c).Value
      · subst hk
        rw [hb, List.mem_append, hobs.members]
        constructor
        · rintro (h | h)
          · exact h
          · rw [hT x h]; exact hmem
        · exact fun h => Or.inl h
      · rw [hother k hk]; exact hobs.members k x
    · intro k
      by_cases hk : k = (m.view c).Value
      · subst hk
        rw [hb, head?_append_of_mem _ _ c hmem']; exact hobs.heads _
      · rw [hother k hk]; exact hobs.heads k
  rcases hcase with ⟨_, hb, hm⟩ | ⟨hflag, hb, hv⟩
  · rw [hm]
    obtain ⟨h1, h2⟩ := hmembers [c] (by simp) hb
    exact ⟨hobs.allocated, hobs.view, hcm.trans hobs.cmap, h1, h2⟩
  · obtain ⟨h1, h2⟩ := hmembers ([c] ++ [c]) (by simp) (by rw [hb, List.append_assoc])
    refine ⟨hal, ?_, hcm.trans hobs.cmap, h1, h2⟩
    rw [hv, hobs.view]
    apply overwrite_noop
    intro x hx
    have hxmem : x ∈ d.constructionMap (m.view c).Value := by
      simp only [List.mem_append, List.mem_singleton] at hx
      rcases hx with (h | h) | h
      · exact (hobs.members _ x).1 h
      · rw [h]; exact hmem
      · rw [h]; exact hmem
    rcases hok with ⟨h, hh, hf⟩ | hag
    · exfalso
      have hh' : (d'.constructionMap (m.view c).Value).head? = some h := by
        rw [hobs.heads]; exact hh
      rw [headD_of_head? _ c h hh'] at hflag
      have : (m'.view h).IsConcept = false := hflag
      rw [hobs.view, hf] at this
      cases this
    · exact hag x hxmem c hmem

/-- Running `ReplaceNestedConceptSteps` on a concept step whose steps are resolved
changes no step, no registered concept, and the membership of no bucket. -/
theorem replace_noop (d : ConceptDictionary) (m : Memory) (s : Addr) (hal : m.Allocated)
    (hrec : s ∈ d.constructionMap (m.view s).Value)
    (hhead : ∃ h, (d.constructionMap (m.view s).Value).head? = some h ∧
      (m.view h).IsConcept = true)
    (hself : s ∉ (m.steps s).ConceptSteps)
    (hkids : ∀ c ∈ (m.steps s).ConceptSteps, ChildOK d m c) :
    ∃ d' m', ReplaceNestedConceptSteps d m s = .ok (d', m') ∧ SameObs d m d' m' := by
  obtain ⟨d0, m0, hrun0⟩ := updateStep_ok d m s
  have hobs0 : SameObs d m d0 m0 :=
    record_noop d m d m ⟨hal, rfl, rfl, fun _ _ => Iff.rfl, fun _ => rfl⟩ s hrec
      (Or.inl hhead) d0 m0 hrun0
  have hCS : ∀ d' m', SameObs d m d' m' →
      (m'.steps s).ConceptSteps = (m.steps s).ConceptSteps := by
    intro d' m' h
    show (m'.view s).ConceptSteps = _
    rw [h.view]; rfl
  obtain ⟨d1, m1, hloop, hI⟩ := replaceLoop_induction s (m.steps s).ConceptSteps
    (fun _ d' m' => SameObs d m d' m')
    (fun _ d' m' h => hCS d' m' h) hself
    (by
      intro i d' m' c N hobs hget hN
      have hc : c ∈ (m.steps s).ConceptSteps := List.get?_mem hget
      obtain ⟨hal', hv⟩ := view_copied m' c N.ConceptStep hobs.allocated
      refine ⟨hal', ?_, hobs.cmap, hobs.members, hobs.heads⟩
      rw [hv, hobs.view]
      apply overwrite_noop
      intro x hx
      have hxc : x = c := by simpa using hx
      subst hxc
      have hN' : d.Search (m.view x).Value = some N := by
        have h1 : d'.Search (m'.view x).Value = some N := hN
        rw [hobs.view] at h1
        unfold ConceptDictionary.Search at h1 ⊢
        rw [← hobs.cmap]; exact h1
      exact (hkids x hc).1 N hN')
    (by
      intro i d' m' c d'' m'' hobs hget hnone hrun
      have hc : c ∈ (m.steps s).ConceptSteps := List.get?_mem hget
      have hnone' : d.Search (m.view c).Value = none := by
        have h1 : d'.Search (m'.view c).Value = none := hnone
        rw [hobs.view] at h1
        unfold ConceptDictionary.Search at h1 ⊢
        rw [← hobs.cmap]; exact h1
      obtain ⟨hmem, hok⟩ := (hkids c hc).2 hnone'
      exact record_noop d m d' m' hobs c hmem hok d'' m'' hrun)
    (m.steps s).ConceptSteps 0 d0 m0 (Nat.zero_le _) rfl hobs0
  refine ⟨d1, m1, ?_, hI⟩
  unfold ReplaceNestedConceptSteps
  simp only [hrun0]
  rw [hCS d0 m0 hobs0]
  exact hloop

/-! ## C3: a second run changes nothing -/

theorem twoConcepts_allocated : twoConcepts.Allocated := by
  intro a
  simp only [twoConcepts, mkStep]
  split_ifs <;> decide

theorem bothRegistered_wellFormed : WellFormed bothRegistered twoConcepts := by
  have key : ∀ k N, bothRegistered.Search k = some N →
      (twoConcepts.steps N.ConceptStep).Value = k ∧
      (twoConcepts.steps N.ConceptStep).IsConcept = true := by
    intro k N hN
    simp only [ConceptDictionary.Search, bothRegistered, GoMap.get?] at hN
    split_ifs at hN with h1 h2
    · have : N = Concept.mk 0 "a.cpt" := (Option.some.inj hN).symm
      subst this; subst h1; exact ⟨rfl, rfl⟩
    · have : N = Concept.mk 3 "c.cpt" := (Option.some.inj hN).symm
      subst this; subst h2; exact ⟨rfl, rfl⟩
  exact ⟨twoConcepts_allocated, fun k a h => (by cases h), fun k N h => (key k N h).1,
    fun k N h => (key k N h).2⟩

/-- C3: in a well-formed state, for a concept step `s` that is not one of its own steps,
a second call of `ReplaceNestedConceptSteps` right after the first returns and changes
nothing that can be observed: every step keeps its fields and the bindings of its lookup
table, the registered concepts are the same, and every bucket of the construction map
keeps its members and its first step (the second call only appends steps that the bucket
already holds). In particular every step inside `s` keeps its flag, its expansion and
the bindings of its lookup table. -/
theorem replace_idempotent (d : ConceptDictionary) (m : Memory) (s : Addr)
    (hwf : WellFormed d m) (hs : (m.steps s).IsConcept = true)
    (hself : s ∉ (m.steps s).ConceptSteps) :
    ∃ d1 m1 d2 m2, ReplaceNestedConceptSteps d m s = .ok (d1, m1) ∧
      ReplaceNestedConceptSteps d1 m1 s = .ok (d2, m2) ∧
      m2.view = m1.view ∧ d2.ConceptsMap = d1.ConceptsMap ∧
      (∀ k x, x ∈ d2.constructionMap k ↔ x ∈ d1.constructionMap k) ∧
      (∀ k, (d2.constructionMap k).head? = (d1.constructionMap k).head?) ∧
      (m2.steps s).ConceptSteps = (m1.steps s).ConceptSteps ∧
      ∀ c ∈ (m1.steps s).ConceptSteps,
        (m2.steps c).IsConcept = (m1.steps c).IsConcept ∧
        (m2.steps c).ConceptSteps = (m1.steps c).ConceptSteps ∧
        m2.lookupOf c = m1.lookupOf c := by
  obtain ⟨d1, m1, hrun1, hcore, hcs, hkids⟩ := replace_resolves d m s hwf hs hself
  have hval : (m1.view s).Value = (m.view s).Value := hcore.values s
  obtain ⟨d2, m2, hrun2, hobs⟩ := replace_noop d1 m1 s hcore.allocated
    (by rw [hval]; exact hcore.recorded) (by rw [hval]; exact hcore.head)
    (by rw [hcs]; exact hself) (by rw [hcs]; exact hkids)
  have hview : ∀ x, m2.view x = m1.view x := fun x => congrFun hobs.view x
  refine ⟨d1, m1, d2, m2, hrun1, hrun2, hobs.view, hobs.cmap, hobs.members, hobs.heads,
    ?_, ?_⟩
  · exact congrArg StepView.ConceptSteps (hview s)
  · intro c _
    exact ⟨congrArg StepView.IsConcept (hview c), congrArg StepView.ConceptSteps (hview c),
      congrArg StepView.Lookup (hview c)⟩

/-- Witness for `replace_idempotent`: the concept "A" of `twoConcepts`, resolved twice
with both concepts registered. -/
theorem replace_idempotent_witness :
    WellFormed bothRegistered twoConcepts ∧ (twoConcepts.steps 0).IsConcept = true ∧
    0 ∉ (twoConcepts.steps 0).ConceptSteps ∧
    ∃ d1 m1 d2 m2, ReplaceNestedConceptSteps bothRegistered twoConcepts 0 = .ok (d1, m1) ∧
      ReplaceNestedConceptSteps d1 m1 0 = .ok (d2, m2) ∧
      m2.view = m1.view ∧ d2.ConceptsMap = d1.ConceptsMap ∧
      (∀ k x, x ∈ d2.constructionMap k ↔ x ∈ d1.constructionMap k) ∧
      (∀ k, (d2.constructionMap k).head? = (d1.constructionMap k).head?) ∧
      (m2.steps 0).ConceptSteps = (m1.steps 0).ConceptSteps ∧
      ∀ c ∈ (m1.steps 0).ConceptSteps,
        (m2.steps c).IsConcept = (m1.steps c).IsConcept ∧
        (m2.steps c).ConceptSteps = (m1.steps c).ConceptSteps ∧
        m2.lookupOf c = m1.lookupOf c :=
  ⟨bothRegistered_wellFormed, rfl, by decide,
    replace_idempotent bothRegistered twoConcepts 0 bothRegistered_wellFormed rfl (by decide)⟩


/-! ## Frame and agreement of one run, and the load of two concepts -/

/-- Induction over a whole run of `ReplaceNestedConceptSteps`: a property that holds after
the recording of the concept step, and that a splice and a recording keep while the core
invariant holds, holds at the end. -/
theorem replace_invariant (d : ConceptDictionary) (m : Memory) (s : Addr)
    (hwf : WellFormed d m) (hs : (m.steps s).IsConcept = true)
    (hself : s ∉ (m.steps s).ConceptSteps)
    (E : ConceptDictionary → Memory → Prop)
    (hinit : ∀ d0 m0, updateStep d m s = .ok (d0, m0) →
      Core s d.ConceptsMap m.view d0 m0 → E d0 m0)
    (hsplice : ∀ d' m' c N, Core s d.ConceptsMap m.view d' m' → E d' m' →
      c ∈ (m.steps s).ConceptSteps → d'.Search (m'.steps c).Value = some N →
      E d' (copied m' c N.ConceptStep))
    (hrecord : ∀ d' m' c d'' m'', Core s d.ConceptsMap m.view d' m' → E d' m' →
      c ∈ (m.steps s).ConceptSteps → d'.Search (m'.steps c).Value = none →
      updateStep d' m' c = .ok (d'', m'') → E d'' m'') :
    ∃ d1 m1, ReplaceNestedConceptSteps d m s = .ok (d1, m1) ∧
      Core s d.ConceptsMap m.view d1 m1 ∧ E d1 m1 := by
  obtain ⟨d0, m0, hrun0⟩ := updateStep_ok d m s
  have hcore0 := core_init d m s hwf hs d0 m0 hrun0
  have hset : Setting s d.ConceptsMap m.view := ⟨fun k N hN => hwf.keys k N hN, hs, hself⟩
  have hCS : ∀ d' m', Core s d.ConceptsMap m.view d' m' →
      (m'.steps s).ConceptSteps = (m.steps s).ConceptSteps :=
    fun d' m' hc => ((content_eq_iff _ _).1 hc.self).2.1
  obtain ⟨d1, m1, hloop, hI⟩ := replaceLoop_induction s (m.steps s).ConceptSteps
    (fun _ d' m' => Core s d.ConceptsMap m.view d' m' ∧ E d' m')
    (fun _ d' m' h => hCS d' m' h.1) hself
    (by
      intro i d' m' c N hI hget hN
      have hc : c ∈ (m.view s).ConceptSteps := List.get?_mem hget
      exact ⟨core_splice s _ _ hset d' m' hI.1 c hc N hN, hsplice d' m' c N hI.1 hI.2 hc hN⟩)
    (by
      intro i d' m' c d'' m'' hI hget hnone hrun
      have hc : c ∈ (m.view s).ConceptSteps := List.get?_mem hget
      exact ⟨core_record s _ _ hset d' m' hI.1 c hnone d'' m'' hrun,
        hrecord d' m' c d'' m'' hI.1 hI.2 hc hnone hrun⟩)
    (m.steps s).ConceptSteps 0 d0 m0 (Nat.zero_le _) rfl ⟨hcore0, hinit d0 m0 hrun0 hcore0⟩
  refine ⟨d1, m1, ?_, hI.1, hI.2⟩
  unfold ReplaceNestedConceptSteps
  simp only [hrun0]
  rw [hCS d0 m0 hcore0]
  exact hloop

/-- Frame of `ReplaceNestedConceptSteps`: a step that is neither the concept step nor one
of its steps, and that is recorded only under registered values other than the value of
the concept step, keeps its state and is recorded nowhere else. -/
theorem replace_frame (d : ConceptDictionary) (m : Memory) (s : Addr)
    (hwf : WellFormed d m) (hs : (m.steps s).IsConcept = true)
    (hself : s ∉ (m.steps s).ConceptSteps) (x : Addr) (hxs : x ≠ s)
    (hxc : x ∉ (m.steps s).ConceptSteps)
    (hxb : ∀ k, x ∈ d.constructionMap k → d.Search k ≠ none ∧ k ≠ (m.steps s).Value) :
    ∃ d1 m1, ReplaceNestedConceptSteps d m s = .ok (d1, m1) ∧
      Core s d.ConceptsMap m.view d1 m1 ∧
      (m1.view x = m.view x ∧ ∀ k, x ∈ d1.constructionMap k → x ∈ d.constructionMap k) := by
  apply replace_invariant d m s hwf hs hself
    (fun d' m' => m'.view x = m.view x ∧
      ∀ k, x ∈ d'.constructionMap k → x ∈ d.constructionMap k)
  · intro d0 m0 hrun _
    obtain ⟨_, _, hother, hcase⟩ := updateStep_cases d m s hwf.allocated d0 m0 hrun
    have hnotB : x ∉ d.constructionMap (m.steps s).Value := fun h => (hxb _ h).2 rfl
    have hmem : ∀ k, x ∈ d0.constructionMap k → x ∈ d.constructionMap k := by
      intro k hk
      by_cases hks : k = (m.steps s).Value
      · subst hks
        rcases hcase with ⟨_, hb, _⟩ | ⟨_, hb, _⟩ <;>
        · rw [hb] at hk
          simp only [List.mem_append, List.mem_singleton] at hk
          tauto
      · rw [hother k hks] at hk; exact hk
    rcases hcase with ⟨_, _, hm⟩ | ⟨_, _, hv⟩
    · rw [hm]; exact ⟨rfl, hmem⟩
    · refine ⟨?_, hmem⟩
      rw [hv]
      apply overwrite_of_not_mem
      simp only [List.mem_append, List.mem_singleton]
      tauto
  · intro d' m' c N hcore hE hc _
    obtain ⟨_, hv⟩ := view_copied m' c N.ConceptStep hcore.allocated
    refine ⟨?_, hE.2⟩
    rw [hv, overwrite_of_not_mem _ _ _ _ (by
      intro h
      have : x = c := by simpa using h
      exact hxc (this ▸ hc))]
    exact hE.1
  · intro d' m' c d'' m'' hcore hE hc hnone hrun
    obtain ⟨_, hcm, hother, hcase⟩ := updateStep_cases d' m' c hcore.allocated d'' m'' hrun
    have hxne : x ≠ c := fun h => hxc (h ▸ hc)
    have hnotB : x ∉ d'.constructionMap (m'.steps c).Value := by
      intro h
      have h1 := (hxb _ (hE.2 _ h)).1
      apply h1
      have : d'.Search (m'.steps c).Value = none := hnone
      unfold ConceptDictionary.Search at this ⊢
      rw [← hcore.cmap]; exact this
    have hmem : ∀ k, x ∈ d''.constructionMap k → x ∈ d.constructionMap k := by
      intro k hk
      by_cases hks : k = (m'.steps c).Value
      · subst hks
        rcases hcase with ⟨_, hb, _⟩ | ⟨_, hb, _⟩ <;>
        · rw [hb] at hk
          simp only [List.mem_append, List.mem_singleton] at hk
          tauto
      · rw [hother k hks] at hk; exact hE.2 k hk
    rcases hcase with ⟨_, _, hm⟩ | ⟨_, _, hv⟩
    · rw [hm]; exact ⟨hE.1, hmem⟩
    · refine ⟨?_, hmem⟩
      rw [hv, overwrite_of_not_mem _ _ _ _ (by
        simp only [List.mem_append, List.mem_singleton]
        tauto)]
      exact hE.1

/-- A recording that copies does not record under the value of the concept step, whose
bucket starts with a flagged step. -/
theorem record_copies_ne (s : Addr) (CM0 : GoMap Concept) (V0 : Addr → StepView)
    (d : ConceptDictionary) (m : Memory) (hcore : Core s CM0 V0 d m) (c : Addr)
    (hflag : (m.steps ((d.constructionMap (m.steps c).Value).headD c)).IsConcept = false) :
    (V0 s).Value ≠ (m.steps c).Value := by
  intro hk
  obtain ⟨h, hh, hf⟩ := hcore.head
  rw [hk] at hh
  rw [headD_of_head? _ c h hh] at hflag
  have : (m.view h).IsConcept = false := hflag
  rw [hf] at this
  cases this

/-- The steps that are recorded under a value that is not registered, other than the
value of the concept step, stay plain when they and the steps of the concept with such a
value are plain before the run. -/
theorem replace_plain (d : ConceptDictionary) (m : Memory) (s : Addr)
    (hwf : WellFormed d m) (hs : (m.steps s).IsConcept = true)
    (hself : s ∉ (m.steps s).ConceptSteps)
    (hplain : ∀ x, d.Search (m.steps x).Value = none → (m.steps x).Value ≠ (m.steps s).Value →
      (x ∈ (m.steps s).ConceptSteps ∨ ∃ k, x ∈ d.constructionMap k) →
      (m.steps x).IsConcept = false) :
    ∃ d1 m1, ReplaceNestedConceptSteps d m s = .ok (d1, m1) ∧
      Core s d.ConceptsMap m.view d1 m1 ∧
      ∀ k, d.Search k = none → k ≠ (m.steps s).Value →
        ∀ x ∈ d1.constructionMap k, (m1.steps x).IsConcept = false := by
  let S : Addr → Prop := fun x => d.Search (m.steps x).Value = none ∧
    (m.steps x).Value ≠ (m.steps s).Value ∧
    (x ∈ (m.steps s).ConceptSteps ∨ ∃ k, x ∈ d.constructionMap k)
  obtain ⟨d1, m1, hrun, hcore, hE⟩ := replace_invariant d m s hwf hs hself
    (fun d' m' => (∀ x, S x → (m'.view x).IsConcept = false) ∧
      (∀ k, d.Search k = none → k ≠ (m.steps s).Value → ∀ x ∈ d'.constructionMap k, S x))
    (by
      intro d0 m0 hrun0 _
      obtain ⟨_, _, hother, hcase⟩ := updateStep_cases d m s hwf.allocated d0 m0 hrun0
      have hmem : ∀ k, d.Search k = none → k ≠ (m.steps s).Value →
          ∀ x ∈ d0.constructionMap k, S x := by
        intro k hk hks x hx
        rw [hother k hks] at hx
        have hv : (m.steps x).Value = k := hwf.buckets k x hx
        exact ⟨by rw [hv]; exact hk, by rw [hv]; exact hks, Or.inr ⟨k, hx⟩⟩
      rcases hcase with ⟨_, _, hm⟩ | ⟨_, _, hv⟩
      · rw [hm]
        exact ⟨fun x hx => hplain x hx.1 hx.2.1 hx.2.2, hmem⟩
      · refine ⟨fun x hx => ?_, hmem⟩
        rw [hv, overwrite_of_not_mem _ _ _ _ (by
          simp only [List.mem_append, List.mem_singleton]
          rintro ((h | h) | h)
          · exact hx.2.1 (hwf.buckets _ x h)
          · exact hx.2.1 (by rw [h])
          · exact hx.2.1 (by rw [h]))]
        exact hplain x hx.1 hx.2.1 hx.2.2)
    (by
      intro d' m' c N hcore hE _ hN
      obtain ⟨_, hv⟩ := view_copied m' c N.ConceptStep hcore.allocated
      refine ⟨fun x hx => ?_, hE.2⟩
      have hxc : x ≠ c := by
        rintro rfl
        have h1 : d'.Search (m'.view x).Value = some N := hN
        rw [hcore.values x] at h1
        have h2 : d.Search (m.view x).Value = none := hx.1
        unfold ConceptDictionary.Search at h1 h2
        rw [hcore.cmap] at h1
        rw [h2] at h1
        cases h1
      rw [hv, overwrite_of_not_mem _ _ _ _ (by simpa using hxc)]
      exact hE.1 x hx)
    (by
      intro d' m' c d'' m'' hcore hE hc hnone hrun'
      obtain ⟨_, _, hother, hcase⟩ := updateStep_cases d' m' c hcore.allocated d'' m'' hrun'
      have hcv : (m'.steps c).Value = (m.steps c).Value := hcore.values c
      have hnone' : d.Search (m.steps c).Value = none := by
        have h1 : d'.Search (m'.steps c).Value = none := hnone
        rw [hcv] at h1
        unfold ConceptDictionary.Search at h1 ⊢
        rw [← hcore.cmap]; exact h1
      have hSc : (m.steps c).Value ≠ (m.steps s).Value → S c :=
        fun hne => ⟨hnone', hne, Or.inl hc⟩
      have hmem : ∀ k, d.Search k = none → k ≠ (m.steps s).Value →
          ∀ x ∈ d''.constructionMap k, S x := by
        intro k hk hks x hx
        by_cases hkc : k = (m'.steps c).Value
        · subst hkc
          rcases hcase with ⟨_, hb, _⟩ | ⟨_, hb, _⟩ <;>
          · rw [hb] at hx
            simp only [List.mem_append, List.mem_singleton] at hx
            have hSc' : S c := hSc (by rw [← hcv]; exact hks)
            rcases hx with h | h
            · first
              | exact hE.2 _ hk hks x h
              | (rcases h with h | h
                 · exact hE.2 _ hk hks x h
                 · rw [h]; exact hSc')
            · rw [h]; exact hSc'
        · rw [hother k hkc] at hx
          exact hE.2 k hk hks x hx
      rcases hcase with ⟨_, _, hm⟩ | ⟨hflag, _, hv⟩
      · rw [hm]; exact ⟨hE.1, hmem⟩
      · refine ⟨fun x hx => ?_, hmem⟩
        have hne : (m.steps c).Value ≠ (m.steps s).Value := by
          have := record_copies_ne s _ _ d' m' hcore c hflag
          rw [hcv] at this
          exact fun h => this h.symm
        rw [hv]
        by_cases hxL : x ∈ d'.constructionMap (m'.steps c).Value ++ [c] ++ [c]
        · rw [overwrite_IsConcept_of_mem _ _ _ _ hxL]
          exact hE.1 c (hSc hne)
        · rw [overwrite_of_not_mem _ _ _ _ hxL]
          exact hE.1 x hx)
  refine ⟨d1, m1, hrun, hcore, fun k hk hks x hx => ?_⟩
  exact hE.1 x (hE.2 k hk hks x hx)

/-- When the concept step is registered under its own value and the first step recorded
under that value is plain, every step recorded under it before the run ends with the
flag, the expansion and the bindings of the concept step. -/
theorem replace_agrees (d : ConceptDictionary) (m : Memory) (s : Addr)
    (hwf : WellFormed d m) (hs : (m.steps s).IsConcept = true)
    (hself : s ∉ (m.steps s).ConceptSteps)
    (hreg : ∃ N, d.Search (m.steps s).Value = some N ∧ N.ConceptStep = s)
    (hhead : ∃ h, (d.constructionMap (m.steps s).Value).head? = some h ∧
      (m.steps h).IsConcept = false) :
    ∃ d1 m1, ReplaceNestedConceptSteps d m s = .ok (d1, m1) ∧
      Core s d.ConceptsMap m.view d1 m1 ∧
      ∀ x ∈ d.constructionMap (m.steps s).Value,
        (m1.view x).content = (m.view s).content := by
  obtain ⟨N0, hN0, hN0s⟩ := hreg
  apply replace_invariant d m s hwf hs hself
    (fun _ m' => ∀ x ∈ d.constructionMap (m.steps s).Value,
      (m'.view x).content = (m.view s).content)
  · intro d0 m0 hrun0 _ x hx
    obtain ⟨_, _, _, hcase⟩ := updateStep_cases d m s hwf.allocated d0 m0 hrun0
    obtain ⟨h, hh, hf⟩ := hhead
    rcases hcase with ⟨hflag, _, _⟩ | ⟨_, _, hv⟩
    · rw [headD_of_head? _ s h hh, hf] at hflag
      cases hflag
    · rw [hv]
      exact overwrite_content_of_mem _ _ _ _
        (List.mem_append_left _ (List.mem_append_left _ hx))
  · intro d' m' c N hcore hE _ hN x hx
    obtain ⟨_, hv⟩ := view_copied m' c N.ConceptStep hcore.allocated
    rw [hv]
    by_cases hxc : x = c
    · subst hxc
      have hxv : (m'.steps x).Value = (m.steps s).Value := by
        have h1 : (m'.view x).Value = (m.view x).Value := hcore.values x
        exact h1.trans (hwf.buckets _ x hx)
      rw [hxv] at hN
      have hNN : N = N0 := by
        unfold ConceptDictionary.Search at hN hN0
        rw [hcore.cmap, hN0] at hN
        exact (Option.some.inj hN).symm
      rw [overwrite_content_of_mem _ _ _ _ (by simp), hNN, hN0s]
      exact hcore.self
    · rw [overwrite_of_not_mem _ _ _ _ (by simpa using hxc)]
      exact hE x hx
  · intro d' m' c d'' m'' hcore hE _ hnone hrun' x hx
    obtain ⟨_, _, _, hcase⟩ := updateStep_cases d' m' c hcore.allocated d'' m'' hrun'
    rcases hcase with ⟨_, _, hm⟩ | ⟨_, _, hv⟩
    · rw [hm]; exact hE x hx
    · have hne : (m.view x).Value ≠ (m'.steps c).Value := by
        have h1 : (m.view x).Value = (m.steps s).Value := hwf.buckets _ x hx
        rw [h1]
        intro hk
        rw [← hk] at hnone
        unfold ConceptDictionary.Search at hnone hN0
        rw [hcore.cmap, hN0] at hnone
        cases hnone
      rw [hv, overwrite_of_not_mem _ _ _ _ (not_mem_bucket s _ _ d' m' hcore c x hne)]
      exact hE x hx

theorem search_register (d : ConceptDictionary) (m : Memory) (x : Addr) (file : String)
    (k : String) :
    (register d m x file).Search k =
      if k = (m.steps x).Value then some (Concept.mk x file)
      else d.Search k := by
  unfold register ConceptDictionary.Search
  by_cases h : k = (m.steps x).Value
  · subst h; simp [GoMap.get?_set_same]
  · simp [h, GoMap.get?_set_other _ _ _ _ h]

theorem wellFormed_register (d : ConceptDictionary) (m : Memory) (x : Addr) (file : String)
    (hal : m.Allocated)
    (hb : ∀ k a, a ∈ d.constructionMap k → (m.steps a).Value = k)
    (hreg : ∀ k N, d.Search k = some N →
      (m.steps N.ConceptStep).Value = k ∧ (m.steps N.ConceptStep).IsConcept = true)
    (hx : (m.steps x).IsConcept = true) :
    WellFormed (register d m x file) m := by
  have key : ∀ k N, (register d m x file).Search k = some N →
      (m.steps N.ConceptStep).Value = k ∧ (m.steps N.ConceptStep).IsConcept = true := by
    intro k N hN
    rw [search_register] at hN
    by_cases h : k = (m.steps x).Value
    · rw [if_pos h] at hN
      have : N = Concept.mk x file := (Option.some.inj hN).symm
      subst this
      exact ⟨h.symm, hx⟩
    · rw [if_neg h] at hN
      exact hreg k N hN
  exact ⟨hal, hb, fun k N hN => (key k N hN).1, fun k N hN => (key k N hN).2⟩

theorem ok_inj {α β : Type} {a a' : α} {b b' : β}
    (h : (Except.ok (a, b) : Except String (α × β)) = Except.ok (a', b')) :
    a = a' ∧ b = b' := by
  injection h with h
  injection h with h1 h2
  exact ⟨h1, h2⟩

theorem head_of_mem (B : List Addr) (x : Addr) (h : x ∈ B) :
    ∃ a, B.head? = some a ∧ a ∈ B := by
  cases B with
  | nil => simp at h
  | cons a t => exact ⟨a, rfl, by simp⟩

/-- The concept `C` is loaded after the concept `A` whose step `c` names it. -/
theorem late_concept (m : Memory) (A C c : Addr) (fA fC : String) (hal : m.Allocated)
    (hA : (m.steps A).IsConcept = true) (hC : (m.steps C).IsConcept = true)
    (hAC : (m.steps A).Value ≠ (m.steps C).Value)
    (hplainA : ∀ x ∈ (m.steps A).ConceptSteps, (m.steps x).IsConcept = false)
    (hplainC : ∀ x ∈ (m.steps C).ConceptSteps, (m.steps x).IsConcept = false)
    (hc : c ∈ (m.steps A).ConceptSteps) (hcv : (m.steps c).Value = (m.steps C).Value) :
    ∃ d1 m1 d2 m2, loadConcept NewConceptDictionary m A fA = .ok (d1, m1) ∧
      loadConcept d1 m1 C fC = .ok (d2, m2) ∧
      (m2.view c).content = (m.view C).content ∧
      (m2.view C).content = (m.view C).content := by
  have hwfA : WellFormed (register NewConceptDictionary m A fA) m :=
    wellFormed_register _ m A fA hal (fun k a h => by cases h) (fun k N h => by cases h) hA
  have hselfA : A ∉ (m.steps A).ConceptSteps := fun h => by
    have := hplainA A h; rw [hA] at this; cases this
  have hCnotA : C ∉ (m.steps A).ConceptSteps := fun h => by
    have := hplainA C h; rw [hC] at this; cases this
  have hCA : C ≠ A := fun h => hAC (by rw [h])
  have hsearchA : ∀ k, k ≠ (m.steps A).Value →
      (register NewConceptDictionary m A fA).Search k = none := by
    intro k hk
    rw [search_register, if_neg hk]; rfl
  obtain ⟨d1, m1, hrun1, hcore1, _, hkids1⟩ :=
    replace_resolves _ m A hwfA hA hselfA
  obtain ⟨d1X, m1X, hrun1X, _, hplain1⟩ := replace_plain _ m A hwfA hA hselfA (by
    intro x _ _ hx3
    rcases hx3 with h | ⟨k, h⟩
    · exact hplainA x h
    · cases h)
  obtain ⟨hd, hm⟩ := ok_inj (hrun1.symm.trans hrun1X)
  subst hd hm
  obtain ⟨d1c, m1c, hrun1c, _, hframeC, _⟩ :=
    replace_frame _ m A hwfA hA hselfA C hCA hCnotA (fun k h => by cases h)
  obtain ⟨hd, hm⟩ := ok_inj (hrun1.symm.trans hrun1c)
  subst hd hm
  have hS1 : ∀ k, d1.Search k = (register NewConceptDictionary m A fA).Search k := by
    intro k; unfold ConceptDictionary.Search; rw [hcore1.cmap]
  have hvals : ∀ x, (m1.steps x).Value = (m.steps x).Value := hcore1.values
  have hCval : (m.steps C).Value ≠ (m.steps A).Value := fun h => hAC h.symm
  -- `c` was recorded as a plain step under the value of `C`
  have hcmem : c ∈ d1.constructionMap (m.steps C).Value := by
    have h1 := (hkids1 c hc).2 (by
      show d1.Search (m1.steps c).Value = none
      rw [hvals, hcv, hS1]; exact hsearchA _ hCval)
    have h2 : c ∈ d1.constructionMap (m1.steps c).Value := h1.1
    rw [hvals, hcv] at h2
    exact h2
  obtain ⟨h, hh, hhmem⟩ := head_of_mem _ c hcmem
  have hhplain : (m1.steps h).IsConcept = false :=
    hplain1 _ (hsearchA _ hCval) hCval h hhmem
  have hC1 : (m1.steps C).IsConcept = true :=
    (congrArg StepView.IsConcept hframeC).trans hC
  have hCS1 : (m1.steps C).ConceptSteps = (m.steps C).ConceptSteps :=
    congrArg StepView.ConceptSteps hframeC
  have hwfC : WellFormed (register d1 m1 C fC) m1 :=
    wellFormed_register d1 m1 C fC hcore1.allocated
      (fun k a ha => (hvals a).trans (hcore1.buckets k a ha))
      (by
        intro k N hN
        rw [hS1] at hN
        have hN' := hN
        rw [search_register] at hN
        by_cases hk : k = (m.steps A).Value
        · rw [if_pos hk] at hN
          have : N = Concept.mk A fA := (Option.some.inj hN).symm
          subst this
          exact ⟨(hvals A).trans hk.symm, hcore1.flagged k _ hN'⟩
        · rw [if_neg hk] at hN; cases hN)
      hC1
  have hselfC : C ∉ (m1.steps C).ConceptSteps := fun h => by
    rw [hCS1] at h
    have := hplainC C h; rw [hC] at this; cases this
  obtain ⟨d2, m2, hrun2, hcore2, hagree⟩ := replace_agrees _ m1 C hwfC hC1 hselfC
    ⟨Concept.mk C fC, by rw [search_register, if_pos rfl], rfl⟩
    ⟨h, by
      show (d1.constructionMap (m1.steps C).Value).head? = some h
      rw [hvals]; exact hh, hhplain⟩
  refine ⟨d1, m1, d2, m2, hrun1, hrun2, ?_, ?_⟩
  · have := hagree c (by
      show c ∈ d1.constructionMap (m1.steps C).Value
      rw [hvals]; exact hcmem)
    rw [this, hframeC]
  · rw [hcore2.self, hframeC]

/-- The concept `C` is loaded before the concept `A` whose step `c` names it. -/
theorem early_concept (m : Memory) (A C c : Addr) (fA fC : String) (hal : m.Allocated)
    (hA : (m.steps A).IsConcept = true) (hC : (m.steps C).IsConcept = true)
    (hAC : (m.steps A).Value ≠ (m.steps C).Value)
    (hplainA : ∀ x ∈ (m.steps A).ConceptSteps, (m.steps x).IsConcept = false)
    (hplainC : ∀ x ∈ (m.steps C).ConceptSteps, (m.steps x).IsConcept = false)
    (hc : c ∈ (m.steps A).ConceptSteps) (hcv : (m.steps c).Value = (m.steps C).Value) :
    ∃ d1 m1 d2 m2, loadConcept NewConceptDictionary m C fC = .ok (d1, m1) ∧
      loadConcept d1 m1 A fA = .ok (d2, m2) ∧
      (m2.view c).content = (m.view C).content ∧
      (m2.view C).content = (m.view C).content := by
  have hwfC : WellFormed (register NewConceptDictionary m C fC) m :=
    wellFormed_register _ m C fC hal (fun k a h => by cases h) (fun k N h => by cases h) hC
  have hselfC : C ∉ (m.steps C).ConceptSteps := fun h => by
    have := hplainC C h; rw [hC] at this; cases this
  have hAnotC : A ∉ (m.steps C).ConceptSteps := fun h => by
    have := hplainC A h; rw [hA] at this; cases this
  have hCnotA : C ∉ (m.steps A).ConceptSteps := fun h => by
    have := hplainA C h; rw [hC] at this; cases this
  have hAneC : A ≠ C := fun h => hAC (by rw [h])
  have hCval : (m.steps C).Value ≠ (m.steps A).Value := fun h => hAC h.symm
  obtain ⟨d1, m1, hrun1, hcore1, hframeA, _⟩ :=
    replace_frame _ m C hwfC hC hselfC A hAneC hAnotC (fun k h => by cases h)
  have hS1 : ∀ k, d1.Search k = (register NewConceptDictionary m C fC).Search k := by
    intro k; unfold ConceptDictionary.Search; rw [hcore1.cmap]
  have hvals : ∀ x, (m1.steps x).Value = (m.steps x).Value := hcore1.values
  have hA1 : (m1.steps A).IsConcept = true :=
    (congrArg StepView.IsConcept hframeA).trans hA
  have hCSA1 : (m1.steps A).ConceptSteps = (m.steps A).ConceptSteps :=
    congrArg StepView.ConceptSteps hframeA
  have hSC : d1.Search (m.steps C).Value = some (Concept.mk C fC) := by
    rw [hS1, search_register, if_pos rfl]
  have hwfA : WellFormed (register d1 m1 A fA) m1 :=
    wellFormed_register d1 m1 A fA hcore1.allocated
      (fun k a ha => (hvals a).trans (hcore1.buckets k a ha))
      (by
        intro k N hN
        rw [hS1] at hN
        have hN' := hN
        rw [search_register] at hN
        by_cases hk : k = (m.steps C).Value
        · rw [if_pos hk] at hN
          have : N = Concept.mk C fC := (Option.some.inj hN).symm
          subst this
          exact ⟨(hvals C).trans hk.symm, hcore1.flagged k _ hN'⟩
        · rw [if_neg hk] at hN; cases hN)
      hA1
  have hselfA : A ∉ (m1.steps A).ConceptSteps := fun h => by
    rw [hCSA1] at h
    have := hplainA A h; rw [hA] at this; cases this
  have hSA : ∀ k, k ≠ (m.steps A).Value →
      (register d1 m1 A fA).Search k = d1.Search k := by
    intro k hk
    rw [search_register, if_neg (by rw [hvals]; exact hk)]
  obtain ⟨d2, m2, hrun2, hcore2, _, hkids2⟩ := replace_resolves _ m1 A hwfA hA1 hselfA
  obtain ⟨d2c, m2c, hrun2c, _, hframeC, _⟩ :=
    replace_frame _ m1 A hwfA hA1 hselfA C (fun h => hAneC h.symm)
      (by rw [hCSA1]; exact hCnotA)
      (by
        intro k hk
        have hk' : (m.view C).Value = k := hcore1.buckets k C hk
        have hkC : k = (m.steps C).Value := hk'.symm
        subst hkC
        refine ⟨?_, by rw [hvals]; exact hCval⟩
        rw [hSA _ hCval, hSC]
        exact fun h => by cases h)
  obtain ⟨hd, hm⟩ := ok_inj (hrun2.symm.trans hrun2c)
  subst hd hm
  refine ⟨d1, m1, d2, m2, hrun1, hrun2, ?_, ?_⟩
  · have hsearch : d2.Search (m2.view c).Value = some (Concept.mk C fC) := by
      have h1 : (m2.view c).Value = (m.steps C).Value :=
        ((hcore2.values c).trans (hvals c)).trans hcv
      rw [h1]
      have h2 : d2.Search (m.steps C).Value =
          (register d1 m1 A fA).Search (m.steps C).Value := by
        unfold ConceptDictionary.Search; rw [hcore2.cmap]
      rw [h2, hSA _ hCval, hSC]
    have := (hkids2 c (by rw [hCSA1]; exact hc)).1 _ hsearch
    rw [this]
    show (m2.view C).content = _
    rw [hframeC]
    exact hcore1.self
  · rw [hframeC]
    exact hcore1.self

/-! ## C2: forward references -/

/-- C2: from the empty dictionary and a memory whose table references are allocated, let
the concept steps `A` and `C` be flagged, of different values, with plain steps inside,
and let the step `c` inside `A` have the value of `C`. Loading `A` then `C`, and loading
`C` then `A`, both return; in both orders `c` ends with the flag and the expansion of the
step of `C`, which are the same in both orders, and the expansion is the one `C` was
parsed with. -/
theorem forward_reference_order_independent (m : Memory) (A C c : Addr) (fA fC : String)
    (hal : m.Allocated)
    (hA : (m.steps A).IsConcept = true) (hC : (m.steps C).IsConcept = true)
    (hAC : (m.steps A).Value ≠ (m.steps C).Value)
    (hplainA : ∀ x ∈ (m.steps A).ConceptSteps, (m.steps x).IsConcept = false)
    (hplainC : ∀ x ∈ (m.steps C).ConceptSteps, (m.steps x).IsConcept = false)
    (hc : c ∈ (m.steps A).ConceptSteps) (hcv : (m.steps c).Value = (m.steps C).Value) :
    ∃ d1 m1 d2 m2 e1 n1 e2 n2,
      loadConcept NewConceptDictionary m A fA = .ok (d1, m1) ∧
      loadConcept d1 m1 C fC = .ok (d2, m2) ∧
      loadConcept NewConceptDictionary m C fC = .ok (e1, n1) ∧
      loadConcept e1 n1 A fA = .ok (e2, n2) ∧
      (m2.steps c).IsConcept = (m2.steps C).IsConcept ∧
      (m2.steps c).ConceptSteps = (m2.steps C).ConceptSteps ∧
      (n2.steps c).IsConcept = (n2.steps C).IsConcept ∧
      (n2.steps c).ConceptSteps = (n2.steps C).ConceptSteps ∧
      (m2.steps c).IsConcept = (n2.steps c).IsConcept ∧
      (m2.steps c).ConceptSteps = (n2.steps c).ConceptSteps ∧
      (m2.steps c).ConceptSteps = (m.steps C).ConceptSteps := by
  obtain ⟨d1, m1, d2, m2, h1, h2, hc2, hC2⟩ :=
    late_concept m A C c fA fC hal hA hC hAC hplainA hplainC hc hcv
  obtain ⟨e1, n1, e2, n2, g1, g2, kc2, kC2⟩ :=
    early_concept m A C c fA fC hal hA hC hAC hplainA hplainC hc hcv
  obtain ⟨a1, a2, _⟩ := (content_eq_iff _ _).1 hc2
  obtain ⟨a3, a4, _⟩ := (content_eq_iff _ _).1 hC2
  obtain ⟨b1, b2, _⟩ := (content_eq_iff _ _).1 kc2
  obtain ⟨b3, b4, _⟩ := (content_eq_iff _ _).1 kC2
  exact ⟨d1, m1, d2, m2, e1, n1, e2, n2, h1, h2, g1, g2, a1.trans a3.symm, a2.trans a4.symm,
    b1.trans b3.symm, b2.trans b4.symm, a1.trans b1.symm, a2.trans b2.symm, a2⟩

/-- Witness for `forward_reference_order_independent`: the step 1 inside the concept "A"
of `twoConcepts` names the concept "C". -/
theorem forward_reference_order_independent_witness :
    ∃ d1 m1 d2 m2 e1 n1 e2 n2,
      loadConcept NewConceptDictionary twoConcepts 0 "a.cpt" = .ok (d1, m1) ∧
      loadConcept d1 m1 3 "c.cpt" = .ok (d2, m2) ∧
      loadConcept NewConceptDictionary twoConcepts 3 "c.cpt" = .ok (e1, n1) ∧
      loadConcept e1 n1 0 "a.cpt" = .ok (e2, n2) ∧
      (m2.steps 1).IsConcept = (m2.steps 3).IsConcept ∧
      (m2.steps 1).ConceptSteps = (m2.steps 3).ConceptSteps ∧
      (n2.steps 1).IsConcept = (n2.steps 3).IsConcept ∧
      (n2.steps 1).ConceptSteps = (n2.steps 3).ConceptSteps ∧
      (m2.steps 1).IsConcept = (n2.steps 1).IsConcept ∧
      (m2.steps 1).ConceptSteps = (n2.steps 1).ConceptSteps ∧
      (m2.steps 1).ConceptSteps = (twoConcepts.steps 3).ConceptSteps :=
  forward_reference_order_independent twoConcepts 0 3 1 "a.cpt" "c.cpt"
    twoConcepts_allocated rfl rfl (by decide)
    (by
      intro x hx
      have : x = 1 ∨ x = 2 := by simpa [twoConcepts, mkStep] using hx
      rcases this with rfl | rfl <;> rfl)
    (by
      intro x hx
      have : x = 4 := by simpa [twoConcepts, mkStep] using hx
      subst this; rfl)
    (by decide) rfl

/-! ## The effect of `UpdateLookupForNestedConcepts` -/

theorem GoMap.isSome_get?_set {V : Type} (t : GoMap V) (p q : String) (v : V)
    (hp : (GoMap.get? t p).isSome = true) :
    (GoMap.get? (GoMap.set t p v) q).isSome = (GoMap.get? t q).isSome := by
  by_cases h : q = p
  · subst h; rw [GoMap.get?_set_same, hp]; rfl
  · rw [GoMap.get?_set_other _ _ _ _ h]

theorem AddArgValue_ok_iff (m : Memory) (l : ArgLookup) (p : String) (v : StepArg)
    (m' : Memory) (h : AddArgValue m l p v = .ok m') :
    (GoMap.get? (m.tables l.ref) p).isSome = true ∧
    m' = m.setTable l.ref (GoMap.set (m.tables l.ref) p (some v)) := by
  unfold AddArgValue at h
  cases hg : GoMap.get? (m.tables l.ref) p with
  | none => rw [hg] at h; cases h
  | some x =>
    rw [hg] at h
    injection h with h
    exact ⟨rfl, h.symm⟩

theorem AddArgValue_of_present (m : Memory) (l : ArgLookup) (p : String) (v : StepArg)
    (h : (GoMap.get? (m.tables l.ref) p).isSome = true) :
    AddArgValue m l p v = .ok (m.setTable l.ref (GoMap.set (m.tables l.ref) p (some v))) := by
  unfold AddArgValue
  cases hg : GoMap.get? (m.tables l.ref) p with
  | none => rw [hg] at h; cases h
  | some x => rfl

theorem get?_succ_of_mem {α : Type} (L : List α) (x q : α) (h : q ∈ L) :
    ∃ n, (x :: L).get? (n + 1) = some q := by
  obtain ⟨n, hn⟩ := List.mem_iff_get?.1 h
  exact ⟨n, by simpa using hn⟩

/-- What a successful run of the innermost loop of `UpdateLookupForNestedConcepts` does. -/
theorem bindArgs_effect (c : Addr) (args : List StepArg) : ∀ (i : Nat) (m m' : Memory),
    bindArgs c i args m = .ok m' →
    m'.steps = m.steps ∧ m'.next = m.next ∧
    (∀ r, r ≠ (m.steps c).Lookup.ref → m'.tables r = m.tables r) ∧
    (∀ q, (GoMap.get? (m'.tables (m.steps c).Lookup.ref) q).isSome =
      (GoMap.get? (m.tables (m.steps c).Lookup.ref) q).isSome) ∧
    (∀ q, (∀ p ∈ args, p.Value ≠ q) →
      GoMap.get? (m'.tables (m.steps c).Lookup.ref) q =
        GoMap.get? (m.tables (m.steps c).Lookup.ref) q) ∧
    (∀ j p a, args.get? j = some p → (m.steps c).Args.get? (i + j) = some a →
      (∀ j' q, j < j' → args.get? j' = some q → q.Value ≠ p.Value) →
      GoMap.get? (m'.tables (m.steps c).Lookup.ref) p.Value = some (some (boundArg a))) := by
  induction args with
  | nil =>
    intro i m m' h
    have : m' = m := by
      unfold bindArgs at h; injection h with h; exact h.symm
    subst this
    exact ⟨rfl, rfl, fun _ _ => rfl, fun _ => rfl, fun _ _ => rfl,
      fun j p a hj => by simp at hj⟩
  | cons arg rest ih =>
    intro i m m' h
    rw [bindArgs] at h
    cases hget : (m.steps c).Args.get? i with
    | none => rw [hget] at h; cases h
    | some a0 =>
      rw [hget] at h
      simp only at h
      cases hadd : AddArgValue m (m.steps c).Lookup arg.Value
          { ArgType := a0.ArgType, Value := a0.Value } with
      | error e => rw [hadd] at h; cases h
      | ok m1 =>
        rw [hadd] at h
        simp only at h
        obtain ⟨hpresent, hm1⟩ := AddArgValue_ok_iff _ _ _ _ _ hadd
        have hsteps1 : m1.steps = m.steps := by rw [hm1]; rfl
        have htab1 : m1.tables (m.steps c).Lookup.ref =
            GoMap.set (m.tables (m.steps c).Lookup.ref) arg.Value (some (boundArg a0)) := by
          rw [hm1]; simp [Memory.setTable, boundArg]
        have htab1' : ∀ r, r ≠ (m.steps c).Lookup.ref → m1.tables r = m.tables r := by
          intro r hr; rw [hm1]; simp [Memory.setTable, hr]
        obtain ⟨hs, hn, hother, hsome, hframe, hbind⟩ := ih (i + 1) m1 m' h
        rw [hsteps1] at hs hother hsome hframe hbind
        refine ⟨hs, by rw [hn, hm1]; rfl, fun r hr => by rw [hother r hr, htab1' r hr],
          ?_, ?_, ?_⟩
        · intro q
          rw [hsome q, htab1, GoMap.isSome_get?_set _ _ _ _ hpresent]
        · intro q hq
          rw [hframe q (fun p hp => hq p (List.mem_cons_of_mem _ hp)), htab1,
            GoMap.get?_set_other _ _ _ _ (fun h => hq arg (List.mem_cons_self _ _) h.symm)]
        · intro j p a hj ha hlast
          cases j with
          | zero =>
            have hp : arg = p := by simpa using hj
            subst hp
            have ha0 : a0 = a := by
              rw [Nat.add_zero, hget] at ha; exact Option.some.inj ha
            subst ha0
            rw [hframe arg.Value (by
              intro q hq
              obtain ⟨n, hn'⟩ := get?_succ_of_mem rest arg q hq
              exact hlast (n + 1) q (Nat.succ_pos n) hn'), htab1, GoMap.get?_set_same]
          | succ j0 =>
            have hj' : rest.get? j0 = some p := by simpa using hj
            exact hbind j0 p a hj' (by rw [Nat.add_assoc, Nat.add_comm 1 j0]; exact ha)
              (fun j' q hlt hq => hlast (j' + 1) q (Nat.succ_lt_succ hlt) (by simpa using hq))

/-- The innermost loop returns when the step has an argument for every parameter and its
table has every parameter name. -/
theorem bindArgs_ok (c : Addr) (args : List StepArg) : ∀ (i : Nat) (m : Memory),
    i + args.length ≤ (m.steps c).Args.length →
    (∀ p ∈ args, (GoMap.get? (m.tables (m.steps c).Lookup.ref) p.Value).isSome = true) →
    ∃ m', bindArgs c i args m = .ok m' := by
  induction args with
  | nil => intro i m _ _; exact ⟨m, rfl⟩
  | cons arg rest ih =>
    intro i m hlen hpres
    have hi : i < (m.steps c).Args.length := by
      simp only [List.length_cons] at hlen; omega
    have hget : (m.steps c).Args.get? i = some ((m.steps c).Args.get ⟨i, hi⟩) :=
      List.get?_eq_get hi
    have hadd := AddArgValue_of_present m (m.steps c).Lookup arg.Value
      { ArgType := ((m.steps c).Args.get ⟨i, hi⟩).ArgType,
        Value := ((m.steps c).Args.get ⟨i, hi⟩).Value } (hpres arg (List.mem_cons_self _ _))
    rw [bindArgs, hget]
    simp only [hadd]
    apply ih
    · simp only [List.length_cons] at hlen
      show i + 1 + rest.length ≤ (m.steps c).Args.length
      omega
    · intro p hp
      show (GoMap.get? ((m.setTable _ _).tables (m.steps c).Lookup.ref) p.Value).isSome = true
      simp only [Memory.setTable, if_true]
      rw [GoMap.isSome_get?_set _ _ _ _ (hpres arg (List.mem_cons_self _ _))]
      exact hpres p (List.mem_cons_of_mem _ hp)

theorem SameShape.refl (m : Memory) : SameShape m m :=
  ⟨fun _ => rfl, fun _ _ => rfl⟩

theorem SameShape.trans {m1 m2 m3 : Memory} (h12 : SameShape m1 m2) (h23 : SameShape m2 m3) :
    SameShape m1 m3 :=
  ⟨fun x => by rw [h23.steps x, h12.steps x], fun r p => by rw [h23.names r p, h12.names r p]⟩

theorem SameShape.value {m m' : Memory} (h : SameShape m m') (x : Addr) :
    (m'.steps x).Value = (m.steps x).Value := by rw [h.steps x]

theorem SameShape.args {m m' : Memory} (h : SameShape m m') (x : Addr) :
    (m'.steps x).Args = (m.steps x).Args := by rw [h.steps x]

theorem SameShape.lookup {m m' : Memory} (h : SameShape m m') (x : Addr) :
    (m'.steps x).Lookup = (m.steps x).Lookup := by rw [h.steps x]

theorem SameShape.conceptSteps {m m' : Memory} (h : SameShape m m') (x : Addr) :
    (m'.steps x).ConceptSteps = (m.steps x).ConceptSteps := by rw [h.steps x]

theorem sameShape_setParent (m : Memory) (child parent : Addr) :
    SameShape m (m.setStep child { m.steps child with Parent := some parent }) := by
  refine ⟨fun x => ?_, fun _ _ => rfl⟩
  by_cases h : x = child
  · subst h; simp [Memory.setStep]
  · simp [Memory.setStep, h]

/-- What a successful run of the body of the loop over the steps of a concept does. -/
theorem bindStep_effect (d : ConceptDictionary) (cs child : Addr) (m m' : Memory)
    (h : bindStep d cs child m = .ok m') :
    SameShape m m' ∧
    (∀ r, (d.Search (m.steps child).Value = none ∨ r ≠ (m.steps child).Lookup.ref) →
      m'.tables r = m.tables r) ∧
    (∀ N, d.Search (m.steps child).Value = some N → ∀ i p a,
      (m.steps N.ConceptStep).Args.get? i = some p → (m.steps child).Args.get? i = some a →
      (∀ j q, i < j → (m.steps N.ConceptStep).Args.get? j = some q → q.Value ≠ p.Value) →
      GoMap.get? (m'.tables (m.steps child).Lookup.ref) p.Value = some (some (boundArg a))) := by
  have hshape := sameShape_setParent m child cs
  unfold bindStep at h
  simp only at h
  rw [hshape.value child] at h
  cases hsearch : d.Search (m.steps child).Value with
  | none =>
    rw [hsearch] at h
    injection h with h
    subst h
    exact ⟨hshape, fun _ _ => rfl, fun N hN => by cases hN⟩
  | some N =>
    rw [hsearch] at h
    simp only at h
    obtain ⟨hs, _, hother, hsome, _, hbind⟩ := bindArgs_effect child _ 0 _ m' h
    rw [hshape.lookup child] at hother hsome hbind
    rw [hshape.args child, hshape.args N.ConceptStep] at hbind
    refine ⟨⟨fun x => ?_, fun r p => ?_⟩, fun r hr => ?_, fun N' hN' i p a hp ha hlast => ?_⟩
    · rw [hs]; exact hshape.steps x
    · by_cases hr : r = (m.steps child).Lookup.ref
      · subst hr; exact hsome p
      · rw [hother r hr]; rfl
    · rcases hr with hr | hr
      · cases hr
      · rw [hother r hr]; rfl
    · have : N' = N := (Option.some.inj hN').symm
      subst this
      exact hbind i p a hp (by rw [Nat.zero_add]; exact ha) hlast

/-- The body of the loop returns when the step has an argument for every parameter of the
concept it names, and its table has every parameter name. -/
theorem bindStep_ok (d : ConceptDictionary) (cs child : Addr) (m : Memory)
    (h : ∀ N, d.Search (m.steps child).Value = some N →
      (m.steps N.ConceptStep).Args.length ≤ (m.steps child).Args.length ∧
      ∀ p ∈ (m.steps N.ConceptStep).Args,
        (GoMap.get? (m.tables (m.steps child).Lookup.ref) p.Value).isSome = true) :
    ∃ m', bindStep d cs child m = .ok m' := by
  have hshape := sameShape_setParent m child cs
  unfold bindStep
  simp only
  rw [hshape.value child]
  cases hsearch : d.Search (m.steps child).Value with
  | none => exact ⟨_, rfl⟩
  | some N =>
    obtain ⟨hlen, hpres⟩ := h N hsearch
    simp only
    apply bindArgs_ok
    · rw [hshape.args child, hshape.args N.ConceptStep, Nat.zero_add]; exact hlen
    · intro p hp
      rw [hshape.args N.ConceptStep] at hp
      rw [hshape.lookup child]
      exact hpres p hp

/-- Induction over the loop over the steps of one concept. -/
theorem bindSteps_visit (d : ConceptDictionary) (cs : Addr) (I Q : Memory → Prop) (c : Addr)
    (hI : ∀ m child m', I m → bindStep d cs child m = .ok m' → I m')
    (hpres : ∀ m child m', I m → Q m → bindStep d cs child m = .ok m' → Q m')
    (hest : ∀ m m', I m → bindStep d cs c m = .ok m' → Q m') :
    ∀ (L : List Addr) (m m' : Memory), bindSteps d cs L m = .ok m' → I m →
      I m' ∧ (Q m → Q m') ∧ (c ∈ L → Q m') := by
  intro L
  induction L with
  | nil =>
    intro m m' h hIm
    have : m' = m := by unfold bindSteps at h; injection h with h; exact h.symm
    subst this
    exact ⟨hIm, id, fun h => by cases h⟩
  | cons child rest ih =>
    intro m m' h hIm
    rw [bindSteps] at h
    cases hstep : bindStep d cs child m with
    | error e => rw [hstep] at h; cases h
    | ok m1 =>
      rw [hstep] at h
      simp only at h
      obtain ⟨hI', hQ, hc⟩ := ih m1 m' h (hI m child m1 hIm hstep)
      refine ⟨hI', fun hq => hQ (hpres m child m1 hIm hq hstep), fun hmem => ?_⟩
      rcases List.mem_cons.1 hmem with rfl | hmem'
      · exact hQ (hest m m1 hIm hstep)
      · exact hc hmem'

/-- Induction over the loop over the concepts of the dictionary. -/
theorem bindConcepts_visit (d : ConceptDictionary) (I Q : Memory → Prop) (c : Addr)
    (CS0 : Addr → List Addr)
    (hCS : ∀ m, I m → ∀ x, (m.steps x).ConceptSteps = CS0 x)
    (hI : ∀ cs m child m', I m → bindStep d cs child m = .ok m' → I m')
    (hpres : ∀ cs m child m', I m → Q m → bindStep d cs child m = .ok m' → Q m')
    (hest : ∀ cs m m', I m → bindStep d cs c m = .ok m' → Q m') :
    ∀ (entries : List (String × Concept)) (m m' : Memory),
      bindConcepts d entries m = .ok m' → I m →
      I m' ∧ (Q m → Q m') ∧ ((∃ e ∈ entries, c ∈ CS0 e.2.ConceptStep) → Q m') := by
  intro entries
  induction entries with
  | nil =>
    intro m m' h hIm
    have : m' = m := by unfold bindConcepts at h; injection h with h; exact h.symm
    subst this
    exact ⟨hIm, id, fun ⟨e, he, _⟩ => by cases he⟩
  | cons entry rest ih =>
    intro m m' h hIm
    obtain ⟨k, K⟩ := entry
    rw [bindConcepts] at h
    cases hsteps : bindSteps d K.ConceptStep (m.steps K.ConceptStep).ConceptSteps m with
    | error e => rw [hsteps] at h; cases h
    | ok m1 =>
      rw [hsteps] at h
      simp only at h
      obtain ⟨hI1, hQ1, hc1⟩ := bindSteps_visit d K.ConceptStep I Q c (hI K.ConceptStep)
        (hpres K.ConceptStep) (hest K.ConceptStep) _ m m1 hsteps hIm
      obtain ⟨hI', hQ, hc⟩ := ih m1 m' h hI1
      refine ⟨hI', fun hq => hQ (hQ1 hq), fun ⟨e, he, hce⟩ => ?_⟩
      rcases List.mem_cons.1 he with rfl | he'
      · exact hQ (hc1 (by rw [hCS m hIm]; exact hce))
      · exact hc ⟨e, he', hce⟩

theorem bindable_of_sameShape (d : ConceptDictionary) (m m1 : Memory) (h : SameShape m m1)
    (c : Addr) (hc : Bindable d m c) : Bindable d m1 c := by
  intro N hN
  rw [h.value c] at hN
  obtain ⟨hlen, hpres⟩ := hc N hN
  rw [h.args, h.args, h.lookup]
  refine ⟨hlen, fun p hp => ?_⟩
  rw [h.names]
  exact hpres p hp

theorem bindSteps_ok (d : ConceptDictionary) (cs : Addr) (m : Memory) :
    ∀ (L : List Addr) (m1 : Memory), SameShape m m1 → (∀ c ∈ L, Bindable d m c) →
      ∃ m2, bindSteps d cs L m1 = .ok m2 ∧ SameShape m m2 := by
  intro L
  induction L with
  | nil => intro m1 h _; exact ⟨m1, rfl, h⟩
  | cons child rest ih =>
    intro m1 h hL
    obtain ⟨m1', hstep⟩ := bindStep_ok d cs child m1
      (bindable_of_sameShape d m m1 h child (hL child (List.mem_cons_self _ _)))
    obtain ⟨m2, hrun, h2⟩ := ih m1' (h.trans (bindStep_effect d cs child m1 m1' hstep).1)
      (fun c hc => hL c (List.mem_cons_of_mem _ hc))
    exact ⟨m2, by rw [bindSteps, hstep]; exact hrun, h2⟩

theorem bindConcepts_ok (d : ConceptDictionary) (m : Memory) :
    ∀ (entries : List (String × Concept)) (m1 : Memory), SameShape m m1 →
      (∀ e ∈ entries, ∀ c ∈ (m.steps e.2.ConceptStep).ConceptSteps, Bindable d m c) →
      ∃ m2, bindConcepts d entries m1 = .ok m2 ∧ SameShape m m2 := by
  intro entries
  induction entries with
  | nil => intro m1 h _; exact ⟨m1, rfl, h⟩
  | cons entry rest ih =>
    intro m1 h hE
    obtain ⟨k, K⟩ := entry
    obtain ⟨m1', hsteps, h1'⟩ := bindSteps_ok d K.ConceptStep m
      (m1.steps K.ConceptStep).ConceptSteps m1 h
      (by rw [h.conceptSteps]; exact hE (k, K) (List.mem_cons_self _ _))
    obtain ⟨m2, hrun, h2⟩ := ih m1' h1' (fun e he => hE e (List.mem_cons_of_mem _ he))
    exact ⟨m2, by rw [bindConcepts, hsteps]; exact hrun, h2⟩

/-- What a successful run of `UpdateLookupForNestedConcepts` does: it changes only the
parents of steps and the values bound in tables; a step inside a registered concept
that names a registered concept and shares its table with no other step has every
parameter of that concept, at the last index with its name, bound to its own argument at
that index; and a step that names no registered concept and shares its table with no
other step keeps its bindings. -/
theorem UpdateLookup_effect (d : ConceptDictionary) (m m' : Memory)
    (h : UpdateLookupForNestedConcepts d m = .ok m') :
    SameShape m m' ∧
    (∀ e c N i p a, e ∈ d.ConceptsMap → c ∈ (m.steps e.2.ConceptStep).ConceptSteps →
      d.Search (m.steps c).Value = some N → m.Unshared c →
      (m.steps N.ConceptStep).Args.get? i = some p → (m.steps c).Args.get? i = some a →
      (∀ j q, i < j → (m.steps N.ConceptStep).Args.get? j = some q → q.Value ≠ p.Value) →
      GoMap.get? (m'.lookupOf c) p.Value = some (some (boundArg a))) ∧
    (∀ u, d.Search (m.steps u).Value = none → m.Unshared u → m'.lookupOf u = m.lookupOf u) := by
  have hI : ∀ (cs : Addr) (m1 : Memory) (child : Addr) (m2 : Memory), SameShape m m1 →
      bindStep d cs child m1 = .ok m2 → SameShape m m2 :=
    fun cs m1 child m2 h1 hstep => h1.trans (bindStep_effect d cs child m1 m2 hstep).1
  have hshape : SameShape m m' :=
    (bindConcepts_visit d (SameShape m) (fun _ => True) 0 (fun x => (m.steps x).ConceptSteps)
      (fun m1 h1 x => h1.conceptSteps x) hI (fun _ _ _ _ _ _ _ => trivial)
      (fun _ _ _ _ _ => trivial) d.ConceptsMap m m' h (SameShape.refl m)).1
  refine ⟨hshape, ?_, ?_⟩
  · intro e c N i p a he hc hN hun hp ha hlast
    have hest : ∀ (cs : Addr) (m1 m2 : Memory), SameShape m m1 →
        bindStep d cs c m1 = .ok m2 →
        GoMap.get? (m2.tables (m.steps c).Lookup.ref) p.Value = some (some (boundArg a)) := by
      intro cs m1 m2 h1 hstep
      have := (bindStep_effect d cs c m1 m2 hstep).2.2 N (by rw [h1.value]; exact hN) i p a
        (by rw [h1.args]; exact hp) (by rw [h1.args]; exact ha)
        (by rw [h1.args]; exact hlast)
      rw [h1.lookup] at this
      exact this
    have := (bindConcepts_visit d (SameShape m)
      (fun m1 => GoMap.get? (m1.tables (m.steps c).Lookup.ref) p.Value
        = some (some (boundArg a))) c (fun x => (m.steps x).ConceptSteps)
      (fun m1 h1 x => h1.conceptSteps x) hI
      (by
        intro cs m1 child m2 h1 hq hstep
        by_cases hcc : child = c
        · subst hcc; exact hest cs m1 m2 h1 hstep
        · have hr : (m.steps c).Lookup.ref ≠ (m1.steps child).Lookup.ref := by
            rw [h1.lookup]; exact fun h => hun child hcc h.symm
          show GoMap.get? (m2.tables (m.steps c).Lookup.ref) p.Value = _
          rw [(bindStep_effect d cs child m1 m2 hstep).2.1 _ (Or.inr hr)]
          exact hq)
      hest d.ConceptsMap m m' h (SameShape.refl m)).2.2 ⟨e, he, hc⟩
    show GoMap.get? (m'.tables (m'.steps c).Lookup.ref) p.Value = _
    rw [hshape.lookup]
    exact this
  · intro u hu hun
    have := (bindConcepts_visit d
      (fun m1 => SameShape m m1 ∧ m1.tables (m.steps u).Lookup.ref
        = m.tables (m.steps u).Lookup.ref) (fun _ => True) 0
      (fun x => (m.steps x).ConceptSteps)
      (fun m1 h1 x => h1.1.conceptSteps x)
      (by
        intro cs m1 child m2 h1 hstep
        refine ⟨hI cs m1 child m2 h1.1 hstep, ?_⟩
        rw [← h1.2]
        apply (bindStep_effect d cs child m1 m2 hstep).2.1
        by_cases hsearch : d.Search (m1.steps child).Value = none
        · exact Or.inl hsearch
        · refine Or.inr ?_
          rw [h1.1.lookup]
          have hne : u ≠ child := by
            rintro rfl
            rw [h1.1.value] at hsearch
            exact hsearch hu
          exact fun h => hun child (Ne.symm hne) h.symm)
      (fun _ _ _ _ _ _ _ => trivial) (fun _ _ _ _ _ => trivial)
      d.ConceptsMap m m' h ⟨SameShape.refl m, rfl⟩).1.2
    show m'.tables (m'.steps u).Lookup.ref = _
    rw [hshape.lookup]
    exact this

/-- C5 (amended): when every step inside a registered concept has an argument for every
parameter of the concept it names and a table with every parameter name,
`UpdateLookupForNestedConcepts` returns; afterwards a step inside a registered concept
that names the registered concept `N` and shares its table with no other step binds the
name of the parameter `i` of `N`, when no later parameter of `N` has the same name, to an
argument with the type and the value of its own argument `i`; and a step that names no
registered concept and shares its table with no other step keeps its bindings. -/
theorem UpdateLookup_binds (d : ConceptDictionary) (m : Memory)
    (hbind : ∀ e ∈ d.ConceptsMap, ∀ c ∈ (m.steps e.2.ConceptStep).ConceptSteps,
      Bindable d m c) :
    ∃ m', UpdateLookupForNestedConcepts d m = .ok m' ∧
      (∀ e c N i p a, e ∈ d.ConceptsMap → c ∈ (m.steps e.2.ConceptStep).ConceptSteps →
        d.Search (m.steps c).Value = some N → m.Unshared c →
        (m.steps N.ConceptStep).Args.get? i = some p → (m.steps c).Args.get? i = some a →
        (∀ j q, i < j → (m.steps N.ConceptStep).Args.get? j = some q → q.Value ≠ p.Value) →
        GoMap.get? (m'.lookupOf c) p.Value
          = some (some { ArgType := a.ArgType, Value := a.Value })) ∧
      (∀ u, d.Search (m.steps u).Value = none → m.Unshared u →
        m'.lookupOf u = m.lookupOf u) := by
  obtain ⟨m', hrun, _⟩ := bindConcepts_ok d m d.ConceptsMap m (SameShape.refl m) hbind
  have heff := UpdateLookup_effect d m m' hrun
  exact ⟨m', hrun, heff.2.1, heff.2.2⟩

/-! ## C5: the bindings of a call site -/

/-- C5, as stated, fails when the nested concept names two parameters alike: the step 1
of `sameNames` names the registered concept "twice", has an argument for each of its two
parameters, and its table has the parameter name "a"; after
`UpdateLookupForNestedConcepts` its table binds "a", the name of parameter 0, to its
argument 1 ("y") and not to its argument 0 ("x"). -/
theorem UpdateLookup_same_names_counterexample :
    sameNamesDict.Search (sameNames.steps 1).Value = some (Concept.mk 2 "twice.cpt") ∧
    (sameNames.steps 2).Args.get? 0 = some ⟨"dynamic", "a"⟩ ∧
    (sameNames.steps 1).Args.get? 0 = some ⟨"static", "x"⟩ ∧
    (GoMap.get? (sameNames.lookupOf 1) "a").isSome = true ∧
    ∃ m', UpdateLookupForNestedConcepts sameNamesDict sameNames = .ok m' ∧
      GoMap.get? (m'.lookupOf 1) "a" = some (some ⟨"static", "y"⟩) ∧
      GoMap.get? (m'.lookupOf 1) "a" ≠ some (some ⟨"static", "x"⟩) := by
  refine ⟨rfl, rfl, rfl, rfl, _, rfl, ?_, ?_⟩
  · rfl
  · decide

theorem callSites_bindable : ∀ e ∈ callDict.ConceptsMap,
    ∀ c ∈ (callSites.steps e.2.ConceptStep).ConceptSteps, Bindable callDict callSites c := by
  intro e he c hc
  simp only [callDict, List.mem_cons, List.mem_singleton, List.not_mem_nil, or_false] at he
  rcases he with rfl | rfl
  · have hc' : c = 1 ∨ c = 2 := by simpa [callSites, mkCall] using hc
    rcases hc' with rfl | rfl
    · intro N hN
      have h3 : callDict.Search (callSites.steps 1).Value = some (Concept.mk 3 "say.cpt") := rfl
      rw [h3] at hN
      cases hN
      refine ⟨by decide, fun p hp => ?_⟩
      have hp' : p = ⟨"dynamic", "word"⟩ := by simpa [callSites, mkCall] using hp
      subst hp'
      rfl
    · intro N hN
      have h3 : callDict.Search (callSites.steps 2).Value = some (Concept.mk 3 "say.cpt") := rfl
      rw [h3] at hN
      cases hN
      refine ⟨by decide, fun p hp => ?_⟩
      have hp' : p = ⟨"dynamic", "word"⟩ := by simpa [callSites, mkCall] using hp
      subst hp'
      rfl
  · have hc' : c = 4 := by simpa [callSites, mkCall] using hc
    subst hc'
    intro N hN
    have h3 : callDict.Search (callSites.steps 4).Value = none := rfl
    rw [h3] at hN
    cases hN

theorem UpdateLookup_binds_witness :
    (∀ e ∈ callDict.ConceptsMap, ∀ c ∈ (callSites.steps e.2.ConceptStep).ConceptSteps,
      Bindable callDict callSites c) ∧
    ∃ m', UpdateLookupForNestedConcepts callDict callSites = .ok m' ∧
      (∀ e c N i p a, e ∈ callDict.ConceptsMap →
        c ∈ (callSites.steps e.2.ConceptStep).ConceptSteps →
        callDict.Search (callSites.steps c).Value = some N → callSites.Unshared c →
        (callSites.steps N.ConceptStep).Args.get? i = some p →
        (callSites.steps c).Args.get? i = some a →
        (∀ j q, i < j → (callSites.steps N.ConceptStep).Args.get? j = some q →
          q.Value ≠ p.Value) →
        GoMap.get? (m'.lookupOf c) p.Value
          = some (some { ArgType := a.ArgType, Value := a.Value })) ∧
      (∀ u, callDict.Search (callSites.steps u).Value = none → callSites.Unshared u →
        m'.lookupOf u = callSites.lookupOf u) :=
  ⟨callSites_bindable, UpdateLookup_binds callDict callSites callSites_bindable⟩

/-! ## C4: lookup isolation -/

theorem fresh_copied (n0 : Nat) (A0 : Addr → List StepArg) (m : Memory) (a s : Addr)
    (h : Fresh n0 A0 m) (hn : n0 ≤ m.next) :
    Fresh n0 A0 (copied m a s) ∧ n0 ≤ (copied m a s).next ∧
    n0 ≤ ((copied m a s).steps a).Lookup.ref ∧
    ∀ x, n0 ≤ (m.steps x).Lookup.ref → n0 ≤ ((copied m a s).steps x).Lookup.ref := by
  have href : ∀ x, ((copied m a s).steps x).Lookup.ref =
      if x = a then m.next else (m.steps x).Lookup.ref := by
    intro x
    by_cases hx : x = a <;> simp [copied, hx]
  refine ⟨⟨(view_copied m a s h.allocated).1, ?_, ?_⟩, ?_, ?_, ?_⟩
  · intro x hx y hy
    rw [href x] at hx
    rw [href x, href y]
    by_cases hxa : x = a
    · have hya : y ≠ a := fun e => hy (e.trans hxa.symm)
      rw [if_pos hxa, if_neg hya]
      exact Nat.ne_of_lt (h.allocated y)
    · rw [if_neg hxa] at hx ⊢
      by_cases hya : y = a
      · rw [if_pos hya]
        exact Nat.ne_of_gt (h.allocated x)
      · rw [if_neg hya]
        exact h.unshared x hx y hy
  · intro x
    by_cases hx : x = a
    · subst hx; simp only [copied, if_true]; exact h.args x
    · simp only [copied, hx, if_false]; exact h.args x
  · show n0 ≤ m.next + 1
    omega
  · rw [href a, if_pos rfl]; exact hn
  · intro x hx
    rw [href x]
    by_cases hxa : x = a
    · rw [if_pos hxa]; exact hn
    · rw [if_neg hxa]; exact hx

theorem fresh_updateAll (n0 : Nat) (A0 : Addr → List StepArg) (s : Addr) (L : List Addr) :
    ∀ (m m' : Memory), updateAll s L m = .ok m' → Fresh n0 A0 m → n0 ≤ m.next →
      Fresh n0 A0 m' ∧ n0 ≤ m'.next ∧
      ∀ x, n0 ≤ (m.steps x).Lookup.ref → n0 ≤ (m'.steps x).Lookup.ref := by
  induction L with
  | nil =>
    intro m m' h hf hn
    have : m' = m := by unfold updateAll at h; injection h with h; exact h.symm
    subst this
    exact ⟨hf, hn, fun _ hx => hx⟩
  | cons a rest ih =>
    intro m m' h hf hn
    rw [updateAll, copyOnto_eq] at h
    simp only at h
    obtain ⟨hf1, hn1, _, hmono1⟩ := fresh_copied n0 A0 m a s hf hn
    obtain ⟨hf', hn', hmono'⟩ := ih (copied m a s) m' h hf1 hn1
    exact ⟨hf', hn', fun x hx => hmono' x (hmono1 x hx)⟩

theorem fresh_updateStep (n0 : Nat) (A0 : Addr → List StepArg) (d : ConceptDictionary)
    (m : Memory) (u : Addr) (d' : ConceptDictionary) (m' : Memory)
    (h : updateStep d m u = .ok (d', m')) (hf : Fresh n0 A0 m) (hn : n0 ≤ m.next) :
    Fresh n0 A0 m' ∧ n0 ≤ m'.next ∧
    ∀ x, n0 ≤ (m.steps x).Lookup.ref → n0 ≤ (m'.steps x).Lookup.ref := by
  rw [updateStep_eq] at h
  split at h
  · obtain ⟨_, hm⟩ := ok_inj h
    subst hm
    exact ⟨hf, hn, fun _ hx => hx⟩
  · cases hall : updateAll u (d.constructionMap (m.steps u).Value ++ [u] ++ [u]) m with
    | error e => rw [hall] at h; cases h
    | ok m'' =>
      rw [hall] at h
      obtain ⟨_, hm⟩ := ok_inj h
      subst hm
      exact fresh_updateAll n0 A0 u _ m m'' hall hf hn

/-- After `ReplaceNestedConceptSteps` on the step `s`, every step of `s` that names a
registered concept holds a table of its own; the run keeps the arguments of every step. -/
theorem replace_unshares (d : ConceptDictionary) (m : Memory) (s : Addr)
    (hwf : WellFormed d m) (hs : (m.steps s).IsConcept = true)
    (hself : s ∉ (m.steps s).ConceptSteps) :
    ∃ d1 m1, ReplaceNestedConceptSteps d m s = .ok (d1, m1) ∧
      Core s d.ConceptsMap m.view d1 m1 ∧
      (m1.steps s).ConceptSteps = (m.steps s).ConceptSteps ∧
      (∀ x, (m1.steps x).Args = (m.steps x).Args) ∧
      ∀ c ∈ (m.steps s).ConceptSteps, ∀ N, d.Search (m.steps c).Value = some N →
        m1.Unshared c := by
  obtain ⟨d0, m0, hrun0⟩ := updateStep_ok d m s
  have hcore0 := core_init d m s hwf hs d0 m0 hrun0
  have hset : Setting s d.ConceptsMap m.view := ⟨fun k N hN => hwf.keys k N hN, hs, hself⟩
  have hCS : ∀ d' m', Core s d.ConceptsMap m.view d' m' →
      (m'.steps s).ConceptSteps = (m.steps s).ConceptSteps :=
    fun d' m' hc => ((content_eq_iff _ _).1 hc.self).2.1
  have hfresh : Fresh m.next (fun x => (m.steps x).Args) m :=
    ⟨hwf.allocated, fun x hx => absurd (hwf.allocated x) (Nat.not_lt.2 hx), fun _ => rfl⟩
  obtain ⟨hfresh0, hnext0, _⟩ :=
    fresh_updateStep m.next _ d m s d0 m0 hrun0 hfresh (Nat.le_refl _)
  obtain ⟨d1, m1, hloop, hI⟩ := replaceLoop_induction s (m.steps s).ConceptSteps
    (fun i d' m' => Core s d.ConceptsMap m.view d' m' ∧
      Fresh m.next (fun x => (m.steps x).Args) m' ∧ m.next ≤ m'.next ∧
      ∀ j, j < i → ∀ c N, (m.steps s).ConceptSteps.get? j = some c →
        d.Search (m.steps c).Value = some N → m.next ≤ (m'.steps c).Lookup.ref)
    (fun i d' m' h => hCS d' m' h.1) hself
    (by
      intro i d' m' c N hI hget hN
      obtain ⟨hcore, hf, hn, hold⟩ := hI
      have hc : c ∈ (m.view s).ConceptSteps := List.get?_mem hget
      obtain ⟨hf', hn', hnew, hmono⟩ := fresh_copied m.next _ m' c N.ConceptStep hf hn
      refine ⟨core_splice s _ _ hset d' m' hcore c hc N hN, hf', hn', fun j hj c' N' hc' hN' => ?_⟩
      rcases Nat.lt_succ_iff_lt_or_eq.1 hj with hlt | heq
      · exact hmono c' (hold j hlt c' N' hc' hN')
      · subst heq
        rw [hget] at hc'
        cases hc'
        exact hnew)
    (by
      intro i d' m' c d'' m'' hI hget hnone hrun
      obtain ⟨hcore, hf, hn, hold⟩ := hI
      obtain ⟨hf', hn', hmono⟩ := fresh_updateStep m.next _ d' m' c d'' m'' hrun hf hn
      refine ⟨core_record s _ _ hset d' m' hcore c hnone d'' m'' hrun, hf', hn',
        fun j hj c' N' hc' hN' => ?_⟩
      rcases Nat.lt_succ_iff_lt_or_eq.1 hj with hlt | heq
      · exact hmono c' (hold j hlt c' N' hc' hN')
      · subst heq
        rw [hget] at hc'
        cases hc'
        have hv : (m'.steps c).Value = (m.steps c).Value := hcore.values c
        rw [search_eq d' _ hcore.cmap, hv] at hnone
        rw [ConceptDictionary.Search, hnone] at hN'
        cases hN')
    (m.steps s).ConceptSteps 0 d0 m0 (Nat.zero_le _) rfl
    ⟨hcore0, hfresh0, hnext0, fun j hj => absurd hj (Nat.not_lt_zero j)⟩
  refine ⟨d1, m1, ?_, hI.1, hCS d1 m1 hI.1, hI.2.1.args, ?_⟩
  · unfold ReplaceNestedConceptSteps
    simp only [hrun0]
    rw [hCS d0 m0 hcore0]
    exact hloop
  · intro c hc N hN
    obtain ⟨j, hj⟩ := List.mem_iff_get?.1 hc
    exact hI.2.1.unshared c (hI.2.2.2 j (lt_length_of_get? _ j c hj) c N hj hN)

/-- C4: let the registered concept step `s` have two distinct steps `c1` and `c2` that
both name the registered concept `N`, whose own step is not `c1`, and let the binding of
arguments be possible in the state that `ReplaceNestedConceptSteps` leaves. Then
`ReplaceNestedConceptSteps` on `s` and `UpdateLookupForNestedConcepts` return, and
afterwards the table of each of the two call sites binds every parameter name of `N` (at
the last index with that name) to the argument of that call site at the same index; a
later `AddArgValue` on the table of `c1` takes effect there and leaves the bindings of
`c2` and of the step of `N` unchanged. -/
theorem lookup_isolation (d : ConceptDictionary) (m : Memory) (s c1 c2 : Addr) (N : Concept)
    (hwf : WellFormed d m) (hs : (m.steps s).IsConcept = true)
    (hself : s ∉ (m.steps s).ConceptSteps)
    (hreg : ∃ e ∈ d.ConceptsMap, e.2.ConceptStep = s)
    (h1 : c1 ∈ (m.steps s).ConceptSteps) (h2 : c2 ∈ (m.steps s).ConceptSteps)
    (hne : c1 ≠ c2)
    (hN1 : d.Search (m.steps c1).Value = some N) (hN2 : d.Search (m.steps c2).Value = some N)
    (hdef : N.ConceptStep ≠ c1)
    (hbind : ∀ d1 m1, ReplaceNestedConceptSteps d m s = .ok (d1, m1) →
      ∀ e ∈ d1.ConceptsMap, ∀ c ∈ (m1.steps e.2.ConceptStep).ConceptSteps, Bindable d1 m1 c) :
    ∃ d1 m1 m2, ReplaceNestedConceptSteps d m s = .ok (d1, m1) ∧
      UpdateLookupForNestedConcepts d1 m1 = .ok m2 ∧
      (∀ i p, (m.steps N.ConceptStep).Args.get? i = some p →
        (∀ j q, i < j → (m.steps N.ConceptStep).Args.get? j = some q → q.Value ≠ p.Value) →
        (∀ a, (m.steps c1).Args.get? i = some a →
          GoMap.get? (m2.lookupOf c1) p.Value
            = some (some { ArgType := a.ArgType, Value := a.Value })) ∧
        (∀ a, (m.steps c2).Args.get? i = some a →
          GoMap.get? (m2.lookupOf c2) p.Value
            = some (some { ArgType := a.ArgType, Value := a.Value }))) ∧
      (m2.steps c1).Lookup.ref ≠ (m2.steps c2).Lookup.ref ∧
      (m2.steps c1).Lookup.ref ≠ (m2.steps N.ConceptStep).Lookup.ref ∧
      ∀ p v m3, AddArgValue m2 (m2.steps c1).Lookup p v = .ok m3 →
        GoMap.get? (m3.lookupOf c1) p = some (some v) ∧
        m3.lookupOf c2 = m2.lookupOf c2 ∧
        m3.lookupOf N.ConceptStep = m2.lookupOf N.ConceptStep := by
  obtain ⟨d1, m1, hrun, hcore, hCS, hargs, hun⟩ := replace_unshares d m s hwf hs hself
  obtain ⟨m2, hrun2, _⟩ :=
    bindConcepts_ok d1 m1 d1.ConceptsMap m1 (SameShape.refl m1) (hbind d1 m1 hrun)
  have heff := UpdateLookup_effect d1 m1 m2 hrun2
  obtain ⟨hshape, hbound, _⟩ := heff
  obtain ⟨e, he, hes⟩ := hreg
  have he1 : e ∈ d1.ConceptsMap := by rw [hcore.cmap]; exact he
  have hkids : ∀ c, c ∈ (m.steps s).ConceptSteps →
      c ∈ (m1.steps e.2.ConceptStep).ConceptSteps := by
    intro c hc; rw [hes, hCS]; exact hc
  have hsearch : ∀ c, d.Search (m.steps c).Value = some N →
      d1.Search (m1.steps c).Value = some N := by
    intro c hc
    have hv : (m1.steps c).Value = (m.steps c).Value := hcore.values c
    rw [search_eq d1 _ hcore.cmap, hv]
    exact hc
  have hr12 : (m2.steps c1).Lookup.ref ≠ (m2.steps c2).Lookup.ref := by
    rw [hshape.lookup, hshape.lookup]
    exact fun h => hun c1 h1 N hN1 c2 (Ne.symm hne) h.symm
  have hr1N : (m2.steps c1).Lookup.ref ≠ (m2.steps N.ConceptStep).Lookup.ref := by
    rw [hshape.lookup, hshape.lookup]
    exact fun h => hun c1 h1 N hN1 N.ConceptStep hdef h.symm
  refine ⟨d1, m1, m2, hrun, hrun2, ?_, hr12, hr1N, ?_⟩
  · intro i p hp hlast
    refine ⟨fun a ha => ?_, fun a ha => ?_⟩
    · exact hbound e c1 N i p a he1 (hkids c1 h1) (hsearch c1 hN1) (hun c1 h1 N hN1)
        (by rw [hargs]; exact hp) (by rw [hargs]; exact ha) (by rw [hargs]; exact hlast)
    · exact hbound e c2 N i p a he1 (hkids c2 h2) (hsearch c2 hN2) (hun c2 h2 N hN2)
        (by rw [hargs]; exact hp) (by rw [hargs]; exact ha) (by rw [hargs]; exact hlast)
  · intro p v m3 hadd
    obtain ⟨_, hm3⟩ := AddArgValue_ok_iff m2 _ p v m3 hadd
    subst hm3
    refine ⟨?_, ?_, ?_⟩
    · simp only [Memory.lookupOf, Memory.setTable, if_true]
      exact GoMap.get?_set_same _ _ _
    · simp only [Memory.lookupOf, Memory.setTable]
      rw [if_neg (Ne.symm hr12)]
    · simp only [Memory.lookupOf, Memory.setTable]
      rw [if_neg (Ne.symm hr1N)]

theorem callSites_allocated : callSites.Allocated := by
  intro a
  simp only [callSites, mkCall]
  split_ifs <;> decide

theorem callDict_wellFormed : WellFormed callDict callSites := by
  have key : ∀ k N, callDict.Search k = some N →
      (callSites.steps N.ConceptStep).Value = k ∧
      (callSites.steps N.ConceptStep).IsConcept = true := by
    intro k N hN
    simp only [ConceptDictionary.Search, callDict, GoMap.get?] at hN
    split_ifs at hN with h1 h2
    · have : N = Concept.mk 0 "greet.cpt" := (Option.some.inj hN).symm
      subst this; subst h1; exact ⟨rfl, rfl⟩
    · have : N = Concept.mk 3 "say.cpt" := (Option.some.inj hN).symm
      subst this; subst h2; exact ⟨rfl, rfl⟩
  exact ⟨callSites_allocated, fun k a h => (by cases h), fun k N h => (key k N h).1,
    fun k N h => (key k N h).2⟩

theorem callSites_resolved :
    ReplaceNestedConceptSteps callDict callSites 0 = .ok callSitesResolved := rfl

theorem callSitesResolved_bindable : ∀ d1 m1,
    ReplaceNestedConceptSteps callDict callSites 0 = .ok (d1, m1) →
    ∀ e ∈ d1.ConceptsMap, ∀ c ∈ (m1.steps e.2.ConceptStep).ConceptSteps, Bindable d1 m1 c := by
  intro d1 m1 h
  have hpair : (d1, m1) = callSitesResolved := by
    have h' := h.symm.trans callSites_resolved
    injection h'
  have hd : d1 = callSitesResolved.1 := congrArg Prod.fst hpair
  have hm : m1 = callSitesResolved.2 := congrArg Prod.snd hpair
  subst hd hm
  intro e he c hc
  have hcm : callSitesResolved.1.ConceptsMap
      = [("greet", Concept.mk 0 "greet.cpt"), ("say", Concept.mk 3 "say.cpt")] := rfl
  rw [hcm] at he
  simp only [List.mem_cons, List.mem_singleton, List.not_mem_nil, or_false] at he
  have hargs : (callSitesResolved.2.steps 3).Args = [⟨"dynamic", "word"⟩] := rfl
  rcases he with rfl | rfl
  · have hkids : (callSitesResolved.2.steps 0).ConceptSteps = [1, 2] := rfl
    have hc' : c = 1 ∨ c = 2 := by
      have hc2 : c ∈ (callSitesResolved.2.steps 0).ConceptSteps := hc
      rw [hkids] at hc2
      simpa using hc2
    rcases hc' with rfl | rfl
    · intro N hN
      have h3 : callSitesResolved.1.Search (callSitesResolved.2.steps 1).Value
          = some (Concept.mk 3 "say.cpt") := rfl
      rw [h3] at hN
      cases hN
      refine ⟨Nat.le_refl 1, fun p hp => ?_⟩
      have hp2 : p ∈ (callSitesResolved.2.steps 3).Args := hp
      rw [hargs] at hp2
      have hp' : p = ⟨"dynamic", "word"⟩ := by simpa using hp2
      subst hp'
      rfl
    · intro N hN
      have h3 : callSitesResolved.1.Search (callSitesResolved.2.steps 2).Value
          = some (Concept.mk 3 "say.cpt") := rfl
      rw [h3] at hN
      cases hN
      refine ⟨Nat.le_refl 1, fun p hp => ?_⟩
      have hp2 : p ∈ (callSitesResolved.2.steps 3).Args := hp
      rw [hargs] at hp2
      have hp' : p = ⟨"dynamic", "word"⟩ := by simpa using hp2
      subst hp'
      rfl
  · have hkids : (callSitesResolved.2.steps 3).ConceptSteps = [4] := rfl
    have hc' : c = 4 := by
      have hc2 : c ∈ (callSitesResolved.2.steps 3).ConceptSteps := hc
      rw [hkids] at hc2
      simpa using hc2
    subst hc'
    intro N hN
    have h3 : callSitesResolved.1.Search (callSitesResolved.2.steps 4).Value = none := rfl
    rw [h3] at hN
    cases hN

theorem lookup_isolation_witness :
    WellFormed callDict callSites ∧ (callSites.steps 0).IsConcept = true ∧
    0 ∉ (callSites.steps 0).ConceptSteps ∧
    (∃ e ∈ callDict.ConceptsMap, e.2.ConceptStep = 0) ∧
    1 ∈ (callSites.steps 0).ConceptSteps ∧ 2 ∈ (callSites.steps 0).ConceptSteps ∧
    callDict.Search (callSites.steps 1).Value = some (Concept.mk 3 "say.cpt") ∧
    callDict.Search (callSites.steps 2).Value = some (Concept.mk 3 "say.cpt") ∧
    ∃ d1 m1 m2, ReplaceNestedConceptSteps callDict callSites 0 = .ok (d1, m1) ∧
      UpdateLookupForNestedConcepts d1 m1 = .ok m2 ∧
      (∀ i p, (callSites.steps 3).Args.get? i = some p →
        (∀ j q, i < j → (callSites.steps 3).Args.get? j = some q → q.Value ≠ p.Value) →
        (∀ a, (callSites.steps 1).Args.get? i = some a →
          GoMap.get? (m2.lookupOf 1) p.Value
            = some (some { ArgType := a.ArgType, Value := a.Value })) ∧
        (∀ a, (callSites.steps 2).Args.get? i = some a →
          GoMap.get? (m2.lookupOf 2) p.Value
            = some (some { ArgType := a.ArgType, Value := a.Value }))) ∧
      (m2.steps 1).Lookup.ref ≠ (m2.steps 2).Lookup.ref ∧
      (m2.steps 1).Lookup.ref ≠ (m2.steps 3).Lookup.ref ∧
      ∀ p v m3, AddArgValue m2 (m2.steps 1).Lookup p v = .ok m3 →
        GoMap.get? (m3.lookupOf 1) p = some (some v) ∧
        m3.lookupOf 2 = m2.lookupOf 2 ∧
        m3.lookupOf 3 = m2.lookupOf 3 :=
  ⟨callDict_wellFormed, rfl, by decide, ⟨("greet", Concept.mk 0 "greet.cpt"), by decide, rfl⟩,
    by decide, by decide, rfl, rfl,
    lookup_isolation callDict callSites 0 1 2 (Concept.mk 3 "say.cpt") callDict_wellFormed rfl
      (by decide) ⟨("greet", Concept.mk 0 "greet.cpt"), by decide, rfl⟩ (by decide) (by decide)
      (by decide) rfl rfl (by decide) callSitesResolved_bindable⟩

/-! ## C13: resolution ends on cyclic concepts -/

theorem spliceAt_outcome (m : Memory) (cs : Addr) (i : Nat) (N : Concept) :
    (∃ m', spliceAt m cs i N = .ok m') ∨ spliceAt m cs i N = .error "index out of range" := by
  unfold spliceAt
  cases h1 : (m.steps cs).ConceptSteps.get? i with
  | none => exact Or.inr rfl
  | some a1 =>
    simp only [GetCopy]
    split
    · exact Or.inr rfl
    · split
      · exact Or.inr rfl
      · exact Or.inl ⟨_, rfl⟩

theorem replaceLoop_outcome (cs : Addr) (rest : List Addr) :
    ∀ (i : Nat) (d : ConceptDictionary) (m : Memory),
      (∃ d' m', replaceLoop cs i rest d m = .ok (d', m')) ∨
      replaceLoop cs i rest d m = .error "index out of range" := by
  induction rest with
  | nil => intro i d m; exact Or.inl ⟨d, m, rfl⟩
  | cons c rest ih =>
    intro i d m
    rw [replaceLoop]
    cases hsearch : d.Search (m.steps c).Value with
    | some N =>
      rcases spliceAt_outcome m cs i N with ⟨m', hm'⟩ | herr
      · simp only [hm']
        exact ih (i + 1) d m'
      · simp only []
        rw [herr]
        exact Or.inr rfl
    | none =>
      obtain ⟨d', m', hrun⟩ := updateStep_ok d m c
      simp only [hrun]
      exact ih (i + 1) d' m'

theorem bindArgs_outcome (c : Addr) (args : List StepArg) : ∀ (i : Nat) (m : Memory),
    (∃ m', bindArgs c i args m = .ok m') ∨
    bindArgs c i args m = .error "index out of range" ∨
    ∃ e, bindArgs c i args m = .error ("Unable to update concept lookup: " ++ e) := by
  induction args with
  | nil => intro i m; exact Or.inl ⟨m, rfl⟩
  | cons arg rest ih =>
    intro i m
    rw [bindArgs]
    cases hget : (m.steps c).Args.get? i with
    | none => exact Or.inr (Or.inl rfl)
    | some a =>
      simp only
      cases hadd : AddArgValue m (m.steps c).Lookup arg.Value
          { ArgType := a.ArgType, Value := a.Value } with
      | error e => exact Or.inr (Or.inr ⟨e, rfl⟩)
      | ok m' => exact ih (i + 1) m'

theorem bindSteps_outcome (d : ConceptDictionary) (cs : Addr) (L : List Addr) :
    ∀ m : Memory, (∃ m', bindSteps d cs L m = .ok m') ∨
      bindSteps d cs L m = .error "index out of range" ∨
      ∃ e, bindSteps d cs L m = .error ("Unable to update concept lookup: " ++ e) := by
  induction L with
  | nil => intro m; exact Or.inl ⟨m, rfl⟩
  | cons c rest ih =>
    intro m
    rw [bindSteps]
    have hstep : (∃ m', bindStep d cs c m = .ok m') ∨
        bindStep d cs c m = .error "index out of range" ∨
        ∃ e, bindStep d cs c m = .error ("Unable to update concept lookup: " ++ e) := by
      unfold bindStep
      simp only
      split
      · exact bindArgs_outcome c _ 0 _
      · exact Or.inl ⟨_, rfl⟩
    rcases hstep with ⟨m', hm'⟩ | herr | ⟨e, herr⟩
    · simp only [hm']; exact ih m'
    · rw [herr]; exact Or.inr (Or.inl rfl)
    · rw [herr]; exact Or.inr (Or.inr ⟨e, rfl⟩)

theorem bindConcepts_outcome (d : ConceptDictionary) (entries : List (String × Concept)) :
    ∀ m : Memory, (∃ m', bindConcepts d entries m = .ok m') ∨
      bindConcepts d entries m = .error "index out of range" ∨
      ∃ e, bindConcepts d entries m = .error ("Unable to update concept lookup: " ++ e) := by
  induction entries with
  | nil => intro m; exact Or.inl ⟨m, rfl⟩
  | cons entry rest ih =>
    intro m
    obtain ⟨k, concept⟩ := entry
    rw [bindConcepts]
    rcases bindSteps_outcome d concept.ConceptStep (m.steps concept.ConceptStep).ConceptSteps m
      with ⟨m', hm'⟩ | herr | ⟨e, herr⟩
    · simp only [hm']; exact ih m'
    · rw [herr]; exact Or.inr (Or.inl rfl)
    · rw [herr]; exact Or.inr (Or.inr ⟨e, rfl⟩)

/-- C13: for every state of the dictionary and of the steps, cyclic or not, both
functions end. `ReplaceNestedConceptSteps` runs its loop once per step of the slice that
`range` evaluated and returns, or stops in the index panic of Go; and
`UpdateLookupForNestedConcepts` runs once per registered concept, step and parameter and
returns, or stops in the index panic or in `logger.Fatalf`. Neither descends into the
expansion of a step. -/
theorem nested_resolution_terminates (d : ConceptDictionary) (m : Memory) (s : Addr) :
    ((∃ d' m', ReplaceNestedConceptSteps d m s = .ok (d', m')) ∨
      ReplaceNestedConceptSteps d m s = .error "index out of range") ∧
    ((∃ m', UpdateLookupForNestedConcepts d m = .ok m') ∨
      UpdateLookupForNestedConcepts d m = .error "index out of range" ∨
      ∃ e, UpdateLookupForNestedConcepts d m
        = .error ("Unable to update concept lookup: " ++ e)) := by
  refine ⟨?_, bindConcepts_outcome d d.ConceptsMap m⟩
  obtain ⟨d0, m0, hrun0⟩ := updateStep_ok d m s
  unfold ReplaceNestedConceptSteps
  simp only [hrun0]
  exact replaceLoop_outcome s _ 0 d0 m0

/-- A concept that names itself: both functions return, and the step that names the
concept carries an expansion that holds the step itself. -/
theorem selfCycle_resolves :
    ∃ d1 m1 m2, ReplaceNestedConceptSteps selfCycleDict selfCycle 0 = .ok (d1, m1) ∧
      UpdateLookupForNestedConcepts d1 m1 = .ok m2 ∧
      (m2.steps 1).IsConcept = true ∧ (m2.steps 1).ConceptSteps = [1] ∧
      (m2.steps 1).Parent = some 0 :=
  ⟨_, _, _, rfl, rfl, rfl, rfl, rfl⟩

/-- Two concepts that name each other: the resolution of both and the binding return,
and each step carries the expansion of the concept it names. -/
theorem mutualCycle_resolves :
    ∃ d1 m1 d2 m2 m3, ReplaceNestedConceptSteps mutualCycleDict mutualCycle 0 = .ok (d1, m1) ∧
      ReplaceNestedConceptSteps d1 m1 2 = .ok (d2, m2) ∧
      UpdateLookupForNestedConcepts d2 m2 = .ok m3 ∧
      (m3.steps 1).ConceptSteps = [3] ∧ (m3.steps 3).ConceptSteps = [1] ∧
      (m3.steps 1).IsConcept = true ∧ (m3.steps 3).IsConcept = true :=
  ⟨_, _, _, _, _, rfl, rfl, rfl, rfl, rfl, rfl, rfl⟩


/-! ## The diagnostics map -/

theorem listOf_set_same (dm : diagnosticsMap) (u : String) (l : List Diagnostic) :
    diagnosticsMap.listOf (GoMap.set dm u l) u = l := by
  simp [diagnosticsMap.listOf, GoMap.get?_set_same]

theorem listOf_set_other (dm : diagnosticsMap) (u u' : String) (l : List Diagnostic)
    (h : u' ≠ u) : diagnosticsMap.listOf (GoMap.set dm u l) u' = dm.listOf u' := by
  simp [diagnosticsMap.listOf, GoMap.get?_set_other _ _ _ _ h]

theorem containsLoop_iff (d : Diagnostic) (l : List Diagnostic) :
    containsLoop d l = true ↔ d ∈ l := by
  induction l with
  | nil => simp [containsLoop]
  | cons x t ih =>
    by_cases h : x = d
    · simp [containsLoop, h]
    · simp [containsLoop, h, ih, Ne.symm h]

theorem contains_iff (dm : diagnosticsMap) (u : String) (d : Diagnostic) :
    dm.contains u d = true ↔ d ∈ dm.listOf u := by
  simp [diagnosticsMap.contains, containsLoop_iff]

theorem add_of_mem (dm : diagnosticsMap) (u : String) (d : Diagnostic) (h : d ∈ dm.listOf u) :
    dm.add u d = dm := by
  simp [diagnosticsMap.add, (contains_iff dm u d).2 h]

theorem listOf_add_same (dm : diagnosticsMap) (u : String) (d : Diagnostic) :
    (dm.add u d).listOf u = if d ∈ dm.listOf u then dm.listOf u else dm.listOf u ++ [d] := by
  by_cases h : d ∈ dm.listOf u
  · simp [add_of_mem dm u d h, h]
  · have : dm.contains u d = false := by
      rw [← Bool.not_eq_true, contains_iff]; exact h
    simp [diagnosticsMap.add, this, h, listOf_set_same]

theorem listOf_add_other (dm : diagnosticsMap) (u u' : String) (d : Diagnostic) (h : u' ≠ u) :
    (dm.add u d).listOf u' = dm.listOf u' := by
  unfold diagnosticsMap.add
  split
  · exact listOf_set_other dm u u' _ h
  · rfl

theorem mem_listOf_add (dm : diagnosticsMap) (u : String) (d : Diagnostic) :
    d ∈ (dm.add u d).listOf u := by
  rw [listOf_add_same]; split <;> simp [*]

theorem mem_listOf_add_of_mem (dm : diagnosticsMap) (u u' : String) (d d' : Diagnostic)
    (h : d' ∈ dm.listOf u') : d' ∈ (dm.add u d).listOf u' := by
  by_cases hu : u' = u
  · subst hu; rw [listOf_add_same]; split <;> simp [*]
  · rw [listOf_add_other dm u u' d hu]; exact h

theorem nodup_listOf_add (dm : diagnosticsMap) (u u' : String) (d : Diagnostic)
    (h : (dm.listOf u').Nodup) : ((dm.add u d).listOf u').Nodup := by
  by_cases hu : u' = u
  · subst hu
    rw [listOf_add_same]
    split
    · exact h
    · rename_i hd
      exact List.Nodup.append h (by simp) (by simpa using hd)
  · rw [listOf_add_other dm u u' d hu]; exact h

theorem nodup_addAll (ops : List (String × Diagnostic)) : ∀ (dm : diagnosticsMap) (u : String),
    (dm.listOf u).Nodup → ((addAll ops dm).listOf u).Nodup := by
  induction ops with
  | nil => intro dm u h; exact h
  | cons op rest ih =>
    intro dm u h
    obtain ⟨uri, d⟩ := op
    exact ih _ u (nodup_listOf_add dm uri u d h)

/-! ## C6: duplicate suppression -/

/-- C6: in a map built from the empty map by any sequence of `add` calls no list holds a
diagnostic twice; adding a diagnostic twice to a document without diagnostics leaves the
one-element list; and adding a diagnostic that is already present leaves the whole map
as it is. -/
theorem add_suppresses_duplicates (ops : List (String × Diagnostic)) (dm : diagnosticsMap)
    (u : String) (d : Diagnostic) (hempty : dm.listOf u = []) :
    ((addAll ops []).listOf u).Nodup ∧
    ((dm.add u d).add u d).listOf u = [d] ∧
    ∀ dm' : diagnosticsMap, d ∈ dm'.listOf u → dm'.add u d = dm' := by
  refine ⟨nodup_addAll ops [] u (by simp [diagnosticsMap.listOf, GoMap.get?]), ?_,
    fun dm' h => add_of_mem dm' u d h⟩
  rw [add_of_mem _ u d (mem_listOf_add dm u d), listOf_add_same, hempty]
  simp

/-- Witness for `add_suppresses_duplicates`: the same diagnostic submitted twice for
"file:///a.spec", starting from the empty map. -/
theorem add_suppresses_duplicates_witness :
    diagnosticsMap.listOf [] "file:///a.spec" = [] ∧
    (((addAll [("file:///a.spec", sampleDiagnostic), ("file:///a.spec", sampleDiagnostic)]
        []).listOf "file:///a.spec").Nodup ∧
      ((diagnosticsMap.add [] "file:///a.spec" sampleDiagnostic).add "file:///a.spec"
        sampleDiagnostic).listOf "file:///a.spec" = [sampleDiagnostic] ∧
      ∀ dm' : diagnosticsMap, sampleDiagnostic ∈ dm'.listOf "file:///a.spec" →
        dm'.add "file:///a.spec" sampleDiagnostic = dm') :=
  ⟨rfl, add_suppresses_duplicates _ [] "file:///a.spec" sampleDiagnostic rfl⟩

theorem wrapInt_of_range (x : Int) (h1 : -(2 : Int) ^ 63 ≤ x) (h2 : x < (2 : Int) ^ 63) :
    wrapInt x = x := by
  unfold wrapInt
  norm_num at h1 h2 ⊢
  omega

theorem get?_add_of_ne (dm : diagnosticsMap) (u u' : String) (d : Diagnostic) (h : u' ≠ u) :
    GoMap.get? (dm.add u d) u' = GoMap.get? dm u' := by
  unfold diagnosticsMap.add
  split
  · exact GoMap.get?_set_other dm u u' _ h
  · rfl

theorem get?_add_isSome (dm : diagnosticsMap) (u u' : String) (d : Diagnostic)
    (h : (GoMap.get? dm u').isSome = true) : (GoMap.get? (dm.add u d) u').isSome = true := by
  by_cases hu : u' = u
  · subst hu
    unfold diagnosticsMap.add
    split
    · simp [GoMap.get?_set_same]
    · exact h
  · rw [get?_add_of_ne dm u u' d hu]; exact h

theorem mem_addAll_of_mem (ops : List (String × Diagnostic)) :
    ∀ (dm : diagnosticsMap) (u : String) (d : Diagnostic),
      d ∈ dm.listOf u → d ∈ (addAll ops dm).listOf u := by
  induction ops with
  | nil => intro dm u d h; exact h
  | cons op rest ih =>
    intro dm u d h
    exact ih _ u d (mem_listOf_add_of_mem dm _ u _ d h)

theorem mem_addAll (ops : List (String × Diagnostic)) :
    ∀ (dm : diagnosticsMap) (op : String × Diagnostic), op ∈ ops →
      op.2 ∈ (addAll ops dm).listOf op.1 := by
  induction ops with
  | nil => intro dm op h; simp at h
  | cons x rest ih =>
    intro dm op h
    rcases List.mem_cons.1 h with rfl | h'
    · exact mem_addAll_of_mem rest _ _ _ (mem_listOf_add dm _ _)
    · exact ih _ op h'

theorem get?_addAll_isSome (ops : List (String × Diagnostic)) :
    ∀ (dm : diagnosticsMap) (u : String), (GoMap.get? dm u).isSome = true →
      (GoMap.get? (addAll ops dm) u).isSome = true := by
  induction ops with
  | nil => intro dm u h; exact h
  | cons op rest ih =>
    intro dm u h
    exact ih _ u (get?_add_isSome dm _ u _ h)

theorem get?_addAll_of_ne (ops : List (String × Diagnostic)) :
    ∀ (dm : diagnosticsMap) (u : String), (∀ op ∈ ops, op.1 ≠ u) →
      GoMap.get? (addAll ops dm) u = GoMap.get? dm u := by
  induction ops with
  | nil => intro dm u _; rfl
  | cons op rest ih =>
    intro dm u h
    have h1 : u ≠ op.1 := fun e => h op (by simp) e.symm
    have := ih (dm.add op.1 op.2) u (fun o ho => h o (by simp [ho]))
    simp only [addAll]
    rw [this, get?_add_of_ne dm _ u _ h1]

section Pass

variable {Cpts Spec Dict : Type}

theorem addParseErrors_eq (env : Env Cpts Spec Dict) (l : List ParseError) :
    ∀ dm, addParseErrors env l dm = addAll (parseErrorOps env l) dm := by
  induction l with
  | nil => intro dm; rfl
  | cons e rest ih => intro dm; simp [addParseErrors, parseErrorOps, addAll, ih]

theorem addWarnings_eq (env : Env Cpts Spec Dict) (l : List Warning) :
    ∀ dm, addWarnings env l dm = addAll (warningOps env l) dm := by
  induction l with
  | nil => intro dm; rfl
  | cons e rest ih => intro dm; simp [addWarnings, warningOps, addAll, ih]

theorem createValidationDiagnostics_eq (env : Env Cpts Spec Dict)
    (l : List StepValidationError) :
    ∀ dm, createValidationDiagnostics env l dm = addAll (validationOps env l) dm := by
  induction l with
  | nil => intro dm; rfl
  | cons e rest ih => intro dm; simp [createValidationDiagnostics, validationOps, addAll, ih]

theorem addAll_append (ops1 ops2 : List (String × Diagnostic)) :
    ∀ dm, addAll (ops1 ++ ops2) dm = addAll ops2 (addAll ops1 dm) := by
  induction ops1 with
  | nil => intro dm; rfl
  | cons op rest ih => intro dm; simp [addAll, ih]

theorem createDiagnostics_eq (env : Env Cpts Spec Dict) (res : ParseResult)
    (dm : diagnosticsMap) :
    createDiagnostics env res dm =
      addAll (parseErrorOps env res.ParseErrors ++ warningOps env res.Warnings) dm := by
  rw [addAll_append, createDiagnostics, addParseErrors_eq, addWarnings_eq]

/-! ## C7: position and severity of parse diagnostics -/

/-- C7: for every parse error and every warning of a parse result, reported at a line `L`
that fits a Go `int`, `createDiagnostics` leaves in the list of the document of its file a
diagnostic that starts at (L - 1, 0), ends at (L - 1, E), where E is the length of that
line when the document is open and 10000 otherwise, carries the reported message, and has
severity 1 for an error and 2 for a warning. -/
theorem createDiagnostics_position (env : Env Cpts Spec Dict) (res : ParseResult)
    (dm : diagnosticsMap) :
    (∀ e ∈ res.ParseErrors, -(2 : Int) ^ 63 < e.LineNo → e.LineNo < (2 : Int) ^ 63 →
      ∃ diag ∈ (createDiagnostics env res dm).listOf (env.ConvertPathToURI e.FileName),
        diag.Range.Start = LspPosition.mk (e.LineNo - 1) 0 ∧
        diag.Range.End = LspPosition.mk (e.LineNo - 1)
          (endColumn env (env.ConvertPathToURI e.FileName) (e.LineNo - 1)) ∧
        diag.Message = e.Message ∧ diag.Severity = 1) ∧
    (∀ w ∈ res.Warnings, -(2 : Int) ^ 63 < w.LineNo → w.LineNo < (2 : Int) ^ 63 →
      ∃ diag ∈ (createDiagnostics env res dm).listOf (env.ConvertPathToURI w.FileName),
        diag.Range.Start = LspPosition.mk (w.LineNo - 1) 0 ∧
        diag.Range.End = LspPosition.mk (w.LineNo - 1)
          (endColumn env (env.ConvertPathToURI w.FileName) (w.LineNo - 1)) ∧
        diag.Message = w.Message ∧ diag.Severity = 2) := by
  rw [createDiagnostics_eq]
  constructor
  · intro e he h1 h2
    have hmem := mem_addAll (parseErrorOps env res.ParseErrors ++ warningOps env res.Warnings) dm
      (env.ConvertPathToURI e.FileName, createDiagnostic env (env.ConvertPathToURI e.FileName)
        e.Message (wrapInt (e.LineNo - 1)) 1)
      (List.mem_append_left _ (List.mem_map.2 ⟨e, he, rfl⟩))
    refine ⟨_, hmem, ?_⟩
    have hw : wrapInt (e.LineNo - 1) = e.LineNo - 1 :=
      wrapInt_of_range _ (by omega) (by omega)
    simp [createDiagnostic, endColumn, hw]
  · intro w hw' h1 h2
    have hmem := mem_addAll (parseErrorOps env res.ParseErrors ++ warningOps env res.Warnings) dm
      (env.ConvertPathToURI w.FileName, createDiagnostic env (env.ConvertPathToURI w.FileName)
        w.Message (wrapInt (w.LineNo - 1)) 2)
      (List.mem_append_right _ (List.mem_map.2 ⟨w, hw', rfl⟩))
    refine ⟨_, hmem, ?_⟩
    have hw : wrapInt (w.LineNo - 1) = w.LineNo - 1 :=
      wrapInt_of_range _ (by omega) (by omega)
    simp [createDiagnostic, endColumn, hw]

/-- Witness for `createDiagnostics_position`: the error at line 4 of the open document
and the warning at line 7 of a document that is not open. -/
theorem createDiagnostics_position_witness :
    (∃ diag ∈ (createDiagnostics sampleEnv sampleResult []).listOf "file:///open.spec",
      diag.Range.Start = LspPosition.mk 3 0 ∧ diag.Range.End = LspPosition.mk 3 11 ∧
      diag.Message = "Step is not defined" ∧ diag.Severity = 1) ∧
    (∃ diag ∈ (createDiagnostics sampleEnv sampleResult []).listOf "file:///a.spec",
      diag.Range.Start = LspPosition.mk 6 0 ∧ diag.Range.End = LspPosition.mk 6 10000 ∧
      diag.Message = "Scenario has no steps" ∧ diag.Severity = 2) :=
  ⟨(createDiagnostics_position sampleEnv sampleResult []).1
      { FileName := "/open.spec", LineNo := 4, Message := "Step is not defined" }
      (by simp [sampleResult]) (by decide) (by decide),
   (createDiagnostics_position sampleEnv sampleResult []).2
      { FileName := "/a.spec", LineNo := 7, Message := "Scenario has no steps" }
      (by simp [sampleResult]) (by decide) (by decide)⟩

/-! ## C8: the suggestion of a validation diagnostic -/

/-- C8, as stated, fails: for an error of another type whose suggestion is empty, the one
diagnostic added has a `Code` equal to the suggestion although the error type is not
`STEP_IMPLEMENTATION_NOT_FOUND`. -/
theorem createValidationDiagnostics_iff_counterexample :
    duplicateError.errorType ≠ sampleEnv.STEP_IMPLEMENTATION_NOT_FOUND ∧
    ∃ diag, (createValidationDiagnostics sampleEnv [duplicateError] []).listOf
        (sampleEnv.ConvertPathToURI duplicateError.fileName) = [diag] ∧
      diag.Code = duplicateError.suggestion ∧
      ¬ (diag.Code = duplicateError.suggestion ↔
          duplicateError.errorType = sampleEnv.STEP_IMPLEMENTATION_NOT_FOUND) := by
  refine ⟨by decide, _, rfl, rfl, ?_⟩
  intro h
  exact absurd (h.1 rfl) (by decide)

/-- C8 (amended): for every step validation error `e` whose line fits a Go `int`,
`createValidationDiagnostics` leaves in the list of the document of `e` a diagnostic of
severity 1 at line `e.Step().LineNo - 1` with the message of `e`, whose `Code` is the
suggestion of `e` when the error type is `STEP_IMPLEMENTATION_NOT_FOUND` and is empty for
every other error type. -/
theorem createValidationDiagnostics_payload (env : Env Cpts Spec Dict)
    (errors : List StepValidationError) (dm : diagnosticsMap) (e : StepValidationError)
    (he : e ∈ errors) (h1 : -(2 : Int) ^ 63 < e.stepLineNo) (h2 : e.stepLineNo < (2 : Int) ^ 63) :
    ∃ diag ∈ (createValidationDiagnostics env errors dm).listOf
        (env.ConvertPathToURI e.fileName),
      diag.Severity = 1 ∧ diag.Message = e.message ∧
      diag.Range.Start = LspPosition.mk (e.stepLineNo - 1) 0 ∧
      diag.Range.End.Line = e.stepLineNo - 1 ∧
      (e.errorType = env.STEP_IMPLEMENTATION_NOT_FOUND → diag.Code = e.suggestion) ∧
      (e.errorType ≠ env.STEP_IMPLEMENTATION_NOT_FOUND → diag.Code = "") := by
  rw [createValidationDiagnostics_eq]
  have hmem := mem_addAll (validationOps env errors) dm
    (env.ConvertPathToURI e.fileName, validationDiagnostic env e) (List.mem_map.2 ⟨e, he, rfl⟩)
  refine ⟨_, hmem, ?_⟩
  have hw : wrapInt (e.stepLineNo - 1) = e.stepLineNo - 1 :=
    wrapInt_of_range _ (by omega) (by omega)
  by_cases ht : e.errorType = env.STEP_IMPLEMENTATION_NOT_FOUND <;>
    simp [validationDiagnostic, createDiagnostic, hw, ht]

/-- Witness for `createValidationDiagnostics_payload`: an error for a missing
implementation at line 4. -/
theorem createValidationDiagnostics_payload_witness :
    ∃ diag ∈ (createValidationDiagnostics sampleEnv [notFoundError, duplicateError] []).listOf
        (sampleEnv.ConvertPathToURI notFoundError.fileName),
      diag.Severity = 1 ∧ diag.Message = notFoundError.message ∧
      diag.Range.Start = LspPosition.mk (notFoundError.stepLineNo - 1) 0 ∧
      diag.Range.End.Line = notFoundError.stepLineNo - 1 ∧
      (notFoundError.errorType = sampleEnv.STEP_IMPLEMENTATION_NOT_FOUND →
        diag.Code = notFoundError.suggestion) ∧
      (notFoundError.errorType ≠ sampleEnv.STEP_IMPLEMENTATION_NOT_FOUND → diag.Code = "") :=
  createValidationDiagnostics_payload sampleEnv [notFoundError, duplicateError] []
    notFoundError (by simp) (by decide) (by decide)

theorem settled_set (all : List (String × Diagnostic)) (u : String) (dm : diagnosticsMap) :
    Settled all u (GoMap.set dm u []) :=
  ⟨[], GoMap.get?_set_same dm u [], fun _ => rfl⟩

theorem settled_set_of_settled (all : List (String × Diagnostic)) (u u' : String)
    (dm : diagnosticsMap) (h : Settled all u dm) : Settled all u (GoMap.set dm u' []) := by
  by_cases hu : u = u'
  · subst hu; exact settled_set all u dm
  · obtain ⟨l, hl, hs⟩ := h
    exact ⟨l, by rw [GoMap.get?_set_other dm u' u [] hu]; exact hl, hs⟩

theorem settled_addAll (all : List (String × Diagnostic)) (u : String) (dm : diagnosticsMap)
    (ops : List (String × Diagnostic)) (h : Settled all u dm)
    (hops : ∀ op ∈ ops, op ∈ all) : Settled all u (addAll ops dm) := by
  obtain ⟨l, hl, hs⟩ := h
  have hsome : (GoMap.get? (addAll ops dm) u).isSome = true :=
    get?_addAll_isSome ops dm u (by simp [hl])
  obtain ⟨l', hl'⟩ := Option.isSome_iff_exists.1 hsome
  refine ⟨l', hl', fun hquiet => ?_⟩
  have := get?_addAll_of_ne ops dm u (fun op hop => hquiet op (hops op hop))
  rw [hl', hl] at this
  rw [Option.some.inj this]
  exact hs hquiet

theorem resultOps_eq (env : Env Cpts Spec Dict) (res : ParseResult) (dm : diagnosticsMap) :
    createDiagnostics env res dm = addAll (resultOps env res) dm :=
  createDiagnostics_eq env res dm

theorem hasURI_eq_false (dm : diagnosticsMap) (u : String) : dm.hasURI u = false := by
  unfold diagnosticsMap.hasURI; split <;> rfl

/-- The loop of `validateConcepts` on a run whose calls succeed: it returns, it leaves
the dictionary of the trace, every document that had an entry keeps one, and every
enumerated file has one. -/
theorem validateConceptsLoop_settled (env : Env Cpts Spec Dict)
    (all : List (String × Diagnostic)) (files : List String) :
    ∀ (dict : Dict) (dm : diagnosticsMap) (dict' : Dict) (ops : List (String × Diagnostic)),
      conceptsTrace env files dict = some (dict', ops) → (∀ op ∈ ops, op ∈ all) →
      ∃ dm', validateConceptsLoop env files dict dm = .ok (dict', dm') ∧
        (∀ u, Settled all u dm → Settled all u dm') ∧
        (∀ f ∈ files, Settled all (env.ConvertPathToURI f) dm') := by
  induction files with
  | nil =>
    intro dict dm dict' ops h _
    simp only [conceptsTrace, Option.some.injEq, Prod.mk.injEq] at h
    obtain ⟨hd, _⟩ := h
    subst hd
    exact ⟨dm, rfl, fun _ h => h, by simp⟩
  | cons f rest ih =>
    intro dict dm dict' ops h hall
    rw [conceptsTrace] at h
    cases hc : getContentFromFileOrDisk env f with
    | error e => rw [hc] at h; cases h
    | ok c =>
      rw [hc] at h
      simp only at h
      cases ha : (env.AddConcept (env.ConceptParse c f).1 f dict).2.1 with
      | some e => rw [ha] at h; cases h
      | none =>
        rw [ha] at h
        simp only at h
        cases hr : conceptsTrace env rest (env.AddConcept (env.ConceptParse c f).1 f dict).2.2 with
        | none => rw [hr] at h; cases h
        | some r =>
          obtain ⟨dict1, ops1⟩ := r
          rw [hr] at h
          simp only [Option.some.injEq, Prod.mk.injEq] at h
          obtain ⟨hd, hops⟩ := h
          subst hd
          have hsub1 : ∀ op ∈ ops1, op ∈ all := fun op hop =>
            hall op (by rw [← hops]; exact List.mem_append_right _ hop)
          have hsub0 : ∀ op ∈ resultOps env
              { (env.ConceptParse c f).2 with
                ParseErrors := (env.ConceptParse c f).2.ParseErrors ++
                  (env.AddConcept (env.ConceptParse c f).1 f dict).1 }, op ∈ all :=
            fun op hop => hall op (by rw [← hops]; exact List.mem_append_left _ hop)
          have hstep : ∀ u, Settled all u (GoMap.set dm (env.ConvertPathToURI f) []) →
              Settled all u (createDiagnostics env
                { (env.ConceptParse c f).2 with
                  ParseErrors := (env.ConceptParse c f).2.ParseErrors ++
                    (env.AddConcept (env.ConceptParse c f).1 f dict).1 }
                (GoMap.set dm (env.ConvertPathToURI f) [])) := by
            intro u hu
            rw [resultOps_eq]
            exact settled_addAll all u _ _ hu hsub0
          obtain ⟨dm', hrun, hkeep, hfiles⟩ :=
            ih (env.AddConcept (env.ConceptParse c f).1 f dict).2.2
              (createDiagnostics env
                { (env.ConceptParse c f).2 with
                  ParseErrors := (env.ConceptParse c f).2.ParseErrors ++
                    (env.AddConcept (env.ConceptParse c f).1 f dict).1 }
                (GoMap.set dm (env.ConvertPathToURI f) [])) dict1 ops1 hr hsub1
          refine ⟨dm', ?_, ?_, ?_⟩
          · rw [validateConceptsLoop]
            simp only [hasURI_eq_false, hc, ha]
            simpa using hrun
          · intro u hu
            exact hkeep u (hstep u (settled_set_of_settled all u _ dm hu))
          · intro g hg
            rcases List.mem_cons.1 hg with rfl | hg'
            · exact hkeep _ (hstep _ (settled_set all _ dm))
            · exact hfiles g hg'

/-- The loop of `validateSpecs` on a run whose calls succeed: it returns, every document
that had an entry keeps one, and every enumerated file has one. -/
theorem validateSpecsLoop_settled (env : Env Cpts Spec Dict)
    (all : List (String × Diagnostic)) (files : List String) :
    ∀ (dict : Dict) (dm : diagnosticsMap) (ops : List (String × Diagnostic)),
      specsTrace env files dict = some ops → (∀ op ∈ ops, op ∈ all) →
      ∃ dm', validateSpecsLoop env files dict dm = .ok dm' ∧
        (∀ u, Settled all u dm → Settled all u dm') ∧
        (∀ f ∈ files, Settled all (env.ConvertPathToURI f) dm') := by
  induction files with
  | nil =>
    intro dict dm ops _ _
    exact ⟨dm, rfl, fun _ h => h, by simp⟩
  | cons f rest ih =>
    intro dict dm ops h hall
    rw [specsTrace] at h
    cases hc : getContentFromFileOrDisk env f with
    | error e => rw [hc] at h; cases h
    | ok c =>
      rw [hc] at h
      simp only at h
      cases ha : (env.SpecParse c dict f).2.2.1 with
      | some e => rw [ha] at h; cases h
      | none =>
        rw [ha] at h
        simp only at h
        cases hr : specsTrace env rest (env.SpecParse c dict f).2.2.2 with
        | none => rw [hr] at h; cases h
        | some ops1 =>
          rw [hr] at h
          simp only [Option.some.injEq] at h
          have hsub1 : ∀ op ∈ ops1, op ∈ all := fun op hop =>
            hall op (by rw [← h]; exact List.mem_append_right _ hop)
          have hsub0 : ∀ op ∈ resultOps env (env.SpecParse c dict f).2.1, op ∈ all :=
            fun op hop => hall op (by
              rw [← h]
              exact List.mem_append_left _ (List.mem_append_left _ hop))
          have hsubv : (env.SpecParse c dict f).2.1.Ok = true →
              ∀ op ∈ validationOps env
                (validateSpec env (env.SpecParse c dict f).1 (env.SpecParse c dict f).2.2.2),
                op ∈ all := by
            intro hok op hop
            apply hall op
            rw [← h, if_pos hok]
            exact List.mem_append_left _ (List.mem_append_right _ hop)
          have hstep : ∀ u, Settled all u (GoMap.set dm (env.ConvertPathToURI f) []) →
              Settled all u
                (if (env.SpecParse c dict f).2.1.Ok = true then
                  createValidationDiagnostics env
                    (validateSpec env (env.SpecParse c dict f).1
                      (env.SpecParse c dict f).2.2.2)
                    (createDiagnostics env (env.SpecParse c dict f).2.1
                      (GoMap.set dm (env.ConvertPathToURI f) []))
                else createDiagnostics env (env.SpecParse c dict f).2.1
                      (GoMap.set dm (env.ConvertPathToURI f) [])) := by
            intro u hu
            have h1 : Settled all u (createDiagnostics env (env.SpecParse c dict f).2.1
                (GoMap.set dm (env.ConvertPathToURI f) [])) := by
              rw [resultOps_eq]
              exact settled_addAll all u _ _ hu hsub0
            split
            · rename_i hok
              rw [createValidationDiagnostics_eq]
              exact settled_addAll all u _ _ h1 (hsubv hok)
            · exact h1
          obtain ⟨dm', hrun, hkeep, hfiles⟩ :=
            ih (env.SpecParse c dict f).2.2.2 _ ops1 hr hsub1
          refine ⟨dm', ?_, ?_, ?_⟩
          · rw [validateSpecsLoop]
            simp only [hasURI_eq_false, hc, ha]
            simpa using hrun
          · intro u hu
            exact hkeep u (hstep u (settled_set_of_settled all u _ dm hu))
          · intro g hg
            rcases List.mem_cons.1 hg with rfl | hg'
            · exact hkeep _ (hstep _ (settled_set all _ dm))
            · exact hfiles g hg'

/-- A loop of `validateConcepts` that returns has made calls that all succeeded. -/
theorem conceptsTrace_of_ok (env : Env Cpts Spec Dict) (files : List String) :
    ∀ (dict : Dict) (dm : diagnosticsMap) (dict' : Dict) (dm' : diagnosticsMap),
      validateConceptsLoop env files dict dm = .ok (dict', dm') →
      ∃ ops, conceptsTrace env files dict = some (dict', ops) := by
  induction files with
  | nil =>
    intro dict dm dict' dm' h
    simp only [validateConceptsLoop, Except.ok.injEq, Prod.mk.injEq] at h
    exact ⟨[], by rw [conceptsTrace, h.1]⟩
  | cons f rest ih =>
    intro dict dm dict' dm' h
    rw [validateConceptsLoop] at h
    rw [conceptsTrace]
    cases hc : getContentFromFileOrDisk env f with
    | error e => rw [hc] at h; cases h
    | ok c =>
      rw [hc] at h
      simp only at h ⊢
      cases ha : (env.AddConcept (env.ConceptParse c f).1 f dict).2.1 with
      | some e => rw [ha] at h; cases h
      | none =>
        rw [ha] at h
        simp only at h ⊢
        obtain ⟨ops, hops⟩ := ih _ _ dict' dm' h
        rw [hops]
        exact ⟨_, rfl⟩

/-- A loop of `validateSpecs` that returns has made calls that all succeeded. -/
theorem specsTrace_of_ok (env : Env Cpts Spec Dict) (files : List String) :
    ∀ (dict : Dict) (dm dm' : diagnosticsMap),
      validateSpecsLoop env files dict dm = .ok dm' →
      ∃ ops, specsTrace env files dict = some ops := by
  induction files with
  | nil => intro dict dm dm' _; exact ⟨[], rfl⟩
  | cons f rest ih =>
    intro dict dm dm' h
    rw [validateSpecsLoop] at h
    rw [specsTrace]
    cases hc : getContentFromFileOrDisk env f with
    | error e => rw [hc] at h; cases h
    | ok c =>
      rw [hc] at h
      simp only at h ⊢
      cases ha : (env.SpecParse c dict f).2.2.1 with
      | some e => rw [ha] at h; cases h
      | none =>
        rw [ha] at h
        simp only at h ⊢
        obtain ⟨ops, hops⟩ := ih _ _ dm' h
        rw [hops]
        exact ⟨_, rfl⟩

/-- A pass that returns a map has made reads and parse calls that all succeeded. -/
theorem passTrace_of_ok (env : Env Cpts Spec Dict) (dm : diagnosticsMap)
    (h : getDiagnostics env = .ok dm) : ∃ ops, passTrace env = some ops := by
  unfold getDiagnostics validateConcepts at h
  cases h1 : validateConceptsLoop env env.GetConceptFiles env.NewConceptDictionary [] with
  | error e => rw [h1] at h; cases h
  | ok r =>
    obtain ⟨dict1, dm1⟩ := r
    rw [h1] at h
    simp only at h
    obtain ⟨ops1, hops1⟩ := conceptsTrace_of_ok env _ _ _ dict1 dm1 h1
    cases h2 : validateSpecs env (env.ValidateConcepts dict1).2
        (createDiagnostics env (env.ValidateConcepts dict1).1 dm1) with
    | error e => rw [h2] at h; cases h
    | ok dm2 =>
      obtain ⟨ops2, hops2⟩ := specsTrace_of_ok env _ _ _ dm2 h2
      unfold passTrace
      rw [hops1]
      simp only
      rw [hops2]
      exact ⟨_, rfl⟩

/-! ## C9: every enumerated document has an entry -/

/-- C9: when every read and every parse call of the pass succeeds (the files are read, and
neither `AddConcept` nor the specification parser returns an error on the calls that the
pass makes), `getDiagnostics` returns a map that has an entry for the URI of every
enumerated concept file and every enumerated specification file, and the entry is the
empty list for a file for which the pass produces no error and no warning. -/
theorem getDiagnostics_keys (env : Env Cpts Spec Dict) (produced : List (String × Diagnostic))
    (hpass : passTrace env = some produced) :
    ∃ dm, getDiagnostics env = .ok dm ∧
      ∀ f ∈ env.GetConceptFiles ++ env.GetSpecFiles,
        ∃ l, GoMap.get? dm (env.ConvertPathToURI f) = some l ∧
          ((∀ op ∈ produced, op.1 ≠ env.ConvertPathToURI f) → l = []) := by
  unfold passTrace at hpass
  cases h1 : conceptsTrace env env.GetConceptFiles env.NewConceptDictionary with
  | none => rw [h1] at hpass; cases hpass
  | some r =>
    obtain ⟨dict1, ops1⟩ := r
    rw [h1] at hpass
    simp only at hpass
    cases h2 : specsTrace env env.GetSpecFiles (env.ValidateConcepts dict1).2 with
    | none => rw [h2] at hpass; cases hpass
    | some ops2 =>
      rw [h2] at hpass
      simp only [Option.some.injEq] at hpass
      obtain ⟨dm1, hrun1, _, hall1⟩ :=
        validateConceptsLoop_settled env produced env.GetConceptFiles
          env.NewConceptDictionary [] dict1 ops1 h1
          (fun op hop => by
            rw [← hpass]
            exact List.mem_append_left _ (List.mem_append_left _ hop))
      have hval : ∀ u, Settled produced u dm1 →
          Settled produced u (createDiagnostics env (env.ValidateConcepts dict1).1 dm1) := by
        intro u hu
        rw [resultOps_eq]
        exact settled_addAll produced u _ _ hu (fun op hop => by
          rw [← hpass]
          exact List.mem_append_left _ (List.mem_append_right _ hop))
      obtain ⟨dm2, hrun2, hkeep2, hall2⟩ :=
        validateSpecsLoop_settled env produced env.GetSpecFiles (env.ValidateConcepts dict1).2
          (createDiagnostics env (env.ValidateConcepts dict1).1 dm1) ops2 h2
          (fun op hop => by
            rw [← hpass]
            exact List.mem_append_right _ hop)
      refine ⟨dm2, ?_, ?_⟩
      · simp [getDiagnostics, validateConcepts, validateSpecs, hrun1, hrun2]
      · intro f hf
        rcases List.mem_append.1 hf with h | h
        · exact hkeep2 _ (hval _ (hall1 f h))
        · exact hall2 f h

theorem validateConceptsLoop_aborts (env : Env Cpts Spec Dict) (f : String)
    (hfail : ∃ e, getContentFromFileOrDisk env f = .error e) (files : List String) :
    ∀ (dict : Dict) (dm : diagnosticsMap), f ∈ files →
      ∃ e, validateConceptsLoop env files dict dm = .error e := by
  induction files with
  | nil => intro _ _ h; simp at h
  | cons g rest ih =>
    intro dict dm hf
    rw [validateConceptsLoop]
    cases hg : getContentFromFileOrDisk env g with
    | error e => exact ⟨_, rfl⟩
    | ok c =>
      have hne : f ≠ g := by
        rintro rfl
        obtain ⟨e, he⟩ := hfail
        rw [he] at hg
        cases hg
      have hrest : f ∈ rest := by
        rcases List.mem_cons.1 hf with h | h
        · exact absurd h hne
        · exact h
      simp only
      cases ha : (env.AddConcept (env.ConceptParse c g).1 g dict).2.1 with
      | some err => exact ⟨_, rfl⟩
      | none => exact ih _ _ hrest

theorem validateSpecsLoop_aborts (env : Env Cpts Spec Dict) (f : String)
    (hfail : ∃ e, getContentFromFileOrDisk env f = .error e) (files : List String) :
    ∀ (dict : Dict) (dm : diagnosticsMap), f ∈ files →
      ∃ e, validateSpecsLoop env files dict dm = .error e := by
  induction files with
  | nil => intro _ _ h; simp at h
  | cons g rest ih =>
    intro dict dm hf
    rw [validateSpecsLoop]
    cases hg : getContentFromFileOrDisk env g with
    | error e => exact ⟨_, rfl⟩
    | ok c =>
      have hne : f ≠ g := by
        rintro rfl
        obtain ⟨e, he⟩ := hfail
        rw [he] at hg
        cases hg
      have hrest : f ∈ rest := by
        rcases List.mem_cons.1 hf with h | h
        · exact absurd h hne
        · exact h
      simp only
      cases ha : (env.SpecParse c dict g).2.2.1 with
      | some err => exact ⟨_, rfl⟩
      | none => exact ih _ _ hrest

/-- Witness for `getDiagnostics_keys`: in the workspace of `warnedEnv` the pass produces
one warning, for the second specification file; its parser would fail on a content that
the pass never reads. -/
theorem getDiagnostics_keys_witness :
    passTrace warnedEnv = some [("file:///b.spec", warnedDiagnostic)] ∧
    ∃ dm, getDiagnostics warnedEnv = .ok dm ∧
      ∀ f ∈ warnedEnv.GetConceptFiles ++ warnedEnv.GetSpecFiles,
        ∃ l, GoMap.get? dm (warnedEnv.ConvertPathToURI f) = some l ∧
          ((∀ op ∈ [("file:///b.spec", warnedDiagnostic)],
            op.1 ≠ warnedEnv.ConvertPathToURI f) → l = []) :=
  ⟨rfl, getDiagnostics_keys warnedEnv [("file:///b.spec", warnedDiagnostic)] rfl⟩

/-! ## C10: an unreadable file aborts the pass -/

/-- C10: when the content of one enumerated concept or specification file cannot be
read, `getDiagnostics` returns an error and no map, and `publishDiagnostics` sends no
notification, whatever the flag `isInQueue` it finds. -/
theorem getDiagnostics_aborts (env : Env Cpts Spec Dict) (f : String)
    (hf : f ∈ env.GetConceptFiles ++ env.GetSpecFiles)
    (hfail : ∃ e, getContentFromFileOrDisk env f = .error e) :
    (∃ e, getDiagnostics env = .error e) ∧
    ∀ isInQueue, (publishDiagnostics env isInQueue).2 = [] := by
  have hget : ∃ e, getDiagnostics env = .error e := by
    unfold getDiagnostics
    cases hc : validateConcepts env [] with
    | error e => exact ⟨e, rfl⟩
    | ok r =>
      obtain ⟨dict, dm⟩ := r
      have hspec : f ∈ env.GetSpecFiles := by
        rcases List.mem_append.1 hf with h | h
        · obtain ⟨e, he⟩ := validateConceptsLoop_aborts env f hfail env.GetConceptFiles
            env.NewConceptDictionary [] h
          simp [validateConcepts, he] at hc
        · exact h
      obtain ⟨e, he⟩ := validateSpecsLoop_aborts env f hfail env.GetSpecFiles dict dm hspec
      exact ⟨e, by simp [validateSpecs, he]⟩
  refine ⟨hget, fun q => ?_⟩
  obtain ⟨e, he⟩ := hget
  cases q <;> simp [publishDiagnostics, he]

/-- Witness for `getDiagnostics_aborts`: the second concept file cannot be read. -/
theorem getDiagnostics_aborts_witness :
    (∃ e, getContentFromFileOrDisk brokenEnv "/missing.cpt" = .error e) ∧
    (∃ e, getDiagnostics brokenEnv = .error e) ∧
    ∀ isInQueue, (publishDiagnostics brokenEnv isInQueue).2 = [] :=
  ⟨⟨"no such file", rfl⟩,
   getDiagnostics_aborts brokenEnv "/missing.cpt" (by simp [brokenEnv])
     ⟨"no such file", rfl⟩⟩

end Pass

/-! ## C11: the calls of `publishDiagnostics` in parallel -/

/-- C11 at a concrete interleaving. The call 0 runs up to its pass. While it executes
the pass the calls 1 and 2 both test `isInQueue` before either of them sets it, so both
set it and both wait for `diagnosticsLock`: two calls wait at once. When the pass of the
call 0 is over, the calls 1 and 2 execute a pass each: three passes for a burst of two
calls. -/
theorem publishDiagnostics_two_waiters :
    ∃ σ1 σ2, Calls.idle.run [0, 0, 0, 0, 1, 2, 1, 2] = some σ1 ∧
      σ1.pc 0 = .pass ∧ σ1.diagnosticsLock = true ∧
      σ1.pc 1 = .lock ∧ σ1.pc 2 = .lock ∧ σ1.passes = 0 ∧
      σ1.run [0, 0, 1, 1, 1, 1, 2, 2, 2, 2] = some σ2 ∧
      σ2.pc 0 = .done ∧ σ2.pc 1 = .done ∧ σ2.pc 2 = .done ∧ σ2.passes = 3 :=
  ⟨_, _, rfl, rfl, rfl, rfl, rfl, rfl, rfl, rfl, rfl, rfl, rfl⟩

theorem exclusive_step (σ σ' : Calls) (g : Nat) (h : σ.step g = some σ')
    (hex : σ.Exclusive) : σ'.Exclusive := by
  obtain ⟨huniq, hheld⟩ := hex
  unfold Calls.step at h
  have key : ∀ (τ : Calls) (p : Pc), τ.pc = σ.pc →
      ((σ.pc g).holdsLock = false → p.holdsLock = true →
        (∀ i, (σ.pc i).holdsLock = false) ∧ τ.diagnosticsLock = true) →
      ((σ.pc g).holdsLock = true → p.holdsLock = true → τ.diagnosticsLock = true) →
      (∀ i, i ≠ g → (σ.pc i).holdsLock = true → τ.diagnosticsLock = true) →
      (τ.goto g p).Exclusive := by
    intro τ p hpc hnew hkeep hrest
    have hpcg : ∀ x, (τ.goto g p).pc x = if x = g then p else σ.pc x := by
      intro x; simp only [Calls.goto, hpc]
    have hlock : (τ.goto g p).diagnosticsLock = τ.diagnosticsLock := rfl
    refine ⟨fun i j hi hj => ?_, fun i hi => ?_⟩
    · rw [hpcg] at hi hj
      by_cases hig : i = g <;> by_cases hjg : j = g
      · rw [hig, hjg]
      · rw [if_pos hig] at hi
        rw [if_neg hjg] at hj
        cases hg : (σ.pc g).holdsLock with
        | true => rw [hig]; exact huniq g j hg hj
        | false =>
          have := (hnew hg hi).1 j
          rw [this] at hj
          cases hj
      · rw [if_neg hig] at hi
        rw [if_pos hjg] at hj
        cases hg : (σ.pc g).holdsLock with
        | true => rw [hjg]; exact huniq i g hi hg
        | false =>
          have := (hnew hg hj).1 i
          rw [this] at hi
          cases hi
      · rw [if_neg hig] at hi
        rw [if_neg hjg] at hj
        exact huniq i j hi hj
    · rw [hpcg] at hi
      rw [hlock]
      by_cases hig : i = g
      · rw [if_pos hig] at hi
        cases hg : (σ.pc g).holdsLock with
        | true => exact hkeep hg hi
        | false => exact (hnew hg hi).2
      · rw [if_neg hig] at hi
        exact hrest i hig hi
  cases hp : σ.pc g with
  | test =>
    rw [hp] at h
    simp only at h
    split at h <;> (injection h with h; subst h)
    · exact key σ .enqueue rfl (fun _ hq => by cases hq) (fun _ hq => by cases hq)
        (fun i _ hi => hheld i hi)
    · exact key σ .done rfl (fun _ hq => by cases hq) (fun _ hq => by cases hq)
        (fun i _ hi => hheld i hi)
  | enqueue =>
    rw [hp] at h
    injection h with h; subst h
    exact key _ .lock rfl (fun _ hq => by cases hq) (fun _ hq => by cases hq)
      (fun i _ hi => hheld i hi)
  | lock =>
    rw [hp] at h
    simp only at h
    split at h
    · cases h
    · rename_i hfree
      injection h with h; subst h
      have hnone : ∀ i, (σ.pc i).holdsLock = false := by
        intro i
        cases hi : (σ.pc i).holdsLock with
        | false => rfl
        | true => exact absurd (hheld i hi) hfree
      exact key _ .dequeue rfl (fun _ _ => ⟨hnone, rfl⟩) (fun _ _ => rfl) (fun _ _ _ => rfl)
  | dequeue =>
    rw [hp] at h
    injection h with h; subst h
    have hg : (σ.pc g).holdsLock = true := by rw [hp]; rfl
    exact key _ .pass rfl (fun hq _ => by rw [hg] at hq; cases hq) (fun _ _ => hheld g hg)
      (fun i _ hi => hheld i hi)
  | pass =>
    rw [hp] at h
    injection h with h; subst h
    have hg : (σ.pc g).holdsLock = true := by rw [hp]; rfl
    exact key _ .unlock rfl (fun hq _ => by rw [hg] at hq; cases hq) (fun _ _ => hheld g hg)
      (fun i _ hi => hheld i hi)
  | unlock =>
    rw [hp] at h
    injection h with h; subst h
    have hg : (σ.pc g).holdsLock = true := by rw [hp]; rfl
    exact key _ .done rfl (fun _ hq => by cases hq) (fun _ hq => by cases hq)
      (fun i hig hi => absurd (huniq i g hi hg) hig)
  | done =>
    rw [hp] at h
    cases h

theorem exclusive_run (schedule : List Nat) :
    ∀ σ σ' : Calls, σ.Exclusive → σ.run schedule = some σ' → σ'.Exclusive := by
  induction schedule with
  | nil =>
    intro σ σ' hex h
    injection h with h
    subst h
    exact hex
  | cons g rest ih =>
    intro σ σ' hex h
    rw [Calls.run] at h
    cases hs : σ.step g with
    | none => rw [hs] at h; cases h
    | some τ =>
      rw [hs] at h
      exact ih τ σ' (exclusive_step σ τ g hs hex) h

/-- What the mutex gives: in every interleaving of any number of calls that starts with
no call under way, at most one call holds `diagnosticsLock`, so at most one pass executes
at any instant. -/
theorem one_pass_at_a_time (schedule : List Nat) (σ : Calls)
    (h : Calls.idle.run schedule = some σ) (i j : Nat)
    (hi : (σ.pc i).holdsLock = true) (hj : (σ.pc j).holdsLock = true) : i = j :=
  (exclusive_run schedule Calls.idle σ
    ⟨fun i _ hi => (by cases hi), fun i hi => (by cases hi)⟩ h).1 i j hi hj

/-! ## C12: enumeration and recorded diagnostics -/

/-- C12 at a concrete input: `hasURI` answers false for a key that the map has; in the
pass over `crossFileEnv` the diagnostic recorded for the second concept file while the
first one is processed is in the map after the first iteration, and the enumeration of
the second file replaces its list by the empty one, so the map that `getDiagnostics`
returns has lost it. -/
theorem hasURI_discards_recorded :
    diagnosticsMap.hasURI [("file:///b.cpt", [crossFileDiagnostic])] "file:///b.cpt" = false ∧
    (∃ dm1, validateConceptsLoop crossFileEnv ["/a.cpt"] () [] = .ok ((), dm1) ∧
      crossFileDiagnostic ∈ diagnosticsMap.listOf dm1 "file:///b.cpt") ∧
    ∃ dm, getDiagnostics crossFileEnv = .ok dm ∧
      GoMap.get? dm "file:///b.cpt" = some [] ∧
      crossFileDiagnostic ∉ diagnosticsMap.listOf dm "file:///b.cpt" := by
  refine ⟨rfl, ⟨_, rfl, ?_⟩, _, rfl, ?_, ?_⟩
  · decide
  · rfl
  · decide

end Gauge
